import Mathlib

/-! The xv6 buffer cache (`kernel/bio.c`) and page allocator (`kernel/kalloc.c`).

A shallow embedding of the two kernel components and the properties proved of them.

Conventions of the embedding.

* A `struct buf *` is the index of the buffer in `bcache.buf`; the chain
  `bcache.hashtable[i].next`, `->next`, ... is the list of the buffers met when the
  chain is walked from the bucket head.
* A `struct run *` is the page address; a free list is the list of the (non-null)
  page addresses met when the chain is walked from `freelist`.
* `uint` fields are natural numbers, reduced modulo `2 ^ 32` where the code can wrap.
* A call either returns, halts the kernel in `panic`, suspends its caller in
  `acquiresleep`, or indexes an array out of bounds; `Outcome` records which, together
  with the state at that point.
* Calls run one after the other, each to its return; the spinlocks appear where a
  property is about them: as the lock events of `bget` (`bgetT`) and in the steps of
  concurrent `kalloc` calls (`kstep`).
-/

/-! ## Outcomes of a kernel call -/

/-- The messages of the `panic` calls in the two files. -/
inductive PanicMsg where
  | bget_no_buffers
  | bwrite
  | brelse
  | kfree
  deriving DecidableEq, Repr

/-- How a call ends: `ret s a` it returned `a` in state `s`; `panic m s` the kernel
halted in `panic(m)` in state `s`; `sleep s b` the caller is suspended in
`acquiresleep(&b->lock)` because the lock is taken; `oob s` the next access indexes
`bcache.lock` / `bcache.hashtable` with a negative subscript. -/
inductive Outcome (σ α : Type) where
  | ret (s : σ) (a : α)
  | panic (m : PanicMsg) (s : σ)
  | sleep (s : σ) (b : Nat)
  | oob (s : σ)

namespace Outcome

/-- The state in which the call ended, however it ended. -/
def state {σ α : Type} : Outcome σ α → σ
  | ret s _ => s
  | panic _ s => s
  | sleep s _ => s
  | oob s => s

/-- The state after a call that returned. -/
def returned {σ α : Type} : Outcome σ α → Option σ
  | ret s _ => some s
  | _ => none

/-- The message of the `panic` in which the call halted the kernel, if it did. -/
def halted {σ α : Type} : Outcome σ α → Option PanicMsg
  | panic m _ => some m
  | _ => none

end Outcome

/-! ## kalloc.c -/

namespace Kalloc

/-- The allocator: `freelist i` is `kmem_pool[i].freelist`, `junk pa` the byte that the
last `memset` wrote over the page at `pa` (0 if there was none). -/
structure Kmem where
  freelist : Nat → List Nat
  junk : Nat → Nat

/-- The test at the top of `kfree`:
`((uint64)pa % PGSIZE) != 0 || (char*)pa < end || (uint64)pa >= PHYSTOP`. -/
def kfreeBad (PGSIZE PHYSTOP end_ pa : Nat) : Prop :=
  pa % PGSIZE ≠ 0 ∨ pa < end_ ∨ pa ≥ PHYSTOP

instance (PGSIZE PHYSTOP end_ pa : Nat) : Decidable (kfreeBad PGSIZE PHYSTOP end_ pa) := by
  unfold kfreeBad; infer_instance

/-- The function `kfree(pa)` on the CPU `id` (`PGSIZE`, `PHYSTOP` and `end` are declared outside
the file). -/
def kfree (PGSIZE PHYSTOP end_ : Nat) (k : Kmem) (id pa : Nat) : Outcome Kmem Unit :=
  if kfreeBad PGSIZE PHYSTOP end_ pa then .panic .kfree k
  else
    -- memset(pa, 1, PGSIZE)
    let k1 : Kmem := { k with junk := Function.update k.junk pa 1 }
    -- r->next = kmem_pool[id].freelist; kmem_pool[id].freelist = r
    .ret { k1 with freelist := Function.update k1.freelist id (pa :: k1.freelist id) } ()

/-- The stealing loop of `kalloc`, over the pool indices still to visit: the first pool
other than `id` with a non-empty list gives its head. Returns the lists and `r`. -/
def steal (id : Nat) (fl : Nat → List Nat) : List Nat → (Nat → List Nat) × Nat
  | [] => (fl, 0)
  | i :: rest =>
    if i = id then steal id fl rest
    else
      match fl i with
      | r :: next => (Function.update fl i next, r)
      | [] => steal id fl rest

/-- The function `kalloc()` on the CPU `id`; the result is the page address, 0 for failure. -/
def kalloc (NCPU : Nat) (k : Kmem) (id : Nat) : Kmem × Nat :=
  let res : (Nat → List Nat) × Nat :=
    match k.freelist id with
    | r :: next => (Function.update k.freelist id next, r)
    | [] => steal id k.freelist (List.range NCPU)
  -- if(r) memset((char*)r, 5, PGSIZE)
  ({ freelist := res.1, junk := if res.2 ≠ 0 then Function.update k.junk res.2 5 else k.junk },
   res.2)

/-- A call of the allocator interface, with the CPU it runs on. -/
inductive KOp where
  | kalloc (id : Nat)
  | kfree (id pa : Nat)

/-- The allocator after a sequence of calls; a `kfree` that panics leaves it as it is
(such sequences are excluded by `Legal`). -/
def after (NCPU PGSIZE PHYSTOP end_ : Nat) : Kmem → List KOp → Kmem
  | k, [] => k
  | k, .kalloc id :: ops => after NCPU PGSIZE PHYSTOP end_ (kalloc NCPU k id).1 ops
  | k, .kfree id pa :: ops =>
    after NCPU PGSIZE PHYSTOP end_ (kfree PGSIZE PHYSTOP end_ k id pa).state ops

/-- The pages that a `kalloc` of the sequence returned and that no later `kfree` of the
sequence has taken back. -/
def owned (NCPU PGSIZE PHYSTOP end_ : Nat) : Kmem → List KOp → List Nat → List Nat
  | _, [], acc => acc
  | k, .kalloc id :: ops, acc =>
    let r := (kalloc NCPU k id).2
    owned NCPU PGSIZE PHYSTOP end_ (kalloc NCPU k id).1 ops (if r = 0 then acc else r :: acc)
  | k, .kfree id pa :: ops, acc =>
    owned NCPU PGSIZE PHYSTOP end_ (kfree PGSIZE PHYSTOP end_ k id pa).state ops
      (acc.filter (fun q => q ≠ pa))

/-- The page `pa` is on no pool's free list. -/
def Allocated (NCPU : Nat) (k : Kmem) (pa : Nat) : Prop :=
  ∀ i, i < NCPU → pa ∉ k.freelist i

/-- The sequences of the no-double-allocation property: every call runs on a CPU below
`NCPU`, and `kfree` is given a page that passes its check and is on no free list. -/
def Legal (NCPU PGSIZE PHYSTOP end_ : Nat) : Kmem → List KOp → Prop
  | _, [] => True
  | k, .kalloc id :: ops =>
    id < NCPU ∧ Legal NCPU PGSIZE PHYSTOP end_ (kalloc NCPU k id).1 ops
  | k, .kfree id pa :: ops =>
    id < NCPU ∧ ¬ kfreeBad PGSIZE PHYSTOP end_ pa ∧ Allocated NCPU k pa ∧
      Legal NCPU PGSIZE PHYSTOP end_ (kfree PGSIZE PHYSTOP end_ k id pa).state ops

/-- The free lists are duplicate-free and pairwise disjoint. -/
def PoolsOK (NCPU : Nat) (k : Kmem) : Prop :=
  (∀ i, i < NCPU → (k.freelist i).Nodup) ∧
  (∀ i j, i < NCPU → j < NCPU → i ≠ j → ∀ pa, pa ∈ k.freelist i → pa ∉ k.freelist j)

/-- An allocator with two free pages on the list of CPU 0 and none on that of CPU 1. -/
def exampleKmem : Kmem :=
  { freelist := fun i => if i = 0 then [4096, 8192] else []
    junk := fun _ => 0 }

/-- A run on two CPUs: CPU 1 steals a page, CPU 0 allocates, CPU 1 frees its page, CPU 0
allocates once more. -/
def exampleOps : List KOp :=
  [.kalloc 1, .kalloc 0, .kfree 1 4096, .kalloc 0]

/-- The macro `PGROUNDUP(sz)` of `riscv.h`, `(sz + PGSIZE - 1) & ~(PGSIZE - 1)`, declared
outside the file: for the page size, a power of two, the mask rounds `sz + PGSIZE - 1`
down to a multiple of `PGSIZE`. -/
def PGROUNDUP (PGSIZE sz : Nat) : Nat := (sz + PGSIZE - 1) / PGSIZE * PGSIZE

/-- The loop `for(; p + PGSIZE <= (char*)pa_end; p += PGSIZE) kfree(p);` of `freerange`
on the CPU `id`, with `fuel` bounding the number of rounds: `none` when the fuel is used
up before the loop ends. A panic of `kfree` ends it. -/
def freerangeLoop (PGSIZE PHYSTOP end_ id pa_end : Nat) :
    Nat → Kmem → Nat → Option (Outcome Kmem Unit)
  | 0, k, p => if p + PGSIZE ≤ pa_end then none else some (.ret k ())
  | fuel + 1, k, p =>
    if p + PGSIZE ≤ pa_end then
      match kfree PGSIZE PHYSTOP end_ k id p with
      | .ret k2 _ => freerangeLoop PGSIZE PHYSTOP end_ id pa_end fuel k2 (p + PGSIZE)
      | o => some o
    else some (.ret k ())

/-- The function `freerange(pa_start, pa_end)` on the CPU `id`. Addresses are natural
numbers: with `pa_end` at most `PHYSTOP`, an address of physical memory, neither the
rounding nor `p + PGSIZE` reaches `2 ^ 64`. -/
def freerange (PGSIZE PHYSTOP end_ id fuel : Nat) (k : Kmem) (pa_start pa_end : Nat) :
    Option (Outcome Kmem Unit) :=
  freerangeLoop PGSIZE PHYSTOP end_ id pa_end fuel k (PGROUNDUP PGSIZE pa_start)

/-- The allocator in zero-initialised static storage: every list empty. -/
def Kmem.zero : Kmem := { freelist := fun _ => [], junk := fun _ => 0 }

/-- The function `kinit()` run at boot on the CPU `id`: the locks are initialised, which
does not touch the lists, then `freerange(end, (void*)PHYSTOP)`. -/
def kinit (PGSIZE PHYSTOP end_ id fuel : Nat) : Option (Outcome Kmem Unit) :=
  freerange PGSIZE PHYSTOP end_ id fuel Kmem.zero end_ PHYSTOP

/-- The pages `p, p + PGSIZE, ...`, `n` of them, the last one first. -/
def pagesDown (PGSIZE p : Nat) : Nat → List Nat
  | 0 => []
  | n + 1 => (p + n * PGSIZE) :: pagesDown PGSIZE p n

/-- The place of a CPU in `kalloc`: outside a call; at `acquire(&kmem_pool[id].lock)`;
holding its own lock at `r = kmem_pool[id].freelist`; at the test `i<NCPU` of the
stealing loop; holding the lock of pool `i` at `r = kmem_pool[i].freelist`; at
`release(&kmem_pool[id].lock)` with `r`; returned with `r`. -/
inductive Pc where
  | idle
  | acquireOwn
  | own
  | loop (i : Nat)
  | other (i : Nat)
  | releaseOwn (r : Nat)
  | returned (r : Nat)
  deriving DecidableEq, Repr

/-- The allocator shared by the CPUs: the free lists, for every pool lock the CPU that
holds it, and the place of every CPU. -/
structure Sys where
  freelist : Nat → List Nat
  lock : Nat → Option Nat
  pc : Nat → Pc

/-- Modelled from the spec: `acquire` of the spinlock primitives, which are outside the
repository (a "non-blocking mutex"): the CPU takes the lock if it is free; `none` while
the lock is held, when the CPU spins. -/
def acquire (lock : Nat → Option Nat) (l cpu : Nat) : Option (Nat → Option Nat) :=
  if lock l = none then some (Function.update lock l (some cpu)) else none

/-- Modelled from the spec: `release` of the spinlock primitives. -/
def release (lock : Nat → Option Nat) (l : Nat) : Nat → Option Nat :=
  Function.update lock l none

/-- One step of the CPU `id` in `kalloc`, up to its next lock operation; `none` when the
CPU spins in `acquire` (or has returned, or is no CPU). A CPU outside a call calls
`kalloc`. -/
def kstep (NCPU : Nat) (s : Sys) (id : Nat) : Option Sys :=
  if id < NCPU then
    match s.pc id with
    | .idle => some { s with pc := Function.update s.pc id .acquireOwn }
    | .returned _ => none
    | .acquireOwn =>
      match acquire s.lock id id with
      | some lk => some { s with lock := lk, pc := Function.update s.pc id .own }
      | none => none
    | .own =>
      match s.freelist id with
      | r :: next =>
        some { s with freelist := Function.update s.freelist id next
                      pc := Function.update s.pc id (.releaseOwn r) }
      | [] => some { s with pc := Function.update s.pc id (.loop 0) }
    | .loop i =>
      if i < NCPU then
        if i = id then some { s with pc := Function.update s.pc id (.loop (i + 1)) }
        else
          match acquire s.lock i id with
          | some lk => some { s with lock := lk, pc := Function.update s.pc id (.other i) }
          | none => none
      else some { s with pc := Function.update s.pc id (.releaseOwn 0) }
    | .other i =>
      match s.freelist i with
      | r :: next =>
        some { freelist := Function.update s.freelist i next
               lock := release s.lock i
               pc := Function.update s.pc id (.releaseOwn r) }
      | [] => some { s with lock := release s.lock i
                            pc := Function.update s.pc id (.loop (i + 1)) }
    | .releaseOwn r =>
      some { s with lock := release s.lock id, pc := Function.update s.pc id (.returned r) }
  else none

/-- An interleaving: the CPUs of the schedule take a step one after the other; a CPU
that spins leaves the state as it is. -/
def interleave (NCPU : Nat) (s : Sys) (sched : List Nat) : Sys :=
  sched.foldl (fun s id => (kstep NCPU s id).getD s) s

/-- The pool lock a CPU is about to acquire. -/
def waitsFor (NCPU : Nat) (s : Sys) (id : Nat) : Option Nat :=
  match s.pc id with
  | .acquireOwn => some id
  | .loop i => if i < NCPU ∧ i ≠ id then some i else none
  | _ => none

/-- A set of CPUs each of which holds its own pool lock and waits for a pool lock held
by another CPU of the set. -/
def Deadlocked (NCPU : Nat) (s : Sys) (cpus : List Nat) : Prop :=
  cpus ≠ [] ∧ ∀ id ∈ cpus, id < NCPU ∧ s.lock id = some id ∧
    ∃ l o, waitsFor NCPU s id = some l ∧ o ∈ cpus ∧ o ≠ id ∧ s.lock l = some o

/-- Two CPUs outside `kalloc`, every free list empty (all pages allocated), no lock
held. -/
def exampleExhausted : Sys :=
  { freelist := fun _ => [], lock := fun _ => none, pc := fun _ => .idle }

/-- Both CPUs call `kalloc`; each acquires the lock of its own pool and finds its list
empty, and CPU 0 passes its own index in the stealing loop. -/
def exampleSchedule : List Nat := [0, 0, 1, 1, 0, 1, 0]

/-- The state after the example schedule. -/
def exampleDeadlock : Sys := interleave 2 exampleExhausted exampleSchedule

/-- The call of `kalloc` on the CPU `id` alone, as an interleaving: `2 * NCPU + 5` steps
of that CPU take it to its return. -/
def kallocAlone (NCPU : Nat) (k : Kmem) (id : Nat) : Sys :=
  interleave NCPU { freelist := k.freelist, lock := fun _ => none, pc := fun _ => .idle }
    (List.replicate (2 * NCPU + 5) id)

end Kalloc

/-! ## bio.c -/

namespace Bio

/-- The number of hash buckets, `#define NBUCKET 13`. -/
def NBUCKET : Nat := 13

/-- The conversion of a `uint` argument to the `int` parameter of `hash`. -/
def toInt (x : Nat) : Int :=
  if x % 2 ^ 32 < 2 ^ 31 then ((x % 2 ^ 32 : Nat) : Int) else ((x % 2 ^ 32 : Nat) : Int) - 2 ^ 32

/-- The function `int hash(int x) { return x % NBUCKET; }`, with the remainder of C, which has the
sign of `x`. -/
def hash (x : Int) : Int := Int.tmod x NBUCKET

/-- A `struct buf` (declared outside the file): the fields the file uses. `lock` is the
sleep-lock, given by the process that holds it; `data` the block contents, the bytes
read as one number. -/
structure Buf where
  valid : Bool
  dev : Nat
  blockno : Nat
  lock : Option Nat
  refcnt : Nat
  timestamp : Nat
  data : Nat
  deriving DecidableEq, Repr

/-- The `bcache` structure: the buffer array and, for every bucket, the buffers on the
list that starts at `bcache.hashtable[i].next`, in list order. -/
structure Bcache where
  buf : Nat → Buf
  hashtable : Nat → List Nat

/-- A buffer in zero-initialised static storage. -/
def Buf.zero : Buf :=
  { valid := false, dev := 0, blockno := 0, lock := none, refcnt := 0, timestamp := 0, data := 0 }

/-- The function `binit()`: every bucket is emptied, then the buffers `0 .. NBUF-1` are pushed one
after another on the front of bucket 0 (`NBUF` is declared outside the file). -/
def binit (NBUF : Nat) : Bcache :=
  { buf := fun _ => Buf.zero
    hashtable := (List.range NBUF).foldl
      (fun ht b => Function.update ht 0 (b :: ht 0)) (fun _ => []) }

/-- Change one buffer of the array. -/
def Bcache.modify (c : Bcache) (b : Nat) (f : Buf → Buf) : Bcache :=
  { c with buf := Function.update c.buf b (f (c.buf b)) }

/-- The increment `b->refcnt++` of a `uint`. -/
def Bcache.incref (c : Bcache) (b : Nat) : Bcache :=
  c.modify b (fun x => { x with refcnt := (x.refcnt + 1) % 2 ^ 32 })

/-- The decrement `b->refcnt--` of a `uint`: adding `2 ^ 32 - 1` modulo `2 ^ 32`. -/
def Bcache.decref (c : Bcache) (b : Nat) : Bcache :=
  c.modify b (fun x => { x with refcnt := (x.refcnt + (2 ^ 32 - 1)) % 2 ^ 32 })

/-- Modelled from the spec: `acquiresleep(&b->lock)` of the sleep-lock primitives, which
are outside the repository ("blocking mutual exclusion"): the caller `pid` takes the
lock if it is free and is suspended otherwise. Returns `b`. -/
def acquiresleep (c : Bcache) (pid b : Nat) : Outcome Bcache Nat :=
  match (c.buf b).lock with
  | none => .ret (c.modify b (fun x => { x with lock := some pid })) b
  | some _ => .sleep c b

/-- Modelled from the spec: `holdingsleep(&b->lock)`, the "try-query-held" of the
sleep-lock primitives: the lock is taken, and by the caller. -/
def holdingsleep (c : Bcache) (pid b : Nat) : Bool :=
  (c.buf b).lock = some pid

/-- Modelled from the spec: `releasesleep(&b->lock)` of the sleep-lock primitives. -/
def releasesleep (c : Bcache) (b : Nat) : Bcache :=
  c.modify b (fun x => { x with lock := none })

/-- The loop `for(b = bcache.hashtable[h].next; b != 0; b = b->next)` with the test
`b->dev == dev && b->blockno == blockno`: the first buffer of the list that matches. -/
def lookup (buf : Nat → Buf) (dev blockno : Nat) : List Nat → Option Nat
  | [] => none
  | b :: rest =>
    if (buf b).dev = dev ∧ (buf b).blockno = blockno then some b
    else lookup buf dev blockno rest

/-- The candidate of the eviction scan: `minbuf`, the place of `prevminbuf` (the position
of `minbuf` in its list: position 0 is behind the bucket head) and `max_bucket`. -/
structure Cand where
  minbuf : Nat
  prevminbuf : Nat
  max_bucket : Nat
  deriving DecidableEq, Repr

/-- The inner loop of the eviction scan over the list of bucket `i`, from position
`pos` on; the state is the candidate so far (`none` for `minbuf == 0`) and `maxtime`. -/
def scanBucket (buf : Nat → Buf) (i : Nat) :
    List Nat → Nat → Option Cand × Nat → Option Cand × Nat
  | [], _, st => st
  | b :: rest, pos, st =>
    if (buf b).refcnt = 0 ∧ (buf b).timestamp ≥ st.2 then
      scanBucket buf i rest (pos + 1)
        (some { minbuf := b, prevminbuf := pos, max_bucket := i }, (buf b).timestamp)
    else scanBucket buf i rest (pos + 1) st

/-- The eviction scan `for(int i=0; i<NBUCKET; i++)`, started with `minbuf = 0` and
`maxtime = 0`. -/
def scanAll (c : Bcache) : Option Cand × Nat :=
  (List.range NBUCKET).foldl (fun st i => scanBucket c.buf i (c.hashtable i) 0 st) (none, 0)

/-- The assignment `prevminbuf->next = minbuf->next`: the buffer at the position is taken off the list
of its bucket. -/
def Bcache.unlink (c : Bcache) (m : Cand) : Bcache :=
  { c with hashtable :=
      Function.update c.hashtable m.max_bucket ((c.hashtable m.max_bucket).eraseIdx m.prevminbuf) }

/-- The push `minbuf->next = bcache.hashtable[h].next; bcache.hashtable[h].next = minbuf`. -/
def Bcache.push (c : Bcache) (h b : Nat) : Bcache :=
  { c with hashtable := Function.update c.hashtable h (b :: c.hashtable h) }

/-- The four assignments that hand `minbuf` to the new block. -/
def Bcache.claim (c : Bcache) (b dev blockno : Nat) : Bcache :=
  c.modify b (fun x => { x with dev := dev, blockno := blockno, valid := false, refcnt := 1 })

/-- The function `bget(dev, blockno)` called by the process `pid`. -/
def bget (c : Bcache) (pid dev blockno : Nat) : Outcome Bcache Nat :=
  if hash (toInt blockno) < 0 then .oob c
  else
    let h := (hash (toInt blockno)).toNat
    -- Is the block already cached?
    match lookup c.buf dev blockno (c.hashtable h) with
    | some b => acquiresleep (c.incref b) pid b
    | none =>
      let cand := (scanAll c).1
      -- if(minbuf != 0): pop minbuf from its list, push it on the list of bucket h
      let c1 := match cand with
        | some m => (c.unlink m).push h m.minbuf
        | none => c
      match lookup c1.buf dev blockno (c1.hashtable h) with
      | some b => acquiresleep (c1.incref b) pid b
      | none =>
        match cand with
        | none => .panic .bget_no_buffers c1
        | some m => acquiresleep (c1.claim m.minbuf dev blockno) pid m.minbuf

/-- One request to the disk driver: the buffer, its block at that time, the direction. -/
structure DiskReq where
  b : Nat
  dev : Nat
  blockno : Nat
  write : Bool
  deriving DecidableEq, Repr

/-- The buffer cache with the disk behind it: `disk dev blockno` is the content of the
block on the device, `io` the requests the driver has received, oldest first. -/
structure World where
  bcache : Bcache
  disk : Nat → Nat → Nat
  io : List DiskReq

/-- Modelled from the spec: `virtio_disk_rw(b, write)` of the disk driver, which is
outside the repository ("synchronous blocking read/write of one buffer's worth of data
for a given direction flag"), over a disk that is a map from (dev, blockno) to
contents. -/
def virtio_disk_rw (w : World) (b : Nat) (write : Bool) : World :=
  let x := w.bcache.buf b
  let req : DiskReq := { b := b, dev := x.dev, blockno := x.blockno, write := write }
  if write then
    { w with
      disk := fun d n => if d = x.dev ∧ n = x.blockno then x.data else w.disk d n
      io := w.io ++ [req] }
  else
    { w with
      bcache := w.bcache.modify b (fun y => { y with data := w.disk x.dev x.blockno })
      io := w.io ++ [req] }

/-- Carry the outcome of a call on the cache over to the world around it. -/
def liftCache {α : Type} (w : World) : Outcome Bcache α → Outcome World α
  | .ret c a => .ret { w with bcache := c } a
  | .panic m c => .panic m { w with bcache := c }
  | .sleep c b => .sleep { w with bcache := c } b
  | .oob c => .oob { w with bcache := c }

/-- The function `bread(dev, blockno)` called by the process `pid`. -/
def bread (w : World) (pid dev blockno : Nat) : Outcome World Nat :=
  match bget w.bcache pid dev blockno with
  | .ret c b =>
    let w1 : World := { w with bcache := c }
    if !(c.buf b).valid then
      let w2 := virtio_disk_rw w1 b false
      .ret { w2 with bcache := w2.bcache.modify b (fun y => { y with valid := true }) } b
    else .ret w1 b
  | o => liftCache w o

/-- The function `bwrite(b)` called by the process `pid`. -/
def bwrite (w : World) (pid b : Nat) : Outcome World Unit :=
  if !holdingsleep w.bcache pid b then .panic .bwrite w
  else .ret (virtio_disk_rw w b true) ()

/-- The function `brelse(b)` called by the process `pid` when the global `ticks` has the given
value. -/
def brelse (c : Bcache) (pid b ticks : Nat) : Outcome Bcache Unit :=
  if !holdingsleep c pid b then .panic .brelse c
  else
    let c1 := releasesleep c b
    if hash (toInt (c1.buf b).blockno) < 0 then .oob c1
    else
      let c2 := c1.decref b
      if (c2.buf b).refcnt = 0 then
        .ret (c2.modify b (fun x => { x with timestamp := ticks })) ()
      else .ret c2 ()

/-- The function `bpin(b)`. -/
def bpin (c : Bcache) (b : Nat) : Outcome Bcache Unit :=
  if hash (toInt (c.buf b).blockno) < 0 then .oob c
  else .ret (c.incref b) ()

/-- The function `bunpin(b)`. -/
def bunpin (c : Bcache) (b : Nat) : Outcome Bcache Unit :=
  if hash (toInt (c.buf b).blockno) < 0 then .oob c
  else .ret (c.decref b) ()

/-- A call of the buffer-cache interface. `store` is the holder of the payload lock
writing the content `d` into the buffer, the use the interface is for. -/
inductive Op where
  | bget (pid dev blockno : Nat)
  | bread (pid dev blockno : Nat)
  | bwrite (pid b : Nat)
  | brelse (pid b ticks : Nat)
  | bpin (b : Nat)
  | bunpin (b : Nat)
  | store (pid b d : Nat)

/-- The outcome of one call; a call that returns a buffer gives `some` of it. -/
def exec (w : World) : Op → Outcome World (Option Nat)
  | .bget pid dev blockno =>
    match bget w.bcache pid dev blockno with
    | .ret c b => .ret { w with bcache := c } (some b)
    | .panic m c => .panic m { w with bcache := c }
    | .sleep c b => .sleep { w with bcache := c } b
    | .oob c => .oob { w with bcache := c }
  | .bread pid dev blockno =>
    match bread w pid dev blockno with
    | .ret w1 b => .ret w1 (some b)
    | .panic m w1 => .panic m w1
    | .sleep w1 b => .sleep w1 b
    | .oob w1 => .oob w1
  | .bwrite pid b =>
    match bwrite w pid b with
    | .ret w1 _ => .ret w1 none
    | .panic m w1 => .panic m w1
    | .sleep w1 b => .sleep w1 b
    | .oob w1 => .oob w1
  | .brelse pid b ticks =>
    match brelse w.bcache pid b ticks with
    | .ret c _ => .ret { w with bcache := c } none
    | .panic m c => .panic m { w with bcache := c }
    | .sleep c b => .sleep { w with bcache := c } b
    | .oob c => .oob { w with bcache := c }
  | .bpin b =>
    match bpin w.bcache b with
    | .ret c _ => .ret { w with bcache := c } none
    | .panic m c => .panic m { w with bcache := c }
    | .sleep c b => .sleep { w with bcache := c } b
    | .oob c => .oob { w with bcache := c }
  | .bunpin b =>
    match bunpin w.bcache b with
    | .ret c _ => .ret { w with bcache := c } none
    | .panic m c => .panic m { w with bcache := c }
    | .sleep c b => .sleep { w with bcache := c } b
    | .oob c => .oob { w with bcache := c }
  | .store pid b d =>
    if holdingsleep w.bcache pid b then
      .ret { w with bcache := w.bcache.modify b (fun x => { x with data := d }) } none
    else .ret w none

/-- The machine at boot: the cache as `binit` leaves it, a disk, no request made. -/
def boot (NBUF : Nat) (disk : Nat → Nat → Nat) : World :=
  { bcache := binit NBUF, disk := disk, io := [] }

/-- The world after a sequence of calls run one after the other, each to its return;
`none` if a call of the sequence does not return. -/
def run : World → List Op → Option World
  | w, [] => some w
  | w, op :: ops =>
    match exec w op with
    | .ret w2 _ => run w2 ops
    | _ => none

/-- The worlds after the first, the second, ... call of the sequence, as far as the
calls return. -/
def states : World → List Op → List World
  | _, [] => []
  | w, op :: ops =>
    match exec w op with
    | .ret w2 _ => w2 :: states w2 ops
    | _ => []

/-- What the callers know: the buffers that `bget`/`bread` have returned so far, and for
every buffer the number of `bpin` calls not yet matched by a `bunpin`. -/
structure Ghost where
  handed : List Nat
  pins : Nat → Nat

/-- The callers' knowledge before any call. -/
def Ghost.start : Ghost := { handed := [], pins := fun _ => 0 }

/-- The callers' knowledge after a call that returned `r`. -/
def Ghost.step (g : Ghost) : Op → Option Nat → Ghost
  | .bpin b, _ => { g with pins := Function.update g.pins b (g.pins b + 1) }
  | .bunpin b, _ => { g with pins := Function.update g.pins b (g.pins b - 1) }
  | _, some b => { g with handed := b :: g.handed }
  | _, none => g

/-- The calls a caller can make: `bpin` on a buffer that a `bget`/`bread` has returned
(a caller has no other buffer pointers), `bunpin` on a buffer with an unmatched
`bpin`. What `bwrite` and `brelse` need, the sleep-lock, they check themselves. -/
def Admissible (g : Ghost) : Op → Prop
  | .bpin b => b ∈ g.handed
  | .bunpin b => 0 < g.pins b
  | _ => True

/-- A sequence of admissible calls, each of which returns. -/
def Legal : Ghost → World → List Op → Prop
  | _, _, [] => True
  | g, w, op :: ops =>
    Admissible g op ∧
      match exec w op with
      | .ret w2 r => Legal (g.step op r) w2 ops
      | _ => False

/-- The callers' knowledge after a sequence of calls. -/
def Ghost.after : Ghost → World → List Op → Ghost
  | g, _, [] => g
  | g, w, op :: ops =>
    match exec w op with
    | .ret w2 r => Ghost.after (g.step op r) w2 ops
    | _ => g

/-- A candidate that `bget` can unlink: it is the buffer at its position in the list of
its bucket, and its `refcnt` is 0. -/
def GoodCand (c : Bcache) (m : Cand) : Prop :=
  m.max_bucket < NBUCKET ∧ (c.hashtable m.max_bucket)[m.prevminbuf]? = some m.minbuf ∧
    (c.buf m.minbuf).refcnt = 0

/-- The bucket lists partition the buffers `0 .. NBUF-1`: no list has a buffer twice, no
two lists share a buffer, and the buffers on the lists are those below `NBUF`. -/
structure Partition (NBUF : Nat) (ht : Nat → List Nat) : Prop where
  nodup : ∀ i, i < NBUCKET → (ht i).Nodup
  disjoint : ∀ i j, i < NBUCKET → j < NBUCKET → i ≠ j → ∀ b, b ∈ ht i → b ∉ ht j
  cover : ∀ b, b < NBUF ↔ ∃ i, i < NBUCKET ∧ b ∈ ht i

/-- The two buffers are of the same block. -/
def sameKey (x y : Buf) : Prop := x.dev = y.dev ∧ x.blockno = y.blockno

/-- The invariant of the legal runs: every buffer is on the list of the bucket of its
block; on a list, behind a buffer of some block there is no buffer of the same block
that a caller has ever been given; a buffer in use (referenced, locked or pinned) has
been given to a caller; a buffer given to a caller is below `NBUF`; and a buffer never
given to a caller is not valid. -/
structure Inv (NBUF : Nat) (g : Ghost) (c : Bcache) : Prop where
  part : Partition NBUF c.hashtable
  placed : ∀ i, i < NBUCKET → ∀ b ∈ c.hashtable i,
    ¬ hash (toInt (c.buf b).blockno) < 0 ∧ (hash (toInt (c.buf b).blockno)).toNat = i
  first : ∀ i, i < NBUCKET →
    (c.hashtable i).Pairwise (fun x y => sameKey (c.buf x) (c.buf y) → y ∉ g.handed)
  used : ∀ b, ((c.buf b).refcnt ≠ 0 ∨ (c.buf b).lock ≠ none ∨ 0 < g.pins b) → b ∈ g.handed
  listed : ∀ b ∈ g.handed, b < NBUF
  fresh : ∀ b, b ∉ g.handed → (c.buf b).valid = false

/-- The content `D` is what the disk has for the block, and what every valid buffer of
the block has. -/
def Stored (dev blockno D : Nat) (w : World) : Prop :=
  w.disk dev blockno = D ∧
  ∀ x, (w.bcache.buf x).dev = dev → (w.bcache.buf x).blockno = blockno →
    (w.bcache.buf x).valid = true → (w.bcache.buf x).data = D

/-- The call is a `bread` of a block other than (dev, blockno), or a `brelse`. -/
def OtherBlock (dev blockno : Nat) (op : Op) : Prop :=
  (∃ p d n, op = Op.bread p d n ∧ ¬ (d = dev ∧ n = blockno)) ∨ (∃ p x t, op = Op.brelse p x t)

/-- The process `pid` reads the blocks of the list one after the other and releases
each buffer as soon as it has it; every block comes with the value of `ticks` at its
release. -/
def readRelease (pid : Nat) : World → List (Nat × Nat × Nat) → Option World
  | w, [] => some w
  | w, (dev, blockno, ticks) :: rest =>
    match bread w pid dev blockno with
    | .ret w1 b =>
      match brelse w1.bcache pid b ticks with
      | .ret c _ => readRelease pid { w1 with bcache := c } rest
      | _ => none
    | _ => none

/-- Some buffer of the array `0 .. NBUF-1` holds the block. -/
def cached (NBUF : Nat) (w : World) (dev blockno : Nat) : Bool :=
  (List.range NBUF).any
    (fun b => decide ((w.bcache.buf b).dev = dev ∧ (w.bcache.buf b).blockno = blockno))

/-- A disk with the number of the block in every block. -/
def exampleDisk : Nat → Nat → Nat := fun _ n => n

/-- The calls that follow the first read in the example: the buffer it returned
(buffer 0) is pinned and then released at tick 5. -/
def exampleOps : List Op := [.bpin 0, .brelse 1 0 5]

/-- The world after process 1 has read block 1 of device 1 on a fresh cache of three
buffers. -/
def exampleRead : World := (exec (boot 3 exampleDisk) (.bread 1 1 1)).state

/-- The world after the pin and the release that follow. -/
def exampleWorld : World :=
  (exec (exec exampleRead (.bpin 0)).state (.brelse 1 0 5)).state

/-- The world after process 1 has written 77 into the buffer it holds. -/
def exampleStored : World := (exec exampleRead (.store 1 0 77)).state

/-- The world after the write to disk, the release, and a read and release of block 2
by process 2, for which the buffer is recycled. -/
def exampleEvicted : World :=
  (exec (exec (exec (exec exampleStored (.bwrite 1 0)).state (.brelse 1 0 5)).state
    (.bread 2 1 2)).state (.brelse 2 0 6)).state

/-- Process 2 reads the blocks 101 .. 130 of device 1 and keeps every buffer. -/
def exampleHoldAll : List Op := (List.range' 101 30).map (fun n => Op.bread 2 1 n)

/-- The blocks 1 .. 31 of device 1, each with the tick of its release, 101 .. 131. -/
def exampleKeys : List (Nat × Nat × Nat) :=
  (List.range' 1 31).map (fun n => (1, n, 100 + n))

/-- The world after process 1 has read block 1 of device 1 on a fresh cache of three
buffers and released the buffer (buffer 0) at tick 5. -/
def exampleReleased : World := (exec exampleRead (.brelse 1 0 5)).state

/-- The invariant of the eviction scan when it is about to look at position `pos` of the
list of bucket `i`: every buffer with `refcnt` 0 at an earlier place of the scan is
beaten by the candidate (its timestamp is not larger and, if equal, its place is not
later); `maxtime` is the timestamp of the candidate, whose place is earlier; and
`maxtime` is 0 as long as there is no candidate. -/
def ScanInv (c : Bcache) (i pos : Nat) (st : Option Cand × Nat) : Prop :=
  (∀ j q b, (c.hashtable j)[q]? = some b → (j < i ∨ (j = i ∧ q < pos)) →
    (c.buf b).refcnt = 0 →
    ∃ m, st.1 = some m ∧ (c.buf b).timestamp ≤ (c.buf m.minbuf).timestamp ∧
      ((c.buf b).timestamp = (c.buf m.minbuf).timestamp →
        j < m.max_bucket ∨ (j = m.max_bucket ∧ q ≤ m.prevminbuf))) ∧
  (∀ m, st.1 = some m → st.2 = (c.buf m.minbuf).timestamp ∧
    (m.max_bucket < i ∨ (m.max_bucket = i ∧ m.prevminbuf < pos))) ∧
  (st.1 = none → st.2 = 0)

/-- Every buffer on the list of a bucket has a block number whose index `hash(blockno)`
is that bucket. -/
def Placed (c : Bcache) : Prop :=
  ∀ i, i < NBUCKET → ∀ b ∈ c.hashtable i,
    ¬ hash (toInt (c.buf b).blockno) < 0 ∧ (hash (toInt (c.buf b).blockno)).toNat = i

/-- The holders' count of the reference-count property, for every buffer: `holds`, the
number of `bget`/`bread` returns of the buffer for its current key not yet matched by a
`brelse`, and `pins`, the number of `bpin` calls not yet matched by a `bunpin`. -/
structure Tally where
  holds : Nat → Nat
  pins : Nat → Nat

/-- The count before any call. -/
def Tally.start : Tally := { holds := fun _ => 0, pins := fun _ => 0 }

/-- The count after a call that took the cache from `c` to `c2` and returned
`r`. A `bget`/`bread` return of a buffer whose key the call has changed starts the count
of returns for the new key at 1. -/
def Tally.step (t : Tally) (c c2 : Bcache) : Op → Option Nat → Tally
  | .bget _ _ _, some b | .bread _ _ _, some b =>
    { t with
      holds := Function.update t.holds b
        (if (c.buf b).dev = (c2.buf b).dev ∧ (c.buf b).blockno = (c2.buf b).blockno
         then t.holds b + 1 else 1) }
  | .brelse _ b _, _ => { t with holds := Function.update t.holds b (t.holds b - 1) }
  | .bpin b, _ => { t with pins := Function.update t.pins b (t.pins b + 1) }
  | .bunpin b, _ => { t with pins := Function.update t.pins b (t.pins b - 1) }
  | _, _ => t

/-- The calls of a well-formed sequence: `brelse` only on a buffer obtained from
`bread`/`bget` and not yet released, `bunpin` only after a matching `bpin`. -/
def WellFormedCall (t : Tally) : Op → Prop
  | .brelse _ b _ => 0 < t.holds b
  | .bunpin b => 0 < t.pins b
  | _ => True

instance (t : Tally) (op : Op) : Decidable (WellFormedCall t op) := by
  cases op <;> unfold WellFormedCall <;> infer_instance

/-- The count and the world after a well-formed sequence of calls run one after the
other, each to its return; `none` if a call is not well-formed or does not return. -/
def tally : Tally → World → List Op → Option (Tally × World)
  | t, w, [] => some (t, w)
  | t, w, op :: ops =>
    if WellFormedCall t op then
      match exec w op with
      | .ret w2 r => tally (t.step w.bcache w2.bcache op r) w2 ops
      | _ => none
    else none

/-- The count agrees with the cache: a buffer has one unmatched return exactly when its
sleep-lock is held, and its `refcnt` is the count modulo `2 ^ 32`. -/
def Counts (t : Tally) (c : Bcache) : Prop :=
  ∀ b, t.holds b = (if ((c.buf b).lock).isSome then 1 else 0) ∧
    (c.buf b).refcnt = (t.holds b + t.pins b) % 2 ^ 32

/-- The count and the world after `bread`, `bpin`, `brelse` on three buffers. -/
def exampleCount : Tally × World :=
  (tally Tally.start (boot 3 exampleDisk) (Op.bread 1 1 1 :: exampleOps)).getD
    (Tally.start, boot 3 exampleDisk)

/-- The lock events of a call: `acquire(&bcache.lock[i])`, `release(&bcache.lock[i])`,
`acquiresleep(&b->lock)` and `panic`. -/
inductive Ev where
  | acquire (i : Int)
  | release (i : Int)
  | acquiresleep (b : Nat)
  | panic
  deriving DecidableEq, Repr

/-- The variables of the eviction scan between two buckets: the candidate and `maxtime`,
`max_bucket` (`-1` at the start), and the lock events so far. -/
structure Scan where
  st : Option Cand × Nat
  max_bucket : Int
  evs : List Ev

/-- The inner loop of the eviction scan with its `flag`, which is set when the loop
replaces the candidate. -/
def scanBucketF (buf : Nat → Buf) (i : Nat) :
    List Nat → Nat → (Option Cand × Nat) × Bool → (Option Cand × Nat) × Bool
  | [], _, s => s
  | b :: rest, pos, s =>
    if (buf b).refcnt = 0 ∧ (buf b).timestamp ≥ s.1.2 then
      scanBucketF buf i rest (pos + 1)
        ((some { minbuf := b, prevminbuf := pos, max_bucket := i }, (buf b).timestamp), true)
    else scanBucketF buf i rest (pos + 1) s

/-- One round of `for(int i=0; i<NBUCKET; i++)`: the lock of bucket `i` is acquired and
its list scanned; with `flag` set the lock of `max_bucket` is released unless
`max_bucket` is `-1`, and `max_bucket` becomes `i`; without, the lock of bucket `i` is
released. -/
def scanStep (c : Bcache) (s : Scan) (i : Nat) : Scan :=
  let r := scanBucketF c.buf i (c.hashtable i) 0 (s.st, false)
  if r.2 then
    { st := r.1
      max_bucket := i
      evs := s.evs ++ [Ev.acquire i] ++
        (if s.max_bucket ≠ -1 then [Ev.release s.max_bucket] else []) }
  else
    { st := r.1
      max_bucket := s.max_bucket
      evs := s.evs ++ [Ev.acquire i, Ev.release i] }

/-- The eviction scan with its lock events. -/
def scanTrace (c : Bcache) : Scan :=
  (List.range NBUCKET).foldl (scanStep c) { st := (none, 0), max_bucket := -1, evs := [] }

/-- The function `bget(dev, blockno)` called by the process `pid`, with the lock events
of the call in the order they happen. A call that indexes `bcache.lock` out of bounds
has no event. -/
def bgetT (c : Bcache) (pid dev blockno : Nat) : Outcome Bcache Nat × List Ev :=
  if hash (toInt blockno) < 0 then (.oob c, [])
  else
    let hi := hash (toInt blockno)
    let h := hi.toNat
    match lookup c.buf dev blockno (c.hashtable h) with
    | some b =>
      (acquiresleep (c.incref b) pid b, [.acquire hi, .release hi, .acquiresleep b])
    | none =>
      let s := scanTrace c
      let cand := s.st.1
      let c1 := match cand with
        | some m => (c.unlink m).push h m.minbuf
        | none => c
      let evs := [Ev.acquire hi, Ev.release hi] ++ s.evs ++
        (match cand with
          | some _ => [Ev.release s.max_bucket]
          | none => []) ++ [Ev.acquire hi]
      match lookup c1.buf dev blockno (c1.hashtable h) with
      | some b => (acquiresleep (c1.incref b) pid b, evs ++ [.release hi, .acquiresleep b])
      | none =>
        match cand with
        | none => (.panic .bget_no_buffers c1, evs ++ [.panic])
        | some m =>
          (acquiresleep (c1.claim m.minbuf dev blockno) pid m.minbuf,
            evs ++ [.release hi, .acquiresleep m.minbuf])

/-- The bucket locks held after the events, from the locks `H` held before, the last
acquired first. -/
def heldFrom : List Int → List Ev → List Int
  | H, [] => H
  | H, .acquire i :: es => heldFrom (i :: H) es
  | H, .release i :: es => heldFrom (H.erase i) es
  | H, .acquiresleep _ :: es => heldFrom H es
  | H, .panic :: es => heldFrom H es

/-- The bucket locks held after the events of a call. -/
def held (es : List Ev) : List Int := heldFrom [] es

/-- The lock discipline along a list of events, from the locks `H` held before: a lock
is acquired with fewer than two locks held, all of lower index; a lock released is
held; `acquiresleep` is called with no lock held. -/
def Disc : List Int → List Ev → Prop
  | _, [] => True
  | H, .acquire i :: es => (∀ j ∈ H, j < i) ∧ H.length < 2 ∧ Disc (i :: H) es
  | H, .release i :: es => i ∈ H ∧ Disc (H.erase i) es
  | H, .acquiresleep _ :: es => H = [] ∧ Disc H es
  | H, .panic :: es => Disc H es

/-- The invariant of the eviction scan with its lock events, before the round of bucket
`n`: the candidate is the one of the scan of the buckets below `n`; `max_bucket` is the
bucket of the candidate, or `-1` when there is none; the events so far keep the
discipline; and the lock held is the one of `max_bucket`, if any. -/
def ScanT (c : Bcache) (n : Nat) (s : Scan) : Prop :=
  s.st = (List.range n).foldl (fun st i => scanBucket c.buf i (c.hashtable i) 0 st) (none, 0) ∧
  ((s.st.1 = none ∧ s.max_bucket = -1) ∨
    ∃ m, s.st.1 = some m ∧ s.max_bucket = (m.max_bucket : Int)) ∧
  s.max_bucket < (n : Int) ∧ -1 ≤ s.max_bucket ∧
  Disc [] s.evs ∧
  heldFrom [] s.evs = (if s.max_bucket = -1 then [] else [s.max_bucket])

end Bio

/-! ## Properties of kalloc.c -/

namespace Kalloc

theorem steal_cases (id : Nat) (fl : Nat → List Nat) (l : List Nat) :
    (∃ i next, i ∈ l ∧ i ≠ id ∧ fl i = (steal id fl l).2 :: next ∧
        (steal id fl l).1 = Function.update fl i next) ∨
    ((steal id fl l).2 = 0 ∧ (steal id fl l).1 = fl ∧ ∀ i ∈ l, i ≠ id → fl i = []) := by
  induction l with
  | nil => right; simp [steal]
  | cons a rest ih =>
    by_cases ha : a = id
    · simp only [steal, ha, if_true]
      rcases ih with ⟨i, next, hi, hne, h1, h2⟩ | ⟨h1, h2, h3⟩
      · left; exact ⟨i, next, List.mem_cons_of_mem _ hi, hne, h1, h2⟩
      · right
        refine ⟨h1, h2, ?_⟩
        intro i hi hne
        rcases List.mem_cons.1 hi with rfl | hi
        · exact absurd rfl hne
        · exact h3 i hi hne
    · cases hfa : fl a with
      | nil =>
        have hs : steal id fl (a :: rest) = steal id fl rest := by
          simp [steal, ha, hfa]
        rw [hs]
        rcases ih with ⟨i, next, hi, hne, h1, h2⟩ | ⟨h1, h2, h3⟩
        · left; exact ⟨i, next, List.mem_cons_of_mem _ hi, hne, h1, h2⟩
        · right
          refine ⟨h1, h2, ?_⟩
          intro i hi hne
          rcases List.mem_cons.1 hi with rfl | hi
          · exact hfa
          · exact h3 i hi hne
      | cons r next =>
        have hs : steal id fl (a :: rest) = (Function.update fl a next, r) := by
          simp [steal, ha, hfa]
        rw [hs]
        left
        exact ⟨a, next, List.mem_cons_self _ _, ha, hfa, rfl⟩

/-- What `kalloc` does: it pops the head of one pool's list, or it finds every pool
empty and returns 0 with the lists as they were. -/
theorem kalloc_cases (NCPU : Nat) (k : Kmem) (id : Nat) (hid : id < NCPU) :
    (∃ i next, i < NCPU ∧ k.freelist i = (kalloc NCPU k id).2 :: next ∧
        (kalloc NCPU k id).1.freelist = Function.update k.freelist i next) ∨
    ((kalloc NCPU k id).2 = 0 ∧ (kalloc NCPU k id).1 = k ∧
        ∀ i, i < NCPU → k.freelist i = []) := by
  cases hfl : k.freelist id with
  | cons r next =>
    left
    refine ⟨id, next, hid, ?_, ?_⟩ <;> simp [kalloc, hfl]
  | nil =>
    rcases steal_cases id k.freelist (List.range NCPU) with
      ⟨i, next, hi, _, h1, h2⟩ | ⟨h1, h2, h3⟩
    · left
      refine ⟨i, next, List.mem_range.1 hi, ?_, ?_⟩
      · simpa [kalloc, hfl] using h1
      · simpa [kalloc, hfl] using h2
    · right
      refine ⟨by simpa [kalloc, hfl] using h1, ?_, ?_⟩
      · cases k with
        | mk fl jk =>
          simp only [kalloc] at *
          simp only [hfl] at *
          simp [h1, h2]
      · intro i hi
        by_cases hne : i = id
        · rw [hne]; exact hfl
        · exact h3 i (List.mem_range.2 hi) hne

theorem poolsOK_kalloc (NCPU : Nat) (k : Kmem) (id : Nat) (hid : id < NCPU)
    (hk : PoolsOK NCPU k) : PoolsOK NCPU (kalloc NCPU k id).1 := by
  rcases kalloc_cases NCPU k id hid with ⟨i, next, _, h1, h2⟩ | ⟨_, h2, _⟩
  · have hsub : ∀ j, ∀ pa, pa ∈ (kalloc NCPU k id).1.freelist j → pa ∈ k.freelist j := by
      intro j pa hpa
      rw [h2] at hpa
      by_cases hj : j = i
      · subst hj
        rw [Function.update_same] at hpa
        rw [h1]; exact List.mem_cons_of_mem _ hpa
      · rw [Function.update_noteq hj] at hpa; exact hpa
    refine ⟨?_, ?_⟩
    · intro j hj
      rw [h2]
      by_cases hji : j = i
      · subst hji
        rw [Function.update_same]
        have := hk.1 j hj
        rw [h1] at this
        exact (List.nodup_cons.1 this).2
      · rw [Function.update_noteq hji]; exact hk.1 j hj
    · intro a b ha hb hab pa hpa hpb
      exact hk.2 a b ha hb hab pa (hsub a pa hpa) (hsub b pa hpb)
  · rw [h2]; exact hk

theorem kfree_ret (PGSIZE PHYSTOP end_ : Nat) (k : Kmem) (id pa : Nat)
    (h : ¬ (pa % PGSIZE ≠ 0 ∨ pa < end_ ∨ pa ≥ PHYSTOP)) :
    kfree PGSIZE PHYSTOP end_ k id pa =
      .ret { freelist := Function.update k.freelist id (pa :: k.freelist id),
             junk := Function.update k.junk pa 1 } () := by
  have h1 : ¬ kfreeBad PGSIZE PHYSTOP end_ pa := h
  simp [kfree, h1]

theorem poolsOK_kfree (NCPU PGSIZE PHYSTOP end_ : Nat) (k : Kmem) (id pa : Nat)
    (hid : id < NCPU) (hbad : ¬ kfreeBad PGSIZE PHYSTOP end_ pa)
    (hal : Allocated NCPU k pa) (hk : PoolsOK NCPU k) :
    PoolsOK NCPU (kfree PGSIZE PHYSTOP end_ k id pa).state := by
  rw [kfree_ret PGSIZE PHYSTOP end_ k id pa hbad]
  simp only [Outcome.state]
  refine ⟨?_, ?_⟩
  · intro j hj
    by_cases hji : j = id
    · subst hji
      simp only [Function.update_same]
      exact List.nodup_cons.2 ⟨hal j hj, hk.1 j hj⟩
    · simp only [Function.update_noteq hji]; exact hk.1 j hj
  · intro a b ha hb hab q hqa hqb
    by_cases hai : a = id
    · subst hai
      have hbi : b ≠ a := fun h => hab h.symm
      simp only [Function.update_same] at hqa
      simp only [Function.update_noteq hbi] at hqb
      rcases List.mem_cons.1 hqa with rfl | hqa
      · exact hal b hb hqb
      · exact hk.2 a b ha hb hab q hqa hqb
    · simp only [Function.update_noteq hai] at hqa
      by_cases hbi : b = id
      · subst hbi
        simp only [Function.update_same] at hqb
        rcases List.mem_cons.1 hqb with rfl | hqb
        · exact hal a ha hqa
        · exact hk.2 a b ha hb hab q hqa hqb
      · simp only [Function.update_noteq hbi] at hqb
        exact hk.2 a b ha hb hab q hqa hqb

/-- The invariant of a legal run: the lists are duplicate-free and disjoint, and no page
handed out and not yet freed is on a list. -/
theorem run_invariant (NCPU PGSIZE PHYSTOP end_ : Nat) (ops : List KOp) :
    ∀ (k : Kmem) (acc : List Nat), PoolsOK NCPU k → (∀ p ∈ acc, Allocated NCPU k p) →
      Legal NCPU PGSIZE PHYSTOP end_ k ops →
      PoolsOK NCPU (after NCPU PGSIZE PHYSTOP end_ k ops) ∧
      ∀ p ∈ owned NCPU PGSIZE PHYSTOP end_ k ops acc,
        Allocated NCPU (after NCPU PGSIZE PHYSTOP end_ k ops) p := by
  induction ops with
  | nil => intro k acc hk hacc _; exact ⟨hk, hacc⟩
  | cons op rest ih =>
    intro k acc hk hacc hl
    cases op with
    | kalloc id =>
      obtain ⟨hid, hl⟩ := hl
      simp only [after, owned]
      apply ih _ _ (poolsOK_kalloc NCPU k id hid hk) _ hl
      rcases kalloc_cases NCPU k id hid with ⟨i, next, hi, h1, h2⟩ | ⟨h0, h2, _⟩
      · have hsub : ∀ j, ∀ pa, pa ∈ (kalloc NCPU k id).1.freelist j → pa ∈ k.freelist j := by
          intro j pa hpa
          rw [h2] at hpa
          by_cases hj : j = i
          · subst hj
            rw [Function.update_same] at hpa
            rw [h1]; exact List.mem_cons_of_mem _ hpa
          · rw [Function.update_noteq hj] at hpa; exact hpa
        have hr : Allocated NCPU (kalloc NCPU k id).1 (kalloc NCPU k id).2 := by
          intro j hj hmem
          by_cases hji : j = i
          · subst hji
            rw [h2, Function.update_same] at hmem
            have := hk.1 j hj
            rw [h1] at this
            exact (List.nodup_cons.1 this).1 hmem
          · have hin : (kalloc NCPU k id).2 ∈ k.freelist i := by
              rw [h1]; exact List.mem_cons_self _ _
            exact hk.2 i j hi hj (fun h => hji h.symm) _ hin (hsub j _ hmem)
        intro p hp
        split_ifs at hp with h0
        · intro j hj hmem; exact hacc p hp j hj (hsub j p hmem)
        · rcases List.mem_cons.1 hp with rfl | hp
          · exact hr
          · intro j hj hmem; exact hacc p hp j hj (hsub j p hmem)
      · intro p hp
        rw [if_pos h0] at hp
        rw [h2]; exact hacc p hp
    | kfree id pa =>
      obtain ⟨hid, hbad, hal, hl⟩ := hl
      simp only [after, owned]
      apply ih _ _ (poolsOK_kfree NCPU PGSIZE PHYSTOP end_ k id pa hid hbad hal hk) _ hl
      intro p hp j hj hmem
      simp only [List.mem_filter, decide_eq_true_eq] at hp
      rw [kfree_ret PGSIZE PHYSTOP end_ k id pa hbad] at hmem
      simp only [Outcome.state] at hmem
      by_cases hji : j = id
      · subst hji
        simp only [Function.update_same] at hmem
        rcases List.mem_cons.1 hmem with rfl | hmem
        · exact hp.2 rfl
        · exact hacc p hp.1 j hj hmem
      · simp only [Function.update_noteq hji] at hmem
        exact hacc p hp.1 j hj hmem

theorem legal_append (NCPU PGSIZE PHYSTOP end_ : Nat) (pre : List KOp) :
    ∀ (k : Kmem) (rest : List KOp), Legal NCPU PGSIZE PHYSTOP end_ k (pre ++ rest) →
      Legal NCPU PGSIZE PHYSTOP end_ k pre ∧
      Legal NCPU PGSIZE PHYSTOP end_ (after NCPU PGSIZE PHYSTOP end_ k pre) rest := by
  induction pre with
  | nil => intro k rest h; exact ⟨trivial, h⟩
  | cons op pre ih =>
    intro k rest h
    cases op with
    | kalloc id =>
      obtain ⟨hid, h⟩ := h
      have := ih _ rest h
      exact ⟨⟨hid, this.1⟩, this.2⟩
    | kfree id pa =>
      obtain ⟨hid, hbad, hal, h⟩ := h
      have := ih _ rest h
      exact ⟨⟨hid, hbad, hal, this.1⟩, this.2⟩

theorem after_append (NCPU PGSIZE PHYSTOP end_ : Nat) (pre : List KOp) :
    ∀ (k : Kmem) (rest : List KOp), after NCPU PGSIZE PHYSTOP end_ k (pre ++ rest) =
      after NCPU PGSIZE PHYSTOP end_ (after NCPU PGSIZE PHYSTOP end_ k pre) rest := by
  induction pre with
  | nil => intro k rest; rfl
  | cons op pre ih =>
    intro k rest
    cases op <;> simp [after, ih]

/-- C2. No double allocation. From free lists that are duplicate-free and pairwise
disjoint, after any sequence of `kalloc` and `kfree` calls on CPUs below `NCPU` in which
`kfree` is only given a page that passes its check and is on no free list, the lists are
still duplicate-free and pairwise disjoint; and a page returned by a `kalloc` of the
sequence is not one that an earlier `kalloc` returned and no `kfree` has taken back
since. -/
theorem no_double_allocation (NCPU PGSIZE PHYSTOP end_ : Nat) (k : Kmem) (ops : List KOp)
    (hk : PoolsOK NCPU k) (hl : Legal NCPU PGSIZE PHYSTOP end_ k ops) :
    ((∀ i, i < NCPU → ((after NCPU PGSIZE PHYSTOP end_ k ops).freelist i).Nodup) ∧
     (∀ i j, i < NCPU → j < NCPU → i ≠ j → ∀ pa,
        pa ∈ (after NCPU PGSIZE PHYSTOP end_ k ops).freelist i →
        pa ∉ (after NCPU PGSIZE PHYSTOP end_ k ops).freelist j)) ∧
    ∀ pre id post, ops = pre ++ KOp.kalloc id :: post →
      (kalloc NCPU (after NCPU PGSIZE PHYSTOP end_ k pre) id).2 ≠ 0 →
      (kalloc NCPU (after NCPU PGSIZE PHYSTOP end_ k pre) id).2 ∉
        owned NCPU PGSIZE PHYSTOP end_ k pre [] := by
  refine ⟨(run_invariant NCPU PGSIZE PHYSTOP end_ ops k [] hk (by simp) hl).1, ?_⟩
  intro pre id post hops hr hmem
  subst hops
  obtain ⟨hpre, hrest⟩ := legal_append NCPU PGSIZE PHYSTOP end_ pre k _ hl
  obtain ⟨hid, _⟩ := hrest
  obtain ⟨_, hown⟩ := run_invariant NCPU PGSIZE PHYSTOP end_ pre k [] hk (by simp) hpre
  rcases kalloc_cases NCPU (after NCPU PGSIZE PHYSTOP end_ k pre) id hid with
    ⟨i, next, hi, h1, _⟩ | ⟨h0, _, _⟩
  · refine hown _ hmem i hi ?_
    rw [h1]; exact List.mem_cons_self _ _
  · exact hr h0

/-- C8. On a CPU below `NCPU`, with free lists that hold page addresses (not the null
pointer), `kalloc` returns 0 exactly when the lists of all `NCPU` pools are empty, and
then it leaves the allocator as it was; so whenever some pool has a free page, `kalloc`
on any CPU returns a page, one that was on a pool's list. -/
theorem kalloc_fails_iff_all_empty (NCPU : Nat) (k : Kmem) (id : Nat) (hid : id < NCPU)
    (hnull : ∀ i, i < NCPU → 0 ∉ k.freelist i) :
    ((kalloc NCPU k id).2 = 0 ↔ ∀ i, i < NCPU → k.freelist i = []) ∧
    ((kalloc NCPU k id).2 = 0 → (kalloc NCPU k id).1 = k) ∧
    (∀ j, j < NCPU → k.freelist j ≠ [] →
      (kalloc NCPU k id).2 ≠ 0 ∧ ∃ i, i < NCPU ∧ (kalloc NCPU k id).2 ∈ k.freelist i) := by
  have hpos : ∀ i next, i < NCPU → k.freelist i = (kalloc NCPU k id).2 :: next →
      (kalloc NCPU k id).2 ≠ 0 := by
    intro i next hi h1 h0
    apply hnull i hi
    rw [h1, h0]; exact List.mem_cons_self _ _
  rcases kalloc_cases NCPU k id hid with ⟨i, next, hi, h1, _⟩ | ⟨h0, h2, h3⟩
  · refine ⟨⟨fun h0 => absurd h0 (hpos i next hi h1), fun hall => ?_⟩,
      fun h0 => absurd h0 (hpos i next hi h1), fun j _ _ => ⟨hpos i next hi h1, i, hi, ?_⟩⟩
    · rw [hall i hi] at h1; cases h1
    · rw [h1]; exact List.mem_cons_self _ _
  · exact ⟨⟨fun _ => h3, fun _ => h0⟩, fun _ => h2, fun j hj hne => absurd (h3 j hj) hne⟩

/-- C9. `kfree(pa)` halts the kernel, in `panic("kfree")`, exactly when `pa` is not a
multiple of `PGSIZE`, or is below `end`, or is at or above `PHYSTOP`; the allocator is
then as it was before the call (no list and no page content has been touched), and in
the other case the call returns. -/
theorem kfree_panics_iff (PGSIZE PHYSTOP end_ : Nat) (k : Kmem) (id pa : Nat) :
    ((∃ m s, kfree PGSIZE PHYSTOP end_ k id pa = .panic m s) ↔
      (pa % PGSIZE ≠ 0 ∨ pa < end_ ∨ pa ≥ PHYSTOP)) ∧
    (∀ m s, kfree PGSIZE PHYSTOP end_ k id pa = .panic m s → m = .kfree ∧ s = k) ∧
    (¬ (pa % PGSIZE ≠ 0 ∨ pa < end_ ∨ pa ≥ PHYSTOP) →
      ∃ s, kfree PGSIZE PHYSTOP end_ k id pa = .ret s ()) := by
  by_cases h : pa % PGSIZE ≠ 0 ∨ pa < end_ ∨ pa ≥ PHYSTOP
  · have hb : kfreeBad PGSIZE PHYSTOP end_ pa := h
    have hk : kfree PGSIZE PHYSTOP end_ k id pa = .panic .kfree k := by simp [kfree, hb]
    refine ⟨⟨fun _ => h, fun _ => ⟨_, _, hk⟩⟩, ?_, fun hn => absurd h hn⟩
    intro m s hms
    rw [hk] at hms
    cases hms
    exact ⟨rfl, rfl⟩
  · have hk := kfree_ret PGSIZE PHYSTOP end_ k id pa h
    refine ⟨⟨?_, fun hb => absurd hb h⟩, ?_, fun _ => ⟨_, hk⟩⟩
    · rintro ⟨m, s, hms⟩
      rw [hk] at hms; cases hms
    · intro m s hms
      rw [hk] at hms; cases hms

theorem examplePoolsOK : PoolsOK 2 exampleKmem := by
  refine ⟨by unfold exampleKmem; decide, ?_⟩
  intro i j hi hj hij
  interval_cases i <;> interval_cases j <;> simp [exampleKmem] at hij ⊢

theorem exampleLegal : Legal 2 4096 40960 4096 exampleKmem exampleOps := by
  simp [Legal, exampleOps, exampleKmem, kalloc, kfree, steal, kfreeBad, Allocated,
    Outcome.state, List.range, List.range.loop, Function.update]

theorem no_double_allocation_witness :
    PoolsOK 2 exampleKmem ∧ Legal 2 4096 40960 4096 exampleKmem exampleOps ∧
    ∀ i, i < 2 → ((after 2 4096 40960 4096 exampleKmem exampleOps).freelist i).Nodup :=
  ⟨examplePoolsOK, exampleLegal,
    (no_double_allocation 2 4096 40960 4096 exampleKmem exampleOps
      examplePoolsOK exampleLegal).1.1⟩

theorem kalloc_fails_iff_all_empty_witness :
    (kalloc 2 exampleKmem 1).2 ≠ 0 ∧
      ∃ i, i < 2 ∧ (kalloc 2 exampleKmem 1).2 ∈ exampleKmem.freelist i :=
  (kalloc_fails_iff_all_empty 2 exampleKmem 1 (by decide)
    (by unfold exampleKmem; decide)).2.2 0 (by decide) (by unfold exampleKmem; decide)

/-- The stealing loop takes from the first pool of the visiting order, other than `id`,
that has a page. -/
theorem steal_first (id : Nat) (fl : Nat → List Nat) (l : List Nat)
    (h : ∃ j ∈ l, j ≠ id ∧ fl j ≠ []) :
    ∃ l1 i l2 r next, l = l1 ++ i :: l2 ∧ i ≠ id ∧ fl i = r :: next ∧
      (∀ j ∈ l1, j ≠ id → fl j = []) ∧
      steal id fl l = (Function.update fl i next, r) := by
  induction l with
  | nil => obtain ⟨j, hj, _⟩ := h; cases hj
  | cons a rest ih =>
    by_cases ha : a = id
    · have hrest : ∃ j ∈ rest, j ≠ id ∧ fl j ≠ [] := by
        obtain ⟨j, hj, hne, hfl⟩ := h
        rcases List.mem_cons.1 hj with e | hj
        · exact absurd (e.trans ha) hne
        · exact ⟨j, hj, hne, hfl⟩
      obtain ⟨l1, i, l2, r, next, h1, h2, h3, h4, h5⟩ := ih hrest
      refine ⟨a :: l1, i, l2, r, next, by simp [h1], h2, h3, ?_, ?_⟩
      · intro j hj hne
        rcases List.mem_cons.1 hj with e | hj
        · exact absurd (e.trans ha) hne
        · exact h4 j hj hne
      · simp only [steal, if_pos ha]
        exact h5
    · cases hfa : fl a with
      | cons r next =>
        refine ⟨[], a, rest, r, next, rfl, ha, hfa, by simp, ?_⟩
        simp [steal, ha, hfa]
      | nil =>
        have hrest : ∃ j ∈ rest, j ≠ id ∧ fl j ≠ [] := by
          obtain ⟨j, hj, hne, hfl⟩ := h
          rcases List.mem_cons.1 hj with e | hj
          · rw [e] at hfl; exact absurd hfa hfl
          · exact ⟨j, hj, hne, hfl⟩
        obtain ⟨l1, i, l2, r, next, h1, h2, h3, h4, h5⟩ := ih hrest
        refine ⟨a :: l1, i, l2, r, next, by simp [h1], h2, h3, ?_, ?_⟩
        · intro j hj hne
          rcases List.mem_cons.1 hj with e | hj
          · rw [e]; exact hfa
          · exact h4 j hj hne
        · have hs : steal id fl (a :: rest) = steal id fl rest := by
            simp [steal, ha, hfa]
          rw [hs]; exact h5

theorem range_split_lt (n : Nat) (l1 l2 : List Nat) (i : Nat)
    (h : List.range n = l1 ++ i :: l2) : i < n ∧ ∀ j, j < i → j ∈ l1 := by
  have hi : i ∈ List.range n := by rw [h]; simp
  refine ⟨List.mem_range.1 hi, ?_⟩
  intro j hj
  have hjn : j ∈ List.range n := List.mem_range.2 (lt_trans hj (List.mem_range.1 hi))
  rw [h] at hjn
  rcases List.mem_append.1 hjn with h1 | h2
  · exact h1
  · exfalso
    have hs : (List.range n).Pairwise (fun a b => a < b) := List.pairwise_lt_range n
    rw [h, List.pairwise_append] at hs
    rcases List.mem_cons.1 h2 with e | h3
    · omega
    · have := (List.pairwise_cons.1 hs.2.1).1 j h3
      omega

/-- C13. The result of `kalloc` on CPU `id`. If the list of pool `id` is not empty,
`kalloc` returns its head, takes exactly that page off the list of pool `id` and leaves
the list of every other pool as it was. If the list of pool `id` is empty and some other
pool below `NCPU` has a page, `kalloc` returns the head of the lowest-indexed non-empty
pool `i ≠ id`, takes exactly that page off the list of pool `i` and leaves the list of
every other pool, `id` included, as it was. -/
theorem kalloc_result (NCPU : Nat) (k : Kmem) (id : Nat) :
    (∀ r next, k.freelist id = r :: next →
      (kalloc NCPU k id).2 = r ∧ (kalloc NCPU k id).1.freelist id = next ∧
      ∀ j, j ≠ id → (kalloc NCPU k id).1.freelist j = k.freelist j) ∧
    (k.freelist id = [] → (∃ j, j < NCPU ∧ j ≠ id ∧ k.freelist j ≠ []) →
      ∃ i r next, i < NCPU ∧ i ≠ id ∧ k.freelist i = r :: next ∧
        (∀ j, j < i → j ≠ id → k.freelist j = []) ∧
        (kalloc NCPU k id).2 = r ∧ (kalloc NCPU k id).1.freelist i = next ∧
        ∀ j, j ≠ i → (kalloc NCPU k id).1.freelist j = k.freelist j) := by
  constructor
  · intro r next h
    refine ⟨by simp [kalloc, h], by simp [kalloc, h], ?_⟩
    intro j hj
    simp [kalloc, h, Function.update_noteq hj]
  · intro h hex
    obtain ⟨j, hjN, hjid, hjfl⟩ := hex
    obtain ⟨l1, i, l2, r, next, h1, h2, h3, h4, h5⟩ :=
      steal_first id k.freelist (List.range NCPU) ⟨j, List.mem_range.2 hjN, hjid, hjfl⟩
    obtain ⟨hiN, hlt⟩ := range_split_lt NCPU l1 l2 i h1
    refine ⟨i, r, next, hiN, h2, h3, fun j hj hne => h4 j (hlt j hj) hne, ?_, ?_, ?_⟩
    · simp [kalloc, h, h5]
    · simp [kalloc, h, h5]
    · intro j hj
      simp [kalloc, h, h5, Function.update_noteq hj]

theorem kalloc_result_witness :
    ∃ i r next, i < 2 ∧ i ≠ 1 ∧ exampleKmem.freelist i = r :: next ∧
      (∀ j, j < i → j ≠ 1 → exampleKmem.freelist j = []) ∧
      (kalloc 2 exampleKmem 1).2 = r ∧ (kalloc 2 exampleKmem 1).1.freelist i = next ∧
      ∀ j, j ≠ i → (kalloc 2 exampleKmem 1).1.freelist j = exampleKmem.freelist j :=
  (kalloc_result 2 exampleKmem 1).2 (by decide) ⟨0, by decide, by decide, by decide⟩

theorem pgroundup_ge (PGSIZE sz : Nat) (h : 0 < PGSIZE) : sz ≤ PGROUNDUP PGSIZE sz := by
  unfold PGROUNDUP
  have h1 := Nat.div_add_mod (sz + PGSIZE - 1) PGSIZE
  have h2 := Nat.mod_lt (sz + PGSIZE - 1) h
  have h3 : PGSIZE * ((sz + PGSIZE - 1) / PGSIZE) = (sz + PGSIZE - 1) / PGSIZE * PGSIZE :=
    Nat.mul_comm _ _
  omega

theorem pgroundup_mod (PGSIZE sz : Nat) : PGROUNDUP PGSIZE sz % PGSIZE = 0 := by
  unfold PGROUNDUP
  exact Nat.mul_mod_left _ _

theorem mem_pagesDown (PGSIZE p n pa : Nat) :
    pa ∈ pagesDown PGSIZE p n ↔ ∃ k, k < n ∧ pa = p + k * PGSIZE := by
  induction n with
  | zero => simp [pagesDown]
  | succ n ih =>
    simp only [pagesDown, List.mem_cons, ih]
    constructor
    · rintro (h | ⟨k, hk, h⟩)
      · exact ⟨n, by omega, h⟩
      · exact ⟨k, by omega, h⟩
    · rintro ⟨k, hk, h⟩
      by_cases hkn : k = n
      · left; rw [h, hkn]
      · right; exact ⟨k, by omega, h⟩

theorem nodup_pagesDown (PGSIZE p n : Nat) (h : 0 < PGSIZE) : (pagesDown PGSIZE p n).Nodup := by
  induction n with
  | zero => simp [pagesDown]
  | succ n ih =>
    simp only [pagesDown, List.nodup_cons]
    refine ⟨?_, ih⟩
    rw [mem_pagesDown]
    rintro ⟨k, hk, he⟩
    have : k * PGSIZE < n * PGSIZE := Nat.mul_lt_mul_of_pos_right hk h
    omega

/-- The loop of `freerange`, started at a page address `p0 + done * PGSIZE` at or above
`end` with `n` more pages below `pa_end ≤ PHYSTOP`, frees these pages one after the other
on the list of the CPU `id` and returns, if the fuel is at least `n`. -/
theorem freerangeLoop_spec (PGSIZE PHYSTOP end_ id pa_end p0 : Nat) (hP : 0 < PGSIZE)
    (hmod : p0 % PGSIZE = 0) (hend : end_ ≤ p0) (hpa : pa_end ≤ PHYSTOP) :
    ∀ (n fuel done : Nat) (k : Kmem), n ≤ fuel →
      p0 + (done + n) * PGSIZE ≤ pa_end → pa_end < p0 + (done + n + 1) * PGSIZE →
      k.freelist id = pagesDown PGSIZE p0 done →
      ∃ k2, freerangeLoop PGSIZE PHYSTOP end_ id pa_end fuel k (p0 + done * PGSIZE) =
          some (.ret k2 ()) ∧
        k2.freelist id = pagesDown PGSIZE p0 (done + n) ∧
        ∀ j, j ≠ id → k2.freelist j = k.freelist j := by
  intro n
  induction n with
  | zero =>
    intro fuel done k _ _ hhi hk
    have hno : ¬ (p0 + done * PGSIZE + PGSIZE ≤ pa_end) := by
      have e : (done + 0 + 1) * PGSIZE = done * PGSIZE + PGSIZE := by
        simp [Nat.add_mul]
      rw [e] at hhi
      omega
    refine ⟨k, ?_, by simpa using hk, fun _ _ => rfl⟩
    cases fuel with
    | zero => simp [freerangeLoop, hno]
    | succ f => simp [freerangeLoop, hno]
  | succ n ih =>
    intro fuel done k hfuel hlo hhi hk
    cases fuel with
    | zero => omega
    | succ f =>
      have e1 : (done + (n + 1)) * PGSIZE = done * PGSIZE + PGSIZE + n * PGSIZE := by
        simp [Nat.add_mul]; omega
      have hyes : p0 + done * PGSIZE + PGSIZE ≤ pa_end := by
        rw [e1] at hlo
        omega
      have hgood : ¬ ((p0 + done * PGSIZE) % PGSIZE ≠ 0 ∨ p0 + done * PGSIZE < end_ ∨
          p0 + done * PGSIZE ≥ PHYSTOP) := by
        have hm : (p0 + done * PGSIZE) % PGSIZE = 0 := by
          rw [Nat.add_mul_mod_self_right]; exact hmod
        rw [not_or, not_or]
        refine ⟨by simp [hm], by omega, by omega⟩
      have hkf := kfree_ret PGSIZE PHYSTOP end_ k id (p0 + done * PGSIZE) hgood
      have hstep : freerangeLoop PGSIZE PHYSTOP end_ id pa_end (f + 1) k (p0 + done * PGSIZE) =
          freerangeLoop PGSIZE PHYSTOP end_ id pa_end f
            { freelist := Function.update k.freelist id ((p0 + done * PGSIZE) :: k.freelist id),
              junk := Function.update k.junk (p0 + done * PGSIZE) 1 }
            (p0 + done * PGSIZE + PGSIZE) := by
        simp only [freerangeLoop, if_pos hyes, hkf]
      have e2 : p0 + done * PGSIZE + PGSIZE = p0 + (done + 1) * PGSIZE := by
        simp [Nat.add_mul]; omega
      have e3 : done + (n + 1) = done + 1 + n := by omega
      rw [hstep, e2]
      obtain ⟨k2, h1, h2, h3⟩ := ih f (done + 1)
        { freelist := Function.update k.freelist id ((p0 + done * PGSIZE) :: k.freelist id),
          junk := Function.update k.junk (p0 + done * PGSIZE) 1 }
        (by omega) (by rw [← e3]; exact hlo) (by rw [← e3]; exact hhi)
        (by simp [pagesDown, hk])
      refine ⟨k2, h1, by rw [e3]; exact h2, ?_⟩
      intro j hj
      rw [h3 j hj]
      simp [Function.update_noteq hj]

theorem freerangeLoop_mono (PGSIZE PHYSTOP end_ id pa_end : Nat) :
    ∀ (fuel d : Nat) (k : Kmem) (p : Nat) (o : Outcome Kmem Unit),
      freerangeLoop PGSIZE PHYSTOP end_ id pa_end fuel k p = some o →
      freerangeLoop PGSIZE PHYSTOP end_ id pa_end (fuel + d) k p = some o := by
  intro fuel
  induction fuel with
  | zero =>
    intro d k p o h
    by_cases hc : p + PGSIZE ≤ pa_end
    · simp [freerangeLoop, hc] at h
    · cases d with
      | zero => simpa using h
      | succ d =>
        simp only [freerangeLoop, if_neg hc] at h
        simp only [Nat.zero_add, freerangeLoop, if_neg hc]
        exact h
  | succ f ih =>
    intro d k p o h
    have e : f + 1 + d = (f + d) + 1 := by omega
    rw [e]
    by_cases hc : p + PGSIZE ≤ pa_end
    · simp only [freerangeLoop, if_pos hc] at h ⊢
      cases hk : kfree PGSIZE PHYSTOP end_ k id p with
      | ret k2 u =>
        rw [hk] at h
        exact ih d k2 _ o h
      | panic m s => rw [hk] at h; exact h
      | sleep s => rw [hk] at h; exact h
      | oob s => rw [hk] at h; exact h
    · simp only [freerangeLoop, if_neg hc] at h ⊢
      exact h

theorem pagesDown_sorted (PGSIZE p n : Nat) (h : 0 < PGSIZE) :
    (pagesDown PGSIZE p n).Pairwise (fun a b => b < a) := by
  induction n with
  | zero => simp [pagesDown]
  | succ n ih =>
    simp only [pagesDown, List.pairwise_cons]
    refine ⟨?_, ih⟩
    intro b hb
    rw [mem_pagesDown] at hb
    obtain ⟨k, hk, he⟩ := hb
    have : k * PGSIZE < n * PGSIZE := Nat.mul_lt_mul_of_pos_right hk h
    omega

theorem kinit_ret (PGSIZE PHYSTOP end_ c fuel : Nat) (hP : 0 < PGSIZE)
    (hf : (PHYSTOP - PGROUNDUP PGSIZE end_) / PGSIZE ≤ fuel) :
    ∃ k, kinit PGSIZE PHYSTOP end_ c fuel = some (.ret k ()) ∧
      k.freelist c =
        pagesDown PGSIZE (PGROUNDUP PGSIZE end_) ((PHYSTOP - PGROUNDUP PGSIZE end_) / PGSIZE) ∧
      ∀ j, j ≠ c → k.freelist j = [] := by
  by_cases hle : PGROUNDUP PGSIZE end_ ≤ PHYSTOP
  · have hdm := Nat.div_add_mod (PHYSTOP - PGROUNDUP PGSIZE end_) PGSIZE
    have hml := Nat.mod_lt (PHYSTOP - PGROUNDUP PGSIZE end_) hP
    have hcm : PGSIZE * ((PHYSTOP - PGROUNDUP PGSIZE end_) / PGSIZE) =
        (PHYSTOP - PGROUNDUP PGSIZE end_) / PGSIZE * PGSIZE := Nat.mul_comm _ _
    obtain ⟨k2, h1, h2, h3⟩ := freerangeLoop_spec PGSIZE PHYSTOP end_ c PHYSTOP
      (PGROUNDUP PGSIZE end_) hP (pgroundup_mod PGSIZE end_) (pgroundup_ge PGSIZE end_ hP)
      (Nat.le_refl _) ((PHYSTOP - PGROUNDUP PGSIZE end_) / PGSIZE) fuel 0 Kmem.zero hf
      (by rw [Nat.zero_add]; omega)
      (by rw [Nat.zero_add, Nat.add_mul, Nat.one_mul]; omega)
      (by simp [Kmem.zero, pagesDown])
    refine ⟨k2, ?_, by simpa using h2, ?_⟩
    · simpa [kinit, freerange] using h1
    · intro j hj
      rw [h3 j hj]
      rfl
  · have h0 : (PHYSTOP - PGROUNDUP PGSIZE end_) / PGSIZE = 0 := by
      have : PHYSTOP - PGROUNDUP PGSIZE end_ = 0 := by omega
      rw [this, Nat.zero_div]
    have hc : ¬ (PGROUNDUP PGSIZE end_ + PGSIZE ≤ PHYSTOP) := by omega
    refine ⟨Kmem.zero, ?_, by rw [h0]; rfl, fun _ _ => rfl⟩
    cases fuel with
    | zero => simp [kinit, freerange, freerangeLoop, hc]
    | succ f => simp [kinit, freerange, freerangeLoop, hc]

/-- C18. The function `kinit` run on CPU `c`, with a positive page size (`end ≤ PHYSTOP`
is not needed: above `PHYSTOP` the loop frees nothing). With fuel for the pages between `PGROUNDUP(end)` and `PHYSTOP` it returns, and with
no amount of fuel does it end in the panic of `kfree`. On return the list of pool `c`
holds the page addresses `PGROUNDUP(end) + k * PGSIZE` with
`PGROUNDUP(end) + (k + 1) * PGSIZE ≤ PHYSTOP` and nothing else, none of them twice, in
strictly decreasing order from the head, and the list of every other pool is empty. -/
theorem kinit_seeds_own_pool (PGSIZE PHYSTOP end_ c : Nat) (hP : 0 < PGSIZE) :
    (∀ fuel m k, kinit PGSIZE PHYSTOP end_ c fuel ≠ some (.panic m k)) ∧
    ∃ k, (∀ fuel, (PHYSTOP - PGROUNDUP PGSIZE end_) / PGSIZE ≤ fuel →
        kinit PGSIZE PHYSTOP end_ c fuel = some (.ret k ())) ∧
      (∀ pa, pa ∈ k.freelist c ↔
        ∃ i, pa = PGROUNDUP PGSIZE end_ + i * PGSIZE ∧
          PGROUNDUP PGSIZE end_ + (i + 1) * PGSIZE ≤ PHYSTOP) ∧
      (k.freelist c).Nodup ∧
      (k.freelist c).Pairwise (fun a b => b < a) ∧
      ∀ j, j ≠ c → k.freelist j = [] := by
  obtain ⟨k, hk, hl, ho⟩ := kinit_ret PGSIZE PHYSTOP end_ c
    ((PHYSTOP - PGROUNDUP PGSIZE end_) / PGSIZE) hP (Nat.le_refl _)
  have hall : ∀ fuel, (PHYSTOP - PGROUNDUP PGSIZE end_) / PGSIZE ≤ fuel →
      kinit PGSIZE PHYSTOP end_ c fuel = some (.ret k ()) := by
    intro fuel hf
    have hm := freerangeLoop_mono PGSIZE PHYSTOP end_ c PHYSTOP
      ((PHYSTOP - PGROUNDUP PGSIZE end_) / PGSIZE)
      (fuel - (PHYSTOP - PGROUNDUP PGSIZE end_) / PGSIZE) Kmem.zero
      (PGROUNDUP PGSIZE end_) (.ret k ()) hk
    have e : (PHYSTOP - PGROUNDUP PGSIZE end_) / PGSIZE +
        (fuel - (PHYSTOP - PGROUNDUP PGSIZE end_) / PGSIZE) = fuel := by omega
    rw [e] at hm
    exact hm
  refine ⟨?_, k, hall, ?_, ?_, ?_, ho⟩
  · intro fuel m s hp
    have hm := freerangeLoop_mono PGSIZE PHYSTOP end_ c PHYSTOP fuel
      ((PHYSTOP - PGROUNDUP PGSIZE end_) / PGSIZE) Kmem.zero
      (PGROUNDUP PGSIZE end_) (.panic m s) hp
    have h2 := hall (fuel + (PHYSTOP - PGROUNDUP PGSIZE end_) / PGSIZE) (by omega)
    unfold kinit freerange at h2
    rw [hm] at h2
    cases h2
  · intro pa
    rw [hl, mem_pagesDown]
    constructor
    · rintro ⟨i, hi, hpa⟩
      refine ⟨i, hpa, ?_⟩
      have h1 : (i + 1) * PGSIZE ≤ PHYSTOP - PGROUNDUP PGSIZE end_ :=
        (Nat.le_div_iff_mul_le hP).1 (show i + 1 ≤ _ from hi)
      have h2 : 0 < (i + 1) * PGSIZE := Nat.mul_pos (Nat.succ_pos i) hP
      omega
    · rintro ⟨i, hpa, hi⟩
      refine ⟨i, ?_, hpa⟩
      have h1 : (i + 1) * PGSIZE ≤ PHYSTOP - PGROUNDUP PGSIZE end_ := by omega
      exact (Nat.le_div_iff_mul_le hP).2 h1
  · rw [hl]; exact nodup_pagesDown PGSIZE _ _ hP
  · rw [hl]; exact pagesDown_sorted PGSIZE _ _ hP

theorem kinit_seeds_own_pool_witness :
    0 < 4096 ∧
    ((∀ fuel m k, kinit 4096 16384 5000 1 fuel ≠ some (.panic m k)) ∧
      ∃ k, (∀ fuel, (16384 - PGROUNDUP 4096 5000) / 4096 ≤ fuel →
          kinit 4096 16384 5000 1 fuel = some (.ret k ())) ∧
        (∀ pa, pa ∈ k.freelist 1 ↔
          ∃ i, pa = PGROUNDUP 4096 5000 + i * 4096 ∧
            PGROUNDUP 4096 5000 + (i + 1) * 4096 ≤ 16384) ∧
        (k.freelist 1).Nodup ∧
        (k.freelist 1).Pairwise (fun a b => b < a) ∧
        ∀ j, j ≠ 1 → k.freelist j = []) ∧
    (kinit 4096 16384 5000 1 2).map (fun o => (o.state.freelist 1, o.state.freelist 0)) =
      some ([12288, 8192], []) :=
  ⟨by decide, kinit_seeds_own_pool 4096 16384 5000 1 (by decide), by decide⟩

set_option maxRecDepth 100000 in
/-- The steps of one CPU alone give what the sequential `kalloc` gives: on the example
allocator CPU 1 steals the page 4096 from pool 0 and all locks are free again. -/
theorem kallocAlone_example :
    (kallocAlone 2 exampleKmem 1).pc 1 = .returned (kalloc 2 exampleKmem 1).2 ∧
    (kallocAlone 2 exampleKmem 1).freelist 0 = (kalloc 2 exampleKmem 1).1.freelist 0 ∧
    (kallocAlone 2 exampleKmem 1).freelist 1 = (kalloc 2 exampleKmem 1).1.freelist 1 ∧
    (kallocAlone 2 exampleKmem 1).lock 0 = none ∧ (kallocAlone 2 exampleKmem 1).lock 1 = none := by
  refine ⟨?_, ?_, ?_, ?_, ?_⟩ <;> decide

theorem interleave_stuck (NCPU : Nat) (s : Sys) (h : ∀ id, kstep NCPU s id = none) :
    ∀ sched, interleave NCPU s sched = s := by
  intro sched
  induction sched with
  | nil => rfl
  | cons id rest ih =>
    unfold interleave at ih ⊢
    rw [List.foldl_cons, h id]
    exact ih

set_option maxRecDepth 100000 in
/-- C14 at the failing input. Two CPUs, both free lists empty, both CPUs call `kalloc`.
After the example schedule CPU 0 holds the lock of pool 0 and is about to acquire the
lock of pool 1, CPU 1 holds the lock of pool 1 and is about to acquire the lock of pool
0: each holds its own pool lock and waits for the lock held by the other. No CPU can
take a step, and no schedule changes the state: neither call returns. -/
theorem kalloc_deadlocks_on_empty_pools :
    exampleDeadlock.pc 0 = .loop 1 ∧ exampleDeadlock.pc 1 = .loop 0 ∧
    exampleDeadlock.lock 0 = some 0 ∧ exampleDeadlock.lock 1 = some 1 ∧
    Deadlocked 2 exampleDeadlock [0, 1] ∧
    (∀ id, kstep 2 exampleDeadlock id = none) ∧
    ∀ sched, interleave 2 exampleDeadlock sched = exampleDeadlock := by
  have hstuck : ∀ id, kstep 2 exampleDeadlock id = none := by
    intro id
    by_cases h : id < 2
    · interval_cases id
      · rfl
      · rfl
    · unfold kstep
      rw [if_neg h]
  refine ⟨by decide, by decide, by decide, by decide, ?_, hstuck,
    interleave_stuck 2 exampleDeadlock hstuck⟩
  refine ⟨by simp, ?_⟩
  intro id hid
  simp only [List.mem_cons, List.mem_singleton, List.not_mem_nil, or_false] at hid
  rcases hid with h | h
  · subst h
    exact ⟨by decide, by decide, 1, 1, by decide, by simp, by decide, by decide⟩
  · subst h
    exact ⟨by decide, by decide, 0, 0, by decide, by simp, by decide, by decide⟩

end Kalloc

/-! ## Properties of bio.c -/

namespace Bio

theorem hash_toNat_lt (x : Int) (h : ¬ hash x < 0) : (hash x).toNat < NBUCKET := by
  have h1 : hash x < (NBUCKET : Int) := Int.tmod_lt_of_pos x (by unfold NBUCKET; norm_num)
  have h2 : 0 ≤ hash x := not_lt.1 h
  omega

@[simp] theorem modify_hashtable (c : Bcache) (b : Nat) (f : Buf → Buf) :
    (c.modify b f).hashtable = c.hashtable := rfl

@[simp] theorem modify_buf_same (c : Bcache) (b : Nat) (f : Buf → Buf) :
    (c.modify b f).buf b = f (c.buf b) := by
  simp [Bcache.modify]

theorem modify_buf_ne (c : Bcache) (b x : Nat) (f : Buf → Buf) (h : x ≠ b) :
    (c.modify b f).buf x = c.buf x := by
  simp [Bcache.modify, Function.update_noteq h]

theorem lookup_none_iff (buf : Nat → Buf) (dev blockno : Nat) (l : List Nat) :
    lookup buf dev blockno l = none ↔
      ∀ x ∈ l, ¬ ((buf x).dev = dev ∧ (buf x).blockno = blockno) := by
  induction l with
  | nil => simp [lookup]
  | cons a rest ih =>
    by_cases ha : (buf a).dev = dev ∧ (buf a).blockno = blockno
    · simp only [lookup, if_pos ha]
      constructor
      · intro h; cases h
      · intro h; exact absurd ha (h a (List.mem_cons_self _ _))
    · simp only [lookup, if_neg ha, ih]
      constructor
      · intro h x hx
        rcases List.mem_cons.1 hx with rfl | hx
        · exact ha
        · exact h x hx
      · intro h x hx; exact h x (List.mem_cons_of_mem _ hx)

theorem lookup_some (buf : Nat → Buf) (dev blockno : Nat) (l : List Nat) (b : Nat)
    (h : lookup buf dev blockno l = some b) :
    ∃ l1 l2, l = l1 ++ b :: l2 ∧ ((buf b).dev = dev ∧ (buf b).blockno = blockno) ∧
      ∀ x ∈ l1, ¬ ((buf x).dev = dev ∧ (buf x).blockno = blockno) := by
  induction l with
  | nil => simp [lookup] at h
  | cons a rest ih =>
    by_cases ha : (buf a).dev = dev ∧ (buf a).blockno = blockno
    · simp only [lookup, if_pos ha] at h
      cases h
      exact ⟨[], rest, rfl, ha, by simp⟩
    · simp only [lookup, if_neg ha] at h
      obtain ⟨l1, l2, h1, h2, h3⟩ := ih h
      refine ⟨a :: l1, l2, by simp [h1], h2, ?_⟩
      intro x hx
      rcases List.mem_cons.1 hx with rfl | hx
      · exact ha
      · exact h3 x hx

theorem lookup_congr (buf buf2 : Nat → Buf) (dev blockno : Nat) (l : List Nat)
    (h : ∀ x ∈ l, (buf2 x).dev = (buf x).dev ∧ (buf2 x).blockno = (buf x).blockno) :
    lookup buf2 dev blockno l = lookup buf dev blockno l := by
  induction l with
  | nil => rfl
  | cons a rest ih =>
    have ha := h a (List.mem_cons_self _ _)
    simp only [lookup, ha.1, ha.2]
    rw [ih (fun x hx => h x (List.mem_cons_of_mem _ hx))]

theorem acquiresleep_cases (c : Bcache) (pid b : Nat) :
    ((c.buf b).lock = none ∧
      acquiresleep c pid b = .ret (c.modify b (fun x => { x with lock := some pid })) b) ∨
    ((c.buf b).lock ≠ none ∧ acquiresleep c pid b = .sleep c b) := by
  cases h : (c.buf b).lock with
  | none => left; simp [acquiresleep, h]
  | some p => right; simp [acquiresleep, h]

theorem scanBucket_pred (buf : Nat → Buf) (i : Nat) (P : Cand → Prop) :
    ∀ (l : List Nat) (pos : Nat) (st : Option Cand × Nat),
      (∀ k b, l[k]? = some b → (buf b).refcnt = 0 →
        P { minbuf := b, prevminbuf := pos + k, max_bucket := i }) →
      (∀ m, st.1 = some m → P m) →
      ∀ m, (scanBucket buf i l pos st).1 = some m → P m := by
  intro l
  induction l with
  | nil => intro pos st _ hst m hm; exact hst m hm
  | cons a rest ih =>
    intro pos st hl hst m hm
    have hrest : ∀ k b, rest[k]? = some b → (buf b).refcnt = 0 →
        P { minbuf := b, prevminbuf := pos + 1 + k, max_bucket := i } := by
      intro k b hk hb
      have := hl (k + 1) b (by simpa using hk) hb
      have e : pos + (k + 1) = pos + 1 + k := by omega
      rw [e] at this; exact this
    by_cases hc : (buf a).refcnt = 0 ∧ (buf a).timestamp ≥ st.2
    · simp only [scanBucket, if_pos hc] at hm
      refine ih (pos + 1) _ hrest ?_ m hm
      intro m2 hm2
      simp only [Option.some.injEq] at hm2
      subst hm2
      exact hl 0 a (by simp) hc.1
    · simp only [scanBucket, if_neg hc] at hm
      exact ih (pos + 1) st hrest hst m hm

theorem scanAll_good (c : Bcache) (m : Cand) (h : (scanAll c).1 = some m) : GoodCand c m := by
  have key : ∀ (L : List Nat) (st : Option Cand × Nat), (∀ i ∈ L, i < NBUCKET) →
      (∀ m, st.1 = some m → GoodCand c m) →
      ∀ m, ((L.foldl (fun st i => scanBucket c.buf i (c.hashtable i) 0 st) st).1 = some m →
        GoodCand c m) := by
    intro L
    induction L with
    | nil => intro st _ hst m hm; exact hst m hm
    | cons i rest ih =>
      intro st hL hst m hm
      simp only [List.foldl_cons] at hm
      refine ih _ (fun j hj => hL j (List.mem_cons_of_mem _ hj)) ?_ m hm
      refine scanBucket_pred c.buf i (GoodCand c) (c.hashtable i) 0 st ?_ hst
      intro k b hk hb
      refine ⟨hL i (List.mem_cons_self _ _), ?_, hb⟩
      simpa using hk
  exact key (List.range NBUCKET) (none, 0) (fun i hi => List.mem_range.1 hi)
    (fun m hm => by simp at hm) m h

theorem unlink_buf (c : Bcache) (m : Cand) : (c.unlink m).buf = c.buf := rfl
theorem push_buf (c : Bcache) (h b : Nat) : (c.push h b).buf = c.buf := rfl

theorem unlink_sublist (c : Bcache) (m : Cand) (i : Nat) :
    ((c.unlink m).hashtable i).Sublist (c.hashtable i) := by
  by_cases hi : i = m.max_bucket
  · subst hi
    simp only [Bcache.unlink, Function.update_same]
    exact List.eraseIdx_sublist _ _
  · simp only [Bcache.unlink, Function.update_noteq hi]
    exact List.Sublist.refl _

theorem push_hashtable_same (c : Bcache) (h b : Nat) :
    (c.push h b).hashtable h = b :: c.hashtable h := by
  simp [Bcache.push]

/-- The ways `bget` can go. -/
theorem bget_cases (c : Bcache) (pid dev blockno : Nat) :
    (hash (toInt blockno) < 0 ∧ bget c pid dev blockno = .oob c) ∨
    (¬ hash (toInt blockno) < 0 ∧
      ∃ b, lookup c.buf dev blockno (c.hashtable (hash (toInt blockno)).toNat) = some b ∧
        bget c pid dev blockno = acquiresleep (c.incref b) pid b) ∨
    (¬ hash (toInt blockno) < 0 ∧
      lookup c.buf dev blockno (c.hashtable (hash (toInt blockno)).toNat) = none ∧
      (scanAll c).1 = none ∧ bget c pid dev blockno = .panic .bget_no_buffers c) ∨
    (¬ hash (toInt blockno) < 0 ∧
      lookup c.buf dev blockno (c.hashtable (hash (toInt blockno)).toNat) = none ∧
      ∃ m, (scanAll c).1 = some m ∧
        (((c.buf m.minbuf).dev = dev ∧ (c.buf m.minbuf).blockno = blockno ∧
          bget c pid dev blockno =
            acquiresleep
              (((c.unlink m).push (hash (toInt blockno)).toNat m.minbuf).incref m.minbuf)
              pid m.minbuf) ∨
         (¬ ((c.buf m.minbuf).dev = dev ∧ (c.buf m.minbuf).blockno = blockno) ∧
          bget c pid dev blockno =
            acquiresleep
              (((c.unlink m).push (hash (toInt blockno)).toNat m.minbuf).claim
                m.minbuf dev blockno)
              pid m.minbuf))) := by
  by_cases hh : hash (toInt blockno) < 0
  · left; exact ⟨hh, by simp [bget, hh]⟩
  · right
    cases hl : lookup c.buf dev blockno (c.hashtable (hash (toInt blockno)).toNat) with
    | some b =>
      left
      exact ⟨hh, b, rfl, by simp [bget, hh, hl]⟩
    | none =>
      right
      cases hs : (scanAll c).1 with
      | none =>
        left
        exact ⟨hh, rfl, rfl, by simp [bget, hh, hl, hs]⟩
      | some m =>
        right
        refine ⟨hh, rfl, m, rfl, ?_⟩
        have hrest : lookup c.buf dev blockno
            ((c.unlink m).hashtable (hash (toInt blockno)).toNat) = none := by
          rw [lookup_none_iff] at hl ⊢
          intro x hx
          exact hl x ((unlink_sublist c m _).subset hx)
        by_cases hm : (c.buf m.minbuf).dev = dev ∧ (c.buf m.minbuf).blockno = blockno
        · left
          refine ⟨hm.1, hm.2, ?_⟩
          simp [bget, hh, hl, hs, push_hashtable_same, push_buf, unlink_buf, lookup, hm]
        · right
          refine ⟨hm, ?_⟩
          simp [bget, hh, hl, hs, push_hashtable_same, push_buf, unlink_buf, lookup, hm, hrest]

theorem mem_eraseIdx_of_ne (l : List Nat) (pos z x : Nat) (hz : l[pos]? = some z)
    (hx : x ≠ z) : x ∈ l.eraseIdx pos ↔ x ∈ l := by
  constructor
  · intro h; exact (List.eraseIdx_sublist l pos).subset h
  · intro h
    rw [List.mem_eraseIdx_iff_getElem]
    obtain ⟨i, hi, hxi⟩ := List.getElem_of_mem h
    refine ⟨i, hi, ?_, hxi⟩
    intro hip
    subst hip
    rw [List.getElem?_eq_getElem hi, hxi] at hz
    exact hx (Option.some.inj hz)

/-- Moving the candidate to the front of bucket `h` changes the lists only in where the
candidate is. -/
theorem mem_move_of_ne (c : Bcache) (m : Cand) (h x i : Nat) (hg : GoodCand c m)
    (hx : x ≠ m.minbuf) :
    x ∈ ((c.unlink m).push h m.minbuf).hashtable i ↔ x ∈ c.hashtable i := by
  have h1 : x ∈ ((c.unlink m).push h m.minbuf).hashtable i ↔ x ∈ (c.unlink m).hashtable i := by
    by_cases hi : i = h
    · subst hi
      simp [Bcache.push, hx]
    · simp [Bcache.push, Function.update_noteq hi]
  rw [h1]
  by_cases hi : i = m.max_bucket
  · subst hi
    simp only [Bcache.unlink, Function.update_same]
    exact mem_eraseIdx_of_ne _ _ _ _ hg.2.1 hx
  · simp [Bcache.unlink, Function.update_noteq hi]

/-- What a missing `bget` leaves behind: nothing has changed, or the candidate of the
scan has been moved to the front of the bucket of the block and is the one buffer whose
fields may differ. -/
theorem bget_miss_core (c : Bcache) (pid dev blockno : Nat)
    (hh : ¬ hash (toInt blockno) < 0)
    (hmiss : lookup c.buf dev blockno (c.hashtable (hash (toInt blockno)).toNat) = none) :
    (bget c pid dev blockno).state = c ∨
    ∃ m, (scanAll c).1 = some m ∧
      (bget c pid dev blockno).state.hashtable =
        ((c.unlink m).push (hash (toInt blockno)).toNat m.minbuf).hashtable ∧
      ∀ x, x ≠ m.minbuf → (bget c pid dev blockno).state.buf x = c.buf x := by
  rcases bget_cases c pid dev blockno with ⟨h1, _⟩ | ⟨_, b, h1, _⟩ | ⟨_, _, _, h1⟩ |
    ⟨_, _, m, hm, h1⟩
  · exact absurd h1 hh
  · rw [hmiss] at h1; cases h1
  · left; rw [h1]; rfl
  · right
    refine ⟨m, hm, ?_⟩
    rcases h1 with ⟨_, _, h1⟩ | ⟨_, h1⟩
    · rw [h1]
      rcases acquiresleep_cases
        (((c.unlink m).push (hash (toInt blockno)).toNat m.minbuf).incref m.minbuf)
        pid m.minbuf with ⟨_, h2⟩ | ⟨_, h2⟩
      · rw [h2]
        refine ⟨rfl, ?_⟩
        intro x hx
        simp only [Outcome.state, Bcache.incref]
        rw [modify_buf_ne _ _ _ _ hx, modify_buf_ne _ _ _ _ hx]; rfl
      · rw [h2]
        refine ⟨rfl, ?_⟩
        intro x hx
        simp only [Outcome.state, Bcache.incref]
        rw [modify_buf_ne _ _ _ _ hx]; rfl
    · rw [h1]
      rcases acquiresleep_cases
        (((c.unlink m).push (hash (toInt blockno)).toNat m.minbuf).claim m.minbuf dev blockno)
        pid m.minbuf with ⟨_, h2⟩ | ⟨_, h2⟩
      · rw [h2]
        refine ⟨rfl, ?_⟩
        intro x hx
        simp only [Outcome.state, Bcache.claim]
        rw [modify_buf_ne _ _ _ _ hx, modify_buf_ne _ _ _ _ hx]; rfl
      · rw [h2]
        refine ⟨rfl, ?_⟩
        intro x hx
        simp only [Outcome.state, Bcache.claim]
        rw [modify_buf_ne _ _ _ _ hx]; rfl

/-- C5. A held or pinned buffer is never evicted. For every cache state and every
`bget(dev, blockno)` that misses (the bucket of `blockno` has no buffer of the block),
in the state the call leaves behind, however it ends: a buffer whose `dev`, `blockno` or
`valid` differs had `refcnt` 0 before the call, there is at most one such buffer, and
every buffer that had `refcnt > 0` has the same `dev`, `blockno`, `valid`, `refcnt` and
`timestamp` and is on the same bucket lists as before. -/
theorem bget_miss_spares_held (c : Bcache) (pid dev blockno : Nat)
    (hh : ¬ hash (toInt blockno) < 0)
    (hmiss : lookup c.buf dev blockno (c.hashtable (hash (toInt blockno)).toNat) = none) :
    (∀ x, ((bget c pid dev blockno).state.buf x).dev ≠ (c.buf x).dev ∨
          ((bget c pid dev blockno).state.buf x).blockno ≠ (c.buf x).blockno ∨
          ((bget c pid dev blockno).state.buf x).valid ≠ (c.buf x).valid →
        (c.buf x).refcnt = 0) ∧
    (∀ x y, ((bget c pid dev blockno).state.buf x).dev ≠ (c.buf x).dev ∨
          ((bget c pid dev blockno).state.buf x).blockno ≠ (c.buf x).blockno ∨
          ((bget c pid dev blockno).state.buf x).valid ≠ (c.buf x).valid →
        ((bget c pid dev blockno).state.buf y).dev ≠ (c.buf y).dev ∨
          ((bget c pid dev blockno).state.buf y).blockno ≠ (c.buf y).blockno ∨
          ((bget c pid dev blockno).state.buf y).valid ≠ (c.buf y).valid →
        x = y) ∧
    (∀ x, (c.buf x).refcnt ≠ 0 →
      ((bget c pid dev blockno).state.buf x).dev = (c.buf x).dev ∧
      ((bget c pid dev blockno).state.buf x).blockno = (c.buf x).blockno ∧
      ((bget c pid dev blockno).state.buf x).valid = (c.buf x).valid ∧
      ((bget c pid dev blockno).state.buf x).refcnt = (c.buf x).refcnt ∧
      ((bget c pid dev blockno).state.buf x).timestamp = (c.buf x).timestamp ∧
      ∀ i, x ∈ (bget c pid dev blockno).state.hashtable i ↔ x ∈ c.hashtable i) := by
  rcases bget_miss_core c pid dev blockno hh hmiss with h | ⟨m, hm, hht, hbuf⟩
  · rw [h]
    refine ⟨?_, ?_, ?_⟩
    · intro x hx; simp at hx
    · intro x y hx; simp at hx
    · intro x _; simp
  · have hg := scanAll_good c m hm
    have hch : ∀ x, ((bget c pid dev blockno).state.buf x).dev ≠ (c.buf x).dev ∨
          ((bget c pid dev blockno).state.buf x).blockno ≠ (c.buf x).blockno ∨
          ((bget c pid dev blockno).state.buf x).valid ≠ (c.buf x).valid → x = m.minbuf := by
      intro x hx
      by_contra hne
      rw [hbuf x hne] at hx
      simp at hx
    refine ⟨?_, ?_, ?_⟩
    · intro x hx
      rw [hch x hx]; exact hg.2.2
    · intro x y hx hy
      rw [hch x hx, hch y hy]
    · intro x hx
      have hne : x ≠ m.minbuf := by
        intro h; rw [h] at hx; exact hx hg.2.2
      rw [hbuf x hne, hht]
      exact ⟨rfl, rfl, rfl, rfl, rfl, fun i => mem_move_of_ne c m _ x i hg hne⟩

theorem bget_ret (c : Bcache) (pid dev blockno : Nat) (c2 : Bcache) (b : Nat)
    (h : bget c pid dev blockno = .ret c2 b) :
    (c2.buf b).dev = dev ∧ (c2.buf b).blockno = blockno ∧ (c2.buf b).lock = some pid := by
  have hacq : ∀ (c1 : Bcache) (z : Nat), acquiresleep c1 pid z = .ret c2 b →
      z = b ∧ (c2.buf b).dev = (c1.buf b).dev ∧ (c2.buf b).blockno = (c1.buf b).blockno ∧
        (c2.buf b).lock = some pid := by
    intro c1 z hz
    rcases acquiresleep_cases c1 pid z with ⟨_, h2⟩ | ⟨_, h2⟩
    · rw [h2] at hz
      cases hz
      simp
    · rw [h2] at hz; cases hz
  rcases bget_cases c pid dev blockno with ⟨_, h1⟩ | ⟨_, z, hl, h1⟩ | ⟨_, _, _, h1⟩ |
    ⟨_, _, m, _, h1⟩
  · rw [h1] at h; cases h
  · rw [h1] at h
    obtain ⟨hz, hd, hb, hk⟩ := hacq _ _ h
    subst hz
    obtain ⟨_, _, _, hmatch, _⟩ := lookup_some _ _ _ _ _ hl
    simp only [Bcache.incref, modify_buf_same] at hd hb
    exact ⟨hd.trans hmatch.1, hb.trans hmatch.2, hk⟩
  · rw [h1] at h; cases h
  · rcases h1 with ⟨hd0, hb0, h1⟩ | ⟨_, h1⟩
    · rw [h1] at h
      obtain ⟨hz, hd, hb, hk⟩ := hacq _ _ h
      rw [← hz] at hd hb ⊢
      simp only [Bcache.incref, modify_buf_same] at hd hb
      exact ⟨hd.trans hd0, hb.trans hb0, hz ▸ hk⟩
    · rw [h1] at h
      obtain ⟨hz, hd, hb, hk⟩ := hacq _ _ h
      rw [← hz] at hd hb ⊢
      simp only [Bcache.claim, modify_buf_same] at hd hb
      exact ⟨hd, hb, hz ▸ hk⟩

theorem releasesleep_blockno (c : Bcache) (b : Nat) :
    ((releasesleep c b).buf b).blockno = (c.buf b).blockno := by
  simp [releasesleep]

/-- The three ways `brelse` can go. -/
theorem brelse_cases (c : Bcache) (pid b ticks : Nat) :
    ((c.buf b).lock ≠ some pid ∧ brelse c pid b ticks = .panic .brelse c) ∨
    ((c.buf b).lock = some pid ∧ hash (toInt (c.buf b).blockno) < 0 ∧
      brelse c pid b ticks = .oob (releasesleep c b)) ∨
    ((c.buf b).lock = some pid ∧ ¬ hash (toInt (c.buf b).blockno) < 0 ∧
      ∃ c2, brelse c pid b ticks = .ret c2 () ∧ c2.hashtable = c.hashtable ∧
        (∀ x, x ≠ b → c2.buf x = c.buf x) ∧
        c2.buf b = { c.buf b with
          lock := none
          refcnt := ((c.buf b).refcnt + (2 ^ 32 - 1)) % 2 ^ 32
          timestamp := if ((c.buf b).refcnt + (2 ^ 32 - 1)) % 2 ^ 32 = 0 then ticks
                       else (c.buf b).timestamp }) := by
  by_cases hk : (c.buf b).lock = some pid
  · right
    by_cases hh : hash (toInt (c.buf b).blockno) < 0
    · left
      refine ⟨hk, hh, ?_⟩
      unfold brelse
      rw [if_neg (by simp [holdingsleep, hk]), if_pos (by rw [releasesleep_blockno]; exact hh)]
    · right
      refine ⟨hk, hh, ?_⟩
      unfold brelse
      rw [if_neg (by simp [holdingsleep, hk]), if_neg (by rw [releasesleep_blockno]; exact hh)]
      by_cases h0 : ((c.buf b).refcnt + (2 ^ 32 - 1)) % 2 ^ 32 = 0
      · have e : (((releasesleep c b).decref b).buf b).refcnt = 0 := by
          simpa [releasesleep, Bcache.decref] using h0
        simp only [e, if_true]
        refine ⟨_, rfl, rfl, ?_, ?_⟩
        · intro x hx
          simp [releasesleep, Bcache.decref, modify_buf_ne _ _ _ _ hx]
        · simp only [releasesleep, Bcache.decref, modify_buf_same, h0, if_true]
      · have e : ¬ (((releasesleep c b).decref b).buf b).refcnt = 0 := by
          simpa [releasesleep, Bcache.decref] using h0
        simp only [e, if_false]
        refine ⟨_, rfl, rfl, ?_, ?_⟩
        · intro x hx
          simp [releasesleep, Bcache.decref, modify_buf_ne _ _ _ _ hx]
        · simp only [releasesleep, Bcache.decref, modify_buf_same, h0, if_false]
  · left
    exact ⟨hk, by simp [brelse, holdingsleep, hk]⟩

/-- C10. `bwrite(b)` and `brelse(b)` halt the kernel exactly when the caller does not
hold the sleep-lock of `b`, and at the halt the whole state (the disk, the request log,
every buffer) is as before the call. With the lock held, `bwrite` sends the driver one
request, a write of `b`, which puts the content of `b` on the disk and leaves the cache
alone; and `brelse` does not halt, has released the lock of `b` when it indexes the
bucket locks, and returns if the index `hash(b->blockno)` is not negative. -/
theorem bwrite_brelse_need_lock (w : World) (pid b ticks : Nat) :
    ((∃ m s, bwrite w pid b = .panic m s) ↔ (w.bcache.buf b).lock ≠ some pid) ∧
    (∀ m s, bwrite w pid b = .panic m s → m = .bwrite ∧ s = w) ∧
    ((w.bcache.buf b).lock = some pid →
      ∃ w2, bwrite w pid b = .ret w2 () ∧
        w2.io = w.io ++ [{ b := b, dev := (w.bcache.buf b).dev,
                           blockno := (w.bcache.buf b).blockno, write := true }] ∧
        w2.disk (w.bcache.buf b).dev (w.bcache.buf b).blockno = (w.bcache.buf b).data ∧
        w2.bcache = w.bcache) ∧
    ((∃ m s, exec w (.brelse pid b ticks) = .panic m s) ↔ (w.bcache.buf b).lock ≠ some pid) ∧
    (∀ m s, exec w (.brelse pid b ticks) = .panic m s → m = .brelse ∧ s = w) ∧
    ((w.bcache.buf b).lock = some pid →
      ((exec w (.brelse pid b ticks)).state.bcache.buf b).lock = none ∧
      (exec w (.brelse pid b ticks)).state.disk = w.disk ∧
      (exec w (.brelse pid b ticks)).state.io = w.io ∧
      (¬ hash (toInt (w.bcache.buf b).blockno) < 0 →
        ∃ w2, exec w (.brelse pid b ticks) = .ret w2 none)) := by
  by_cases hk : (w.bcache.buf b).lock = some pid
  · have hw : bwrite w pid b = .ret (virtio_disk_rw w b true) () := by
      simp [bwrite, holdingsleep, hk]
    have hr : (∀ m s, exec w (.brelse pid b ticks) ≠ .panic m s) ∧
        ((exec w (.brelse pid b ticks)).state.bcache.buf b).lock = none ∧
        (exec w (.brelse pid b ticks)).state.disk = w.disk ∧
        (exec w (.brelse pid b ticks)).state.io = w.io ∧
        (¬ hash (toInt (w.bcache.buf b).blockno) < 0 →
          ∃ w2, exec w (.brelse pid b ticks) = .ret w2 none) := by
      rcases brelse_cases w.bcache pid b ticks with ⟨h1, _⟩ | ⟨_, hh, h1⟩ |
        ⟨_, hh, c2, h1, _, _, h2⟩
      · exact absurd hk h1
      · have he : exec w (.brelse pid b ticks) =
            .oob { w with bcache := releasesleep w.bcache b } := by
          simp only [exec, h1]
        rw [he]
        exact ⟨(by intro m s h; cases h), by simp [Outcome.state, releasesleep], rfl, rfl,
          fun hn => absurd hh hn⟩
      · have he : exec w (.brelse pid b ticks) = .ret { w with bcache := c2 } none := by
          simp only [exec, h1]
        rw [he]
        exact ⟨(by intro m s h; cases h), by simp [Outcome.state, h2], rfl, rfl,
          fun _ => ⟨_, rfl⟩⟩
    refine ⟨⟨?_, fun h => absurd hk h⟩, ?_, ?_, ⟨?_, fun h => absurd hk h⟩, ?_, ?_⟩
    · rintro ⟨m, s, h⟩; rw [hw] at h; cases h
    · intro m s h; rw [hw] at h; cases h
    · intro _
      exact ⟨_, hw, by simp [virtio_disk_rw], by simp [virtio_disk_rw],
        by simp [virtio_disk_rw]⟩
    · rintro ⟨m, s, h⟩; exact absurd h (hr.1 m s)
    · intro m s h; exact absurd h (hr.1 m s)
    · intro _; exact hr.2
  · have hw : bwrite w pid b = .panic .bwrite w := by
      simp [bwrite, holdingsleep, hk]
    have hr : exec w (.brelse pid b ticks) = .panic .brelse w := by
      simp [exec, brelse, holdingsleep, hk]
    refine ⟨⟨fun _ => hk, fun _ => ⟨_, _, hw⟩⟩, ?_, fun h => absurd h hk,
      ⟨fun _ => hk, fun _ => ⟨_, _, hr⟩⟩, ?_, fun h => absurd h hk⟩
    · intro m s h; rw [hw] at h; cases h; exact ⟨rfl, rfl⟩
    · intro m s h; rw [hr] at h; cases h; exact ⟨rfl, rfl⟩

theorem binit_hashtable (NBUF : Nat) :
    (binit NBUF).hashtable = fun i => if i = 0 then (List.range NBUF).reverse else [] := by
  unfold binit
  simp only
  induction NBUF with
  | zero => funext i; simp
  | succ n ih =>
    rw [List.range_succ, List.foldl_append, ih]
    funext i
    by_cases hi : i = 0
    · subst hi; simp
    · simp [Function.update_noteq hi, hi]

theorem partition_binit (NBUF : Nat) : Partition NBUF (binit NBUF).hashtable := by
  rw [binit_hashtable]
  refine ⟨?_, ?_, ?_⟩
  · intro i _
    by_cases hi : i = 0
    · simp [hi, List.nodup_range]
    · simp [hi]
  · intro i j _ _ hij b hb hb2
    by_cases hi : i = 0
    · have hj : j ≠ 0 := fun h => hij (hi.trans h.symm)
      simp [hj] at hb2
    · simp [hi] at hb
  · intro b
    constructor
    · intro hb
      exact ⟨0, by unfold NBUCKET; norm_num, by simp [hb]⟩
    · rintro ⟨i, _, hb⟩
      by_cases hi : i = 0
      · simpa [hi] using hb
      · simp [hi] at hb

theorem not_mem_eraseIdx_of_nodup (l : List Nat) (pos z : Nat) (hn : l.Nodup)
    (hz : l[pos]? = some z) : z ∉ l.eraseIdx pos := by
  intro h
  rw [List.mem_eraseIdx_iff_getElem] at h
  obtain ⟨i, hi, hne, hiz⟩ := h
  obtain ⟨hp, hpz⟩ := List.getElem?_eq_some.1 hz
  have := (@List.Nodup.getElem_inj_iff _ l hn i hi pos hp).1 (hiz.trans hpz.symm)
  exact hne this

theorem goodCand_mem (c : Bcache) (m : Cand) (hg : GoodCand c m) :
    m.minbuf ∈ c.hashtable m.max_bucket := by
  obtain ⟨hp, hpz⟩ := List.getElem?_eq_some.1 hg.2.1
  exact hpz ▸ List.getElem_mem hp

/-- Where the buffers are after the candidate has been moved to the front of bucket
`h`. -/
theorem mem_move (NBUF : Nat) (c : Bcache) (m : Cand) (h x i : Nat)
    (hp : Partition NBUF c.hashtable) (hg : GoodCand c m) (hi : i < NBUCKET) :
    x ∈ ((c.unlink m).push h m.minbuf).hashtable i ↔
      (x = m.minbuf ∧ i = h) ∨ (x ≠ m.minbuf ∧ x ∈ c.hashtable i) := by
  by_cases hx : x = m.minbuf
  · subst hx
    have hnot : m.minbuf ∉ (c.unlink m).hashtable i := by
      by_cases hib : i = m.max_bucket
      · subst hib
        simp only [Bcache.unlink, Function.update_same]
        exact not_mem_eraseIdx_of_nodup _ _ _ (hp.nodup _ hi) hg.2.1
      · simp only [Bcache.unlink, Function.update_noteq hib]
        exact hp.disjoint _ _ hg.1 hi (fun e => hib e.symm) _ (goodCand_mem c m hg)
    by_cases hih : i = h
    · subst hih; simp [Bcache.push]
    · simp [Bcache.push, Function.update_noteq hih, hih, hnot]
  · rw [mem_move_of_ne c m h x i hg hx]
    simp [hx]

theorem nodup_move (NBUF : Nat) (c : Bcache) (m : Cand) (h i : Nat)
    (hp : Partition NBUF c.hashtable) (hg : GoodCand c m) (hi : i < NBUCKET) :
    (((c.unlink m).push h m.minbuf).hashtable i).Nodup := by
  have hsub : ((c.unlink m).hashtable i).Nodup :=
    List.Nodup.sublist (unlink_sublist c m i) (hp.nodup i hi)
  by_cases hih : i = h
  · subst hih
    rw [push_hashtable_same]
    refine List.nodup_cons.2 ⟨?_, hsub⟩
    by_cases hib : i = m.max_bucket
    · subst hib
      simp only [Bcache.unlink, Function.update_same]
      exact not_mem_eraseIdx_of_nodup _ _ _ (hp.nodup _ hi) hg.2.1
    · simp only [Bcache.unlink, Function.update_noteq hib]
      exact hp.disjoint _ _ hg.1 hi (fun e => hib e.symm) _ (goodCand_mem c m hg)
  · simp only [Bcache.push, Function.update_noteq hih]
    exact hsub

theorem partition_move (NBUF : Nat) (c : Bcache) (m : Cand) (h : Nat)
    (hp : Partition NBUF c.hashtable) (hg : GoodCand c m) (hh : h < NBUCKET) :
    Partition NBUF ((c.unlink m).push h m.minbuf).hashtable := by
  refine ⟨fun i hi => nodup_move NBUF c m h i hp hg hi, ?_, ?_⟩
  · intro i j hi hj hij b hbi hbj
    rw [mem_move NBUF c m h b i hp hg hi] at hbi
    rw [mem_move NBUF c m h b j hp hg hj] at hbj
    rcases hbi with ⟨hb, hih⟩ | ⟨hb, hbi⟩
    · rcases hbj with ⟨_, hjh⟩ | ⟨hb2, _⟩
      · exact hij (hih.trans hjh.symm)
      · exact hb2 hb
    · rcases hbj with ⟨hb2, _⟩ | ⟨_, hbj⟩
      · exact hb hb2
      · exact hp.disjoint i j hi hj hij b hbi hbj
  · intro b
    rw [hp.cover b]
    constructor
    · rintro ⟨i, hi, hbi⟩
      by_cases hb : b = m.minbuf
      · exact ⟨h, hh, (mem_move NBUF c m h b h hp hg hh).2 (Or.inl ⟨hb, rfl⟩)⟩
      · exact ⟨i, hi, (mem_move NBUF c m h b i hp hg hi).2 (Or.inr ⟨hb, hbi⟩)⟩
    · rintro ⟨i, hi, hbi⟩
      rcases (mem_move NBUF c m h b i hp hg hi).1 hbi with ⟨hb, _⟩ | ⟨_, hbi⟩
      · exact ⟨m.max_bucket, hg.1, hb ▸ goodCand_mem c m hg⟩
      · exact ⟨i, hi, hbi⟩

/-- What a call of `bget` can have done to the lists. -/
theorem bget_hashtable (c : Bcache) (pid dev blockno : Nat) :
    (bget c pid dev blockno).state.hashtable = c.hashtable ∨
    ∃ m, GoodCand c m ∧ ¬ hash (toInt blockno) < 0 ∧
      (bget c pid dev blockno).state.hashtable =
        ((c.unlink m).push (hash (toInt blockno)).toNat m.minbuf).hashtable := by
  rcases bget_cases c pid dev blockno with ⟨_, h1⟩ | ⟨_, b, _, h1⟩ | ⟨hh, hm, _, _⟩ |
    ⟨hh, hm, _⟩
  · left; rw [h1]; rfl
  · left
    rw [h1]
    rcases acquiresleep_cases (c.incref b) pid b with ⟨_, h2⟩ | ⟨_, h2⟩ <;> rw [h2] <;> rfl
  · rcases bget_miss_core c pid dev blockno hh hm with h | ⟨m, hs, hht, _⟩
    · left; rw [h]
    · right; exact ⟨m, scanAll_good c m hs, hh, hht⟩
  · rcases bget_miss_core c pid dev blockno hh hm with h | ⟨m, hs, hht, _⟩
    · left; rw [h]
    · right; exact ⟨m, scanAll_good c m hs, hh, hht⟩

theorem partition_bget (NBUF : Nat) (c : Bcache) (pid dev blockno : Nat)
    (hp : Partition NBUF c.hashtable) :
    Partition NBUF (bget c pid dev blockno).state.hashtable := by
  rcases bget_hashtable c pid dev blockno with h | ⟨m, hg, hh, h⟩
  · rw [h]; exact hp
  · rw [h]; exact partition_move NBUF c m _ hp hg (hash_toNat_lt _ hh)

theorem bread_hashtable (w : World) (pid dev blockno : Nat) :
    (bread w pid dev blockno).state.bcache.hashtable =
      (bget w.bcache pid dev blockno).state.hashtable := by
  unfold bread
  cases h : bget w.bcache pid dev blockno with
  | ret c b =>
    simp only
    split_ifs <;> simp [Outcome.state, virtio_disk_rw]
  | panic m c => rfl
  | sleep c b => rfl
  | oob c => rfl

theorem brelse_hashtable (c : Bcache) (pid b ticks : Nat) :
    (brelse c pid b ticks).state.hashtable = c.hashtable := by
  rcases brelse_cases c pid b ticks with ⟨_, h⟩ | ⟨_, _, h⟩ | ⟨_, _, c2, h, h2, _⟩
  · rw [h]; rfl
  · rw [h]; rfl
  · rw [h]; exact h2

/-- What a call can have done to the lists: nothing, or what its `bget` did. -/
theorem exec_hashtable (w : World) (op : Op) :
    (exec w op).state.bcache.hashtable = w.bcache.hashtable ∨
    ∃ pid dev blockno, (exec w op).state.bcache.hashtable =
      (bget w.bcache pid dev blockno).state.hashtable := by
  cases op with
  | bget pid dev blockno =>
    right
    refine ⟨pid, dev, blockno, ?_⟩
    simp only [exec]
    cases bget w.bcache pid dev blockno <;> rfl
  | bread pid dev blockno =>
    right
    refine ⟨pid, dev, blockno, ?_⟩
    rw [← bread_hashtable]
    simp only [exec]
    cases bread w pid dev blockno <;> rfl
  | bwrite pid b =>
    left
    simp only [exec, bwrite]
    split_ifs <;> simp [Outcome.state, virtio_disk_rw]
  | brelse pid b ticks =>
    left
    rw [← brelse_hashtable w.bcache pid b ticks]
    simp only [exec]
    cases brelse w.bcache pid b ticks <;> rfl
  | bpin b =>
    left
    simp only [exec, bpin]
    split_ifs <;> rfl
  | bunpin b =>
    left
    simp only [exec, bunpin]
    split_ifs <;> rfl
  | store pid b d =>
    left
    simp only [exec]
    split_ifs <;> rfl

theorem partition_exec (NBUF : Nat) (w : World) (op : Op)
    (hp : Partition NBUF w.bcache.hashtable) :
    Partition NBUF (exec w op).state.bcache.hashtable := by
  rcases exec_hashtable w op with h | ⟨pid, dev, blockno, h⟩
  · rw [h]; exact hp
  · rw [h]; exact partition_bget NBUF _ pid dev blockno hp

theorem partition_run (NBUF : Nat) (ops : List Op) :
    ∀ (w w2 : World), Partition NBUF w.bcache.hashtable → run w ops = some w2 →
      Partition NBUF w2.bcache.hashtable := by
  induction ops with
  | nil =>
    intro w w2 hp h
    simp only [run, Option.some.injEq] at h
    rw [← h]; exact hp
  | cons op rest ih =>
    intro w w2 hp h
    have hpe := partition_exec NBUF w op hp
    simp only [run] at h
    cases he : exec w op with
    | ret w1 r =>
      rw [he] at h hpe
      exact ih w1 w2 hpe h
    | panic m w1 => rw [he] at h; cases h
    | sleep w1 b => rw [he] at h; cases h
    | oob w1 => rw [he] at h; cases h

theorem partition_length (NBUF : Nat) (ht : Nat → List Nat) (hp : Partition NBUF ht) :
    ((List.range NBUCKET).map (fun i => (ht i).length)).sum = NBUF := by
  have hnd : ((List.range NBUCKET).map ht).flatten.Nodup := by
    rw [List.nodup_flatten]
    constructor
    · intro l hl
      obtain ⟨i, hi, rfl⟩ := List.mem_map.1 hl
      exact hp.nodup i (List.mem_range.1 hi)
    · rw [List.pairwise_map]
      refine List.Pairwise.imp_of_mem ?_ (List.pairwise_lt_range NBUCKET)
      intro i j hi hj hij b hbi hbj
      exact hp.disjoint i j (List.mem_range.1 hi) (List.mem_range.1 hj) (Nat.ne_of_lt hij)
        b hbi hbj
  have hperm : ((List.range NBUCKET).map ht).flatten.Perm (List.range NBUF) := by
    rw [List.perm_ext_iff_of_nodup hnd (List.nodup_range NBUF)]
    intro b
    rw [List.mem_range, hp.cover b, List.mem_flatten]
    constructor
    · rintro ⟨l, hl, hb⟩
      obtain ⟨i, hi, rfl⟩ := List.mem_map.1 hl
      exact ⟨i, List.mem_range.1 hi, hb⟩
    · rintro ⟨i, hi, hb⟩
      exact ⟨ht i, List.mem_map.2 ⟨i, List.mem_range.2 hi, rfl⟩, hb⟩
  have hlen := hperm.length_eq
  rw [List.length_flatten, List.map_map, List.length_range] at hlen
  exact hlen

/-- C6. After `binit` the list of bucket 0 holds all `NBUF` buffers (the last one
first) and every other list is empty; and after any sequence of completed calls from
there, every buffer below `NBUF` is on the list of exactly one bucket, no list has a
buffer twice, the lists hold no other buffers, and the lengths of the `NBUCKET` lists
add up to `NBUF`. -/
theorem buffers_partitioned (NBUF : Nat) (disk : Nat → Nat → Nat) (ops : List Op) (w : World)
    (h : run (boot NBUF disk) ops = some w) :
    ((binit NBUF).hashtable 0 = (List.range NBUF).reverse ∧
      ∀ i, i ≠ 0 → (binit NBUF).hashtable i = []) ∧
    (∀ b, b < NBUF → ∃ i, (i < NBUCKET ∧ b ∈ w.bcache.hashtable i) ∧
      ∀ j, j < NBUCKET ∧ b ∈ w.bcache.hashtable j → j = i) ∧
    (∀ i, i < NBUCKET → (w.bcache.hashtable i).Nodup) ∧
    (∀ i, i < NBUCKET → ∀ b ∈ w.bcache.hashtable i, b < NBUF) ∧
    ((List.range NBUCKET).map (fun i => (w.bcache.hashtable i).length)).sum = NBUF := by
  have hp : Partition NBUF w.bcache.hashtable :=
    partition_run NBUF ops (boot NBUF disk) w (partition_binit NBUF) h
  refine ⟨⟨by simp [binit_hashtable], fun i hi => by simp [binit_hashtable, hi]⟩, ?_,
    hp.nodup, ?_, partition_length NBUF _ hp⟩
  · intro b hb
    obtain ⟨i, hi, hbi⟩ := (hp.cover b).1 hb
    refine ⟨i, ⟨hi, hbi⟩, ?_⟩
    rintro j ⟨hj, hbj⟩
    by_contra hne
    exact hp.disjoint j i hj hi hne b hbj hbi
  · intro i hi b hb
    exact (hp.cover b).2 ⟨i, hi, hb⟩

theorem acquiresleep_ret (c1 : Bcache) (pid z : Nat) (c2 : Bcache) (b : Nat)
    (h : acquiresleep c1 pid z = .ret c2 b) :
    z = b ∧ (c1.buf b).lock = none ∧ c2 = c1.modify b (fun x => { x with lock := some pid }) := by
  rcases acquiresleep_cases c1 pid z with ⟨h1, h2⟩ | ⟨_, h2⟩
  · rw [h2] at h
    cases h
    exact ⟨rfl, h1, rfl⟩
  · rw [h2] at h; cases h

/-- The three ways in which `bget` returns: it found the block in its bucket; or it
moved the candidate to the bucket and then found the block there (which only the
candidate itself can be); or it moved the candidate and gave it to the block. -/
theorem bget_ret_cases (c : Bcache) (pid dev blockno : Nat) (c2 : Bcache) (b : Nat)
    (h : bget c pid dev blockno = .ret c2 b) :
    ¬ hash (toInt blockno) < 0 ∧
    ((lookup c.buf dev blockno (c.hashtable (hash (toInt blockno)).toNat) = some b ∧
      c2.hashtable = c.hashtable ∧ (∀ x, x ≠ b → c2.buf x = c.buf x) ∧
      c2.buf b = { c.buf b with refcnt := ((c.buf b).refcnt + 1) % 2 ^ 32, lock := some pid }) ∨
     (lookup c.buf dev blockno (c.hashtable (hash (toInt blockno)).toNat) = none ∧
      ∃ m, (scanAll c).1 = some m ∧ m.minbuf = b ∧
        ((c.buf b).dev = dev ∧ (c.buf b).blockno = blockno) ∧
        c2.hashtable = ((c.unlink m).push (hash (toInt blockno)).toNat m.minbuf).hashtable ∧
        (∀ x, x ≠ b → c2.buf x = c.buf x) ∧
        c2.buf b = { c.buf b with refcnt := ((c.buf b).refcnt + 1) % 2 ^ 32, lock := some pid }) ∨
     (lookup c.buf dev blockno (c.hashtable (hash (toInt blockno)).toNat) = none ∧
      ∃ m, (scanAll c).1 = some m ∧ m.minbuf = b ∧
        c2.hashtable = ((c.unlink m).push (hash (toInt blockno)).toNat m.minbuf).hashtable ∧
        (∀ x, x ≠ b → c2.buf x = c.buf x) ∧
        c2.buf b = { c.buf b with dev := dev, blockno := blockno, valid := false, refcnt := 1,
                                  lock := some pid })) := by
  rcases bget_cases c pid dev blockno with ⟨_, h1⟩ | ⟨hh, z, hl, h1⟩ | ⟨_, _, _, h1⟩ |
    ⟨hh, hl, m, hs, h1⟩
  · rw [h1] at h; cases h
  · rw [h1] at h
    obtain ⟨hz, _, hc2⟩ := acquiresleep_ret _ _ _ _ _ h
    subst hz
    refine ⟨hh, Or.inl ⟨hl, ?_, ?_, ?_⟩⟩
    · rw [hc2]; rfl
    · intro x hx
      rw [hc2, Bcache.incref, modify_buf_ne _ _ _ _ hx, modify_buf_ne _ _ _ _ hx]
    · rw [hc2, Bcache.incref, modify_buf_same, modify_buf_same]
  · rw [h1] at h; cases h
  · rcases h1 with ⟨hd, hb, h1⟩ | ⟨_, h1⟩
    · rw [h1] at h
      obtain ⟨hz, _, hc2⟩ := acquiresleep_ret _ _ _ _ _ h
      refine ⟨hh, Or.inr (Or.inl ⟨hl, m, hs, hz, ?_, ?_, ?_, ?_⟩)⟩
      · rw [← hz]; exact ⟨hd, hb⟩
      · rw [hc2]; rfl
      · intro x hx
        rw [hc2, ← hz, Bcache.incref, modify_buf_ne _ _ _ _ (hz ▸ hx),
          modify_buf_ne _ _ _ _ (hz ▸ hx)]
        rfl
      · rw [hc2, ← hz, Bcache.incref, modify_buf_same, modify_buf_same]
        rfl
    · rw [h1] at h
      obtain ⟨hz, _, hc2⟩ := acquiresleep_ret _ _ _ _ _ h
      refine ⟨hh, Or.inr (Or.inr ⟨hl, m, hs, hz, ?_, ?_, ?_⟩)⟩
      · rw [hc2]; rfl
      · intro x hx
        rw [hc2, ← hz, Bcache.claim, modify_buf_ne _ _ _ _ (hz ▸ hx),
          modify_buf_ne _ _ _ _ (hz ▸ hx)]
        rfl
      · rw [hc2, ← hz, Bcache.claim, modify_buf_same, modify_buf_same]
        rfl

/-- The invariant survives a call that leaves the lists and the blocks of the buffers
alone and works on one buffer `b`, one that a caller has been given before or that is
the first of its block on its list. -/
theorem inv_touch (NBUF : Nat) (g g2 : Ghost) (c c2 : Bcache) (b : Nat)
    (hi : Inv NBUF g c) (hht : c2.hashtable = c.hashtable)
    (hbuf : ∀ x, x ≠ b → c2.buf x = c.buf x)
    (hkey : (c2.buf b).dev = (c.buf b).dev ∧ (c2.buf b).blockno = (c.buf b).blockno)
    (hpins : ∀ x, x ≠ b → g2.pins x = g.pins x)
    (hhand : ∀ x, x ∈ g2.handed ↔ x = b ∨ x ∈ g.handed)
    (hb : b ∈ g.handed ∨ ∃ i l1 l2, i < NBUCKET ∧ c.hashtable i = l1 ++ b :: l2 ∧
      ∀ x ∈ l1, ¬ sameKey (c.buf x) (c.buf b)) :
    Inv NBUF g2 c2 := by
  have hk : ∀ x, (c2.buf x).dev = (c.buf x).dev ∧ (c2.buf x).blockno = (c.buf x).blockno := by
    intro x
    by_cases hx : x = b
    · rw [hx]; exact hkey
    · rw [hbuf x hx]; exact ⟨rfl, rfl⟩
  have hsk : ∀ x y, sameKey (c2.buf x) (c2.buf y) ↔ sameKey (c.buf x) (c.buf y) := by
    intro x y
    simp only [sameKey, (hk x).1, (hk x).2, (hk y).1, (hk y).2]
  have hold : ∀ (l : List Nat), b ∉ l ∨ b ∈ g.handed →
      l.Pairwise (fun x y => sameKey (c.buf x) (c.buf y) → y ∉ g.handed) →
      l.Pairwise (fun x y => sameKey (c2.buf x) (c2.buf y) → y ∉ g2.handed) := by
    intro l hbl hl
    refine List.Pairwise.imp_of_mem ?_ hl
    intro x y _ hy hR hs hy2
    have hyn := hR ((hsk x y).1 hs)
    rcases (hhand y).1 hy2 with hyb | hyh
    · rcases hbl with hbl | hbh
      · exact hbl (hyb ▸ hy)
      · exact hyn (hyb ▸ hbh)
    · exact hyn hyh
  refine ⟨hht ▸ hi.part, ?_, ?_, ?_, ?_, ?_⟩
  rotate_right
  · intro x hx
    have hxb : x ≠ b := fun e => hx ((hhand x).2 (Or.inl e))
    rw [hbuf x hxb]
    exact hi.fresh x (fun h => hx ((hhand x).2 (Or.inr h)))
  · intro i hi2 x hx
    rw [hht] at hx
    rw [(hk x).2]
    exact hi.placed i hi2 x hx
  · intro j hj
    rw [hht]
    rcases hb with hbh | ⟨i, l1, l2, hi2, hdec, hl1⟩
    · exact hold _ (Or.inr hbh) (hi.first j hj)
    · by_cases hji : j = i
      · subst hji
        have hnd := hi.part.nodup j hj
        have hfirst := hi.first j hj
        rw [hdec] at hnd hfirst ⊢
        have hb1 : b ∉ l1 := by
          intro hmem
          have := (List.nodup_append.1 hnd).2.2
          exact this hmem (List.mem_cons_self _ _)
        have hb2 : b ∉ l2 := by
          have := (List.nodup_append.1 hnd).2.1
          exact (List.nodup_cons.1 this).1
        rw [List.pairwise_append] at hfirst ⊢
        obtain ⟨hf1, hf2, hf3⟩ := hfirst
        refine ⟨hold l1 (Or.inl hb1) hf1, ?_, ?_⟩
        · rw [List.pairwise_cons] at hf2 ⊢
          refine ⟨?_, hold l2 (Or.inl hb2) hf2.2⟩
          intro y hy hs hy2
          have hyn := hf2.1 y hy ((hsk b y).1 hs)
          rcases (hhand y).1 hy2 with hyb | hyh
          · exact hb2 (hyb ▸ hy)
          · exact hyn hyh
        · intro x hx y hy hs hy2
          rcases List.mem_cons.1 hy with hyb | hyl
          · subst hyb
            exact hl1 x hx ((hsk x y).1 hs)
          · have hyn := hf3 x hx y (List.mem_cons_of_mem _ hyl) ((hsk x y).1 hs)
            rcases (hhand y).1 hy2 with hyb | hyh
            · exact hb2 (hyb ▸ hyl)
            · exact hyn hyh
      · have hbi : b ∈ c.hashtable i := by rw [hdec]; simp
        have hbj : b ∉ c.hashtable j :=
          hi.part.disjoint i j hi2 hj (fun e => hji e.symm) b hbi
        exact hold _ (Or.inl hbj) (hi.first j hj)
  · intro x hx
    by_cases hxb : x = b
    · exact (hhand x).2 (Or.inl hxb)
    · rw [hbuf x hxb, hpins x hxb] at hx
      exact (hhand x).2 (Or.inr (hi.used x hx))
  · intro x hx
    rcases (hhand x).1 hx with hxb | hxh
    · rcases hb with hbh | ⟨i, l1, l2, hi2, hdec, _⟩
      · exact hxb ▸ hi.listed b hbh
      · have hbi : b ∈ c.hashtable i := by rw [hdec]; simp
        exact hxb ▸ (hi.part.cover b).2 ⟨i, hi2, hbi⟩
    · exact hi.listed x hxh

/-- The invariant survives the eviction: the candidate is moved to the front of the
bucket of the block, which had no buffer of the block, and is given to the block and to
the caller. -/
theorem inv_evict (NBUF : Nat) (g g2 : Ghost) (c c2 : Bcache) (m : Cand) (dev blockno : Nat)
    (hi : Inv NBUF g c) (hg : GoodCand c m) (hh : ¬ hash (toInt blockno) < 0)
    (hmiss : lookup c.buf dev blockno (c.hashtable (hash (toInt blockno)).toNat) = none)
    (hht : c2.hashtable = ((c.unlink m).push (hash (toInt blockno)).toNat m.minbuf).hashtable)
    (hbuf : ∀ x, x ≠ m.minbuf → c2.buf x = c.buf x)
    (hkey : (c2.buf m.minbuf).dev = dev ∧ (c2.buf m.minbuf).blockno = blockno)
    (hpins : g2.pins = g.pins) (hhand : g2.handed = m.minbuf :: g.handed) :
    Inv NBUF g2 c2 := by
  have hhN := hash_toNat_lt _ hh
  have hzN : m.minbuf < NBUF := (hi.part.cover _).2 ⟨_, hg.1, goodCand_mem c m hg⟩
  have hmm := fun x i hi2 => mem_move NBUF c m (hash (toInt blockno)).toNat x i hi.part hg hi2
  have hznot : ∀ i, i < NBUCKET → m.minbuf ∉ (c.unlink m).hashtable i := by
    intro i hi2
    by_cases hib : i = m.max_bucket
    · subst hib
      simp only [Bcache.unlink, Function.update_same]
      exact not_mem_eraseIdx_of_nodup _ _ _ (hi.part.nodup _ hi2) hg.2.1
    · simp only [Bcache.unlink, Function.update_noteq hib]
      exact hi.part.disjoint _ _ hg.1 hi2 (fun e => hib e.symm) _ (goodCand_mem c m hg)
  have hold : ∀ i, i < NBUCKET → ((c.unlink m).hashtable i).Pairwise
      (fun x y => sameKey (c2.buf x) (c2.buf y) → y ∉ g2.handed) := by
    intro i hi2
    have h0 := List.Pairwise.sublist (unlink_sublist c m i) (hi.first i hi2)
    refine List.Pairwise.imp_of_mem ?_ h0
    intro x y hx hy hR hs hy2
    have hxz : x ≠ m.minbuf := fun e => hznot i hi2 (e ▸ hx)
    have hyz : y ≠ m.minbuf := fun e => hznot i hi2 (e ▸ hy)
    rw [hbuf x hxz, hbuf y hyz] at hs
    rw [hhand] at hy2
    rcases List.mem_cons.1 hy2 with e | hy3
    · exact hyz e
    · exact hR hs hy3
  refine ⟨hht ▸ partition_move NBUF c m _ hi.part hg hhN, ?_, ?_, ?_, ?_, ?_⟩
  rotate_right
  · intro x hx
    rw [hhand] at hx
    have hxz : x ≠ m.minbuf := fun e => hx (e ▸ List.mem_cons_self _ _)
    rw [hbuf x hxz]
    exact hi.fresh x (fun h => hx (List.mem_cons_of_mem _ h))
  · intro i hi2 x hx
    rw [hht, hmm x i hi2] at hx
    rcases hx with ⟨hxz, hih⟩ | ⟨hxz, hxi⟩
    · rw [hxz, hkey.2, hih]; exact ⟨hh, rfl⟩
    · rw [hbuf x hxz]; exact hi.placed i hi2 x hxi
  · intro i hi2
    rw [hht]
    by_cases hih : i = (hash (toInt blockno)).toNat
    · rw [hih, push_hashtable_same, List.pairwise_cons]
      refine ⟨?_, hold _ hhN⟩
      intro y hy hs _
      have hyz : y ≠ m.minbuf := fun e => hznot _ hhN (e ▸ hy)
      rw [hbuf y hyz] at hs
      have hyh : y ∈ c.hashtable (hash (toInt blockno)).toNat :=
        (unlink_sublist c m _).subset hy
      have := (lookup_none_iff _ _ _ _).1 hmiss y hyh
      exact this ⟨hs.1.symm.trans hkey.1, hs.2.symm.trans hkey.2⟩
    · simp only [Bcache.push, Function.update_noteq hih]
      exact hold i hi2
  · intro x hx
    rw [hhand]
    by_cases hxz : x = m.minbuf
    · rw [hxz]; exact List.mem_cons_self _ _
    · rw [hbuf x hxz, hpins] at hx
      exact List.mem_cons_of_mem _ (hi.used x hx)
  · intro x hx
    rw [hhand] at hx
    rcases List.mem_cons.1 hx with e | hx2
    · rw [e]; exact hzN
    · exact hi.listed x hx2

/-- The invariant survives a `bget` that returns. -/
theorem inv_bget (NBUF : Nat) (g : Ghost) (c : Bcache) (pid dev blockno : Nat)
    (c2 : Bcache) (b : Nat) (hi : Inv NBUF g c) (h : bget c pid dev blockno = .ret c2 b) :
    Inv NBUF { g with handed := b :: g.handed } c2 := by
  obtain ⟨hh, hcase⟩ := bget_ret_cases c pid dev blockno c2 b h
  rcases hcase with ⟨hl, hht, hbuf, hb⟩ | ⟨hl, m, hs, hmb, hk, _, _, _⟩ | ⟨hl, m, hs, hmb, hht, hbuf, hb⟩
  · obtain ⟨l1, l2, hdec, hmatch, hl1⟩ := lookup_some _ _ _ _ _ hl
    refine inv_touch NBUF g _ c c2 b hi hht hbuf (by rw [hb]; exact ⟨rfl, rfl⟩)
      (fun _ _ => rfl) (fun x => by simp) (Or.inr ⟨_, l1, l2, hash_toNat_lt _ hh, hdec, ?_⟩)
    intro x hx hs
    exact hl1 x hx ⟨hs.1.trans hmatch.1, hs.2.trans hmatch.2⟩
  · exfalso
    have hg := scanAll_good c m hs
    have hzm := goodCand_mem c m hg
    rw [hmb] at hzm
    have hpl := hi.placed _ hg.1 b hzm
    rw [hk.2] at hpl
    rw [← hpl.2] at hzm
    exact (lookup_none_iff _ _ _ _).1 hl b hzm hk
  · have hg := scanAll_good c m hs
    refine inv_evict NBUF g _ c c2 m dev blockno hi hg hh hl hht (hmb ▸ hbuf) ?_ rfl
      (by rw [hmb])
    rw [hmb, hb]
    exact ⟨rfl, rfl⟩

theorem exec_bget_ret (w : World) (pid dev blockno : Nat) (w2 : World) (r : Option Nat)
    (h : exec w (.bget pid dev blockno) = .ret w2 r) :
    ∃ b, r = some b ∧ bget w.bcache pid dev blockno = .ret w2.bcache b ∧
      w2.disk = w.disk ∧ w2.io = w.io := by
  simp only [exec] at h
  cases hb : bget w.bcache pid dev blockno with
  | ret c b =>
    rw [hb] at h
    cases h
    exact ⟨b, rfl, rfl, rfl, rfl⟩
  | panic m c => rw [hb] at h; cases h
  | sleep c b => rw [hb] at h; cases h
  | oob c => rw [hb] at h; cases h

/-- How `bread` returns: `bget` returned the buffer, and if it was not valid its content
has been read from the disk and it has been marked valid. -/
theorem bread_ret (w : World) (pid dev blockno : Nat) (w2 : World) (b : Nat)
    (h : bread w pid dev blockno = .ret w2 b) :
    ∃ c, bget w.bcache pid dev blockno = .ret c b ∧ w2.disk = w.disk ∧
      w2.bcache.hashtable = c.hashtable ∧ (∀ x, x ≠ b → w2.bcache.buf x = c.buf x) ∧
      (((c.buf b).valid = true ∧ w2.bcache.buf b = c.buf b ∧ w2.io = w.io) ∨
       ((c.buf b).valid = false ∧
        w2.bcache.buf b =
          { c.buf b with data := w.disk (c.buf b).dev (c.buf b).blockno, valid := true } ∧
        w2.io = w.io ++ [{ b := b, dev := (c.buf b).dev, blockno := (c.buf b).blockno,
                           write := false }])) := by
  unfold bread at h
  cases hb : bget w.bcache pid dev blockno with
  | ret c z =>
    rw [hb] at h
    simp only at h
    by_cases hv : (c.buf z).valid = true
    · rw [if_neg (by simp [hv])] at h
      cases h
      exact ⟨c, rfl, rfl, rfl, fun _ _ => rfl, Or.inl ⟨hv, rfl, rfl⟩⟩
    · rw [if_pos (by simpa using hv)] at h
      cases h
      refine ⟨c, rfl, rfl, rfl, ?_, Or.inr ⟨by simpa using hv, ?_, rfl⟩⟩
      · intro x hx
        simp [virtio_disk_rw, modify_buf_ne _ _ _ _ hx]
      · simp [virtio_disk_rw]
  | panic m c => rw [hb] at h; cases h
  | sleep c z => rw [hb] at h; cases h
  | oob c => rw [hb] at h; cases h

theorem exec_bread_ret (w : World) (pid dev blockno : Nat) (w2 : World) (r : Option Nat)
    (h : exec w (.bread pid dev blockno) = .ret w2 r) :
    ∃ b, r = some b ∧ bread w pid dev blockno = .ret w2 b := by
  simp only [exec] at h
  cases hb : bread w pid dev blockno with
  | ret c b =>
    rw [hb] at h
    cases h
    exact ⟨b, rfl, rfl⟩
  | panic m c => rw [hb] at h; cases h
  | sleep c b => rw [hb] at h; cases h
  | oob c => rw [hb] at h; cases h

theorem exec_brelse_ret (w : World) (pid b ticks : Nat) (w2 : World) (r : Option Nat)
    (h : exec w (.brelse pid b ticks) = .ret w2 r) :
    r = none ∧ brelse w.bcache pid b ticks = .ret w2.bcache () ∧
      w2.disk = w.disk ∧ w2.io = w.io := by
  simp only [exec] at h
  cases hb : brelse w.bcache pid b ticks with
  | ret c u =>
    rw [hb] at h
    cases h
    exact ⟨rfl, rfl, rfl, rfl⟩
  | panic m c => rw [hb] at h; cases h
  | sleep c z => rw [hb] at h; cases h
  | oob c => rw [hb] at h; cases h

theorem exec_bpin_ret (w : World) (b : Nat) (w2 : World) (r : Option Nat)
    (h : exec w (.bpin b) = .ret w2 r) :
    r = none ∧ w2.bcache = w.bcache.incref b ∧ w2.disk = w.disk ∧ w2.io = w.io := by
  simp only [exec, bpin] at h
  split_ifs at h
  cases h
  exact ⟨rfl, rfl, rfl, rfl⟩

theorem exec_bunpin_ret (w : World) (b : Nat) (w2 : World) (r : Option Nat)
    (h : exec w (.bunpin b) = .ret w2 r) :
    r = none ∧ w2.bcache = w.bcache.decref b ∧ w2.disk = w.disk ∧ w2.io = w.io := by
  simp only [exec, bunpin] at h
  split_ifs at h
  cases h
  exact ⟨rfl, rfl, rfl, rfl⟩

theorem exec_bwrite_ret (w : World) (pid b : Nat) (w2 : World) (r : Option Nat)
    (h : exec w (.bwrite pid b) = .ret w2 r) :
    r = none ∧ (w.bcache.buf b).lock = some pid ∧ w2 = virtio_disk_rw w b true := by
  simp only [exec, bwrite] at h
  by_cases hk : holdingsleep w.bcache pid b = true
  · rw [if_neg (by simp [hk])] at h
    cases h
    exact ⟨rfl, by simpa [holdingsleep] using hk, rfl⟩
  · rw [if_pos (by simpa using hk)] at h
    cases h

theorem exec_store_ret (w : World) (pid b d : Nat) (w2 : World) (r : Option Nat)
    (h : exec w (.store pid b d) = .ret w2 r) :
    r = none ∧ w2.disk = w.disk ∧ w2.io = w.io ∧
      (((w.bcache.buf b).lock = some pid ∧
        w2.bcache = w.bcache.modify b (fun x => { x with data := d })) ∨
       ((w.bcache.buf b).lock ≠ some pid ∧ w2 = w)) := by
  simp only [exec] at h
  by_cases hk : holdingsleep w.bcache pid b = true
  · rw [if_pos hk] at h
    cases h
    exact ⟨rfl, rfl, rfl, Or.inl ⟨by simpa [holdingsleep] using hk, rfl⟩⟩
  · rw [if_neg hk] at h
    cases h
    exact ⟨rfl, rfl, rfl, Or.inr ⟨by simpa [holdingsleep] using hk, rfl⟩⟩

/-- The invariant survives every admissible call that returns. -/
theorem inv_exec (NBUF : Nat) (g : Ghost) (w : World) (op : Op) (w2 : World) (r : Option Nat)
    (hi : Inv NBUF g w.bcache) (ha : Admissible g op) (he : exec w op = .ret w2 r) :
    Inv NBUF (g.step op r) w2.bcache := by
  cases op with
  | bget pid dev blockno =>
    obtain ⟨b, hr, hb, _, _⟩ := exec_bget_ret w pid dev blockno w2 r he
    subst hr
    exact inv_bget NBUF g _ pid dev blockno _ b hi hb
  | bread pid dev blockno =>
    obtain ⟨b, hr, hb⟩ := exec_bread_ret w pid dev blockno w2 r he
    subst hr
    obtain ⟨c, hc, _, hht, hbuf, hcase⟩ := bread_ret w pid dev blockno w2 b hb
    have hi2 := inv_bget NBUF g _ pid dev blockno c b hi hc
    refine inv_touch NBUF _ _ c w2.bcache b hi2 hht hbuf ?_ (fun _ _ => rfl)
      (fun x => ?_) (Or.inl (List.mem_cons_self _ _))
    · rcases hcase with ⟨_, h1, _⟩ | ⟨_, h1, _⟩ <;> rw [h1] <;> exact ⟨rfl, rfl⟩
    · simp only [Ghost.step, List.mem_cons]
      constructor
      · intro h; exact Or.inr h
      · rintro (h | h)
        · exact Or.inl h
        · exact h
  | bwrite pid b =>
    obtain ⟨hr, _, hw⟩ := exec_bwrite_ret w pid b w2 r he
    subst hr
    rw [hw]
    simpa [virtio_disk_rw, Ghost.step] using hi
  | brelse pid b ticks =>
    obtain ⟨hr, hb, _, _⟩ := exec_brelse_ret w pid b ticks w2 r he
    subst hr
    rcases brelse_cases w.bcache pid b ticks with ⟨_, h⟩ | ⟨_, _, h⟩ | ⟨hk, _, c2, h, hht, hbuf, hbb⟩
    · rw [h] at hb; cases hb
    · rw [h] at hb; cases hb
    · rw [h] at hb
      cases hb
      have hbh : b ∈ g.handed := hi.used b (Or.inr (Or.inl (by rw [hk]; simp)))
      refine inv_touch NBUF g _ w.bcache _ b hi hht hbuf (by rw [hbb]; exact ⟨rfl, rfl⟩)
        (fun _ _ => rfl) (fun x => ?_) (Or.inl hbh)
      simp only [Ghost.step]
      constructor
      · intro h; exact Or.inr h
      · rintro (h | h)
        · exact h ▸ hbh
        · exact h
  | bpin b =>
    obtain ⟨hr, hb, _, _⟩ := exec_bpin_ret w b w2 r he
    subst hr
    have hbh : b ∈ g.handed := ha
    refine inv_touch NBUF g _ w.bcache _ b hi (by rw [hb]; rfl) ?_ ?_ ?_ (fun x => ?_)
      (Or.inl hbh)
    · intro x hx; rw [hb, Bcache.incref, modify_buf_ne _ _ _ _ hx]
    · rw [hb, Bcache.incref, modify_buf_same]; exact ⟨rfl, rfl⟩
    · intro x hx; simp [Ghost.step, Function.update_noteq hx]
    · simp only [Ghost.step]
      constructor
      · intro h; exact Or.inr h
      · rintro (h | h)
        · exact h ▸ hbh
        · exact h
  | bunpin b =>
    obtain ⟨hr, hb, _, _⟩ := exec_bunpin_ret w b w2 r he
    subst hr
    have hbh : b ∈ g.handed := hi.used b (Or.inr (Or.inr ha))
    refine inv_touch NBUF g _ w.bcache _ b hi (by rw [hb]; rfl) ?_ ?_ ?_ (fun x => ?_)
      (Or.inl hbh)
    · intro x hx; rw [hb, Bcache.decref, modify_buf_ne _ _ _ _ hx]
    · rw [hb, Bcache.decref, modify_buf_same]; exact ⟨rfl, rfl⟩
    · intro x hx; simp [Ghost.step, Function.update_noteq hx]
    · simp only [Ghost.step]
      constructor
      · intro h; exact Or.inr h
      · rintro (h | h)
        · exact h ▸ hbh
        · exact h
  | store pid b d =>
    obtain ⟨hr, _, _, hcase⟩ := exec_store_ret w pid b d w2 r he
    subst hr
    rcases hcase with ⟨hk, hb⟩ | ⟨_, hb⟩
    · have hbh : b ∈ g.handed := hi.used b (Or.inr (Or.inl (by rw [hk]; simp)))
      refine inv_touch NBUF g _ w.bcache _ b hi (by rw [hb]; rfl) ?_ ?_ (fun _ _ => rfl)
        (fun x => ?_) (Or.inl hbh)
      · intro x hx; rw [hb, modify_buf_ne _ _ _ _ hx]
      · rw [hb, modify_buf_same]; exact ⟨rfl, rfl⟩
      · simp only [Ghost.step]
        constructor
        · intro h; exact Or.inr h
        · rintro (h | h)
          · exact h ▸ hbh
          · exact h
    · rw [hb]; exact hi

theorem hash_zero : ¬ hash (toInt 0) < 0 ∧ (hash (toInt 0)).toNat = 0 := by
  constructor <;> decide

theorem inv_start (NBUF : Nat) : Inv NBUF Ghost.start (binit NBUF) := by
  refine ⟨partition_binit NBUF, ?_, ?_, ?_, ?_, ?_⟩
  · intro i _ b hb
    rw [binit_hashtable] at hb
    by_cases hi : i = 0
    · subst hi
      exact hash_zero
    · simp [hi] at hb
  · intro i _
    exact List.pairwise_of_forall (fun x y _ => by simp [Ghost.start])
  · intro b hb
    simp [binit, Buf.zero, Ghost.start] at hb
  · intro b hb
    simp [Ghost.start] at hb
  · intro b _
    rfl

/-- A legal sequence runs to its end, and the invariant holds there. -/
theorem legal_run (NBUF : Nat) (ops : List Op) :
    ∀ (g : Ghost) (w : World), Inv NBUF g w.bcache → Legal g w ops →
      ∃ w2, run w ops = some w2 ∧ Inv NBUF (g.after w ops) w2.bcache := by
  induction ops with
  | nil => intro g w hi _; exact ⟨w, rfl, hi⟩
  | cons op rest ih =>
    intro g w hi hl
    obtain ⟨ha, hl⟩ := hl
    cases he : exec w op with
    | ret w1 r =>
      rw [he] at hl
      obtain ⟨w2, h1, h2⟩ := ih _ w1 (inv_exec NBUF g w op w1 r hi ha he) hl
      refine ⟨w2, ?_, ?_⟩
      · simp only [run, he]; exact h1
      · simp only [Ghost.after, he]; exact h2
    | panic m w1 => rw [he] at hl; exact hl.elim
    | sleep w1 b => rw [he] at hl; exact hl.elim
    | oob w1 => rw [he] at hl; exact hl.elim

theorem legal_split (pre : List Op) :
    ∀ (g : Ghost) (w : World) (rest : List Op), Legal g w (pre ++ rest) →
      Legal g w pre ∧ ∀ w1, run w pre = some w1 → Legal (g.after w pre) w1 rest := by
  induction pre with
  | nil =>
    intro g w rest h
    refine ⟨trivial, ?_⟩
    intro w1 hw1
    simp only [run, Option.some.injEq] at hw1
    subst hw1
    exact h
  | cons op pre ih =>
    intro g w rest h
    obtain ⟨ha, h⟩ := h
    cases he : exec w op with
    | ret w1 r =>
      rw [he] at h
      obtain ⟨h1, h2⟩ := ih _ w1 rest h
      refine ⟨⟨ha, by rw [he]; exact h1⟩, ?_⟩
      intro w2 hw2
      simp only [run, he] at hw2
      simp only [Ghost.after, he]
      exact h2 w2 hw2
    | panic m w1 => rw [he] at h; exact h.elim
    | sleep w1 b => rw [he] at h; exact h.elim
    | oob w1 => rw [he] at h; exact h.elim

theorem step_handed (g : Ghost) (op : Op) (r : Option Nat) (b : Nat) (h : b ∈ g.handed) :
    b ∈ (g.step op r).handed := by
  cases op <;> cases r <;> simp [Ghost.step, h]

theorem after_handed (ops : List Op) :
    ∀ (g : Ghost) (w : World) (b : Nat), b ∈ g.handed → b ∈ (g.after w ops).handed := by
  induction ops with
  | nil => intro g w b h; exact h
  | cons op rest ih =>
    intro g w b h
    simp only [Ghost.after]
    cases he : exec w op with
    | ret w1 r => exact ih _ w1 b (step_handed g op r b h)
    | panic m w1 => exact h
    | sleep w1 z => exact h
    | oob w1 => exact h

/-- No call changes the block of a buffer whose `refcnt` is not 0. -/
theorem exec_keeps_key (w : World) (op : Op) (w2 : World) (r : Option Nat) (b : Nat)
    (he : exec w op = .ret w2 r) (hb : (w.bcache.buf b).refcnt ≠ 0) :
    (w2.bcache.buf b).dev = (w.bcache.buf b).dev ∧
      (w2.bcache.buf b).blockno = (w.bcache.buf b).blockno := by
  have hbget : ∀ pid dev blockno c2 z, bget w.bcache pid dev blockno = .ret c2 z →
      (c2.buf b).dev = (w.bcache.buf b).dev ∧ (c2.buf b).blockno = (w.bcache.buf b).blockno := by
    intro pid dev blockno c2 z hz
    obtain ⟨_, hcase⟩ := bget_ret_cases _ _ _ _ _ _ hz
    by_cases hbz : b = z
    · subst hbz
      rcases hcase with ⟨_, _, _, hbb⟩ | ⟨_, m, _, _, _, _, _, hbb⟩ | ⟨_, m, hs, hmb, _, _, _⟩
      · rw [hbb]; exact ⟨rfl, rfl⟩
      · rw [hbb]; exact ⟨rfl, rfl⟩
      · have hg := scanAll_good _ m hs
        have h0 := hg.2.2
        rw [hmb] at h0
        exact absurd h0 hb
    · rcases hcase with ⟨_, _, hbuf, _⟩ | ⟨_, m, _, _, _, _, hbuf, _⟩ | ⟨_, m, _, _, _, hbuf, _⟩ <;>
        rw [hbuf b hbz] <;> exact ⟨rfl, rfl⟩
  cases op with
  | bget pid dev blockno =>
    obtain ⟨z, _, hz, _, _⟩ := exec_bget_ret w pid dev blockno w2 r he
    exact hbget pid dev blockno _ z hz
  | bread pid dev blockno =>
    obtain ⟨z, _, hz⟩ := exec_bread_ret w pid dev blockno w2 r he
    obtain ⟨c, hc, _, _, hbuf, hcase⟩ := bread_ret w pid dev blockno w2 z hz
    have h1 := hbget pid dev blockno c z hc
    by_cases hbz : b = z
    · subst hbz
      rcases hcase with ⟨_, h2, _⟩ | ⟨_, h2, _⟩ <;> rw [h2] <;> exact h1
    · rw [hbuf b hbz]; exact h1
  | bwrite pid z =>
    obtain ⟨_, _, hw⟩ := exec_bwrite_ret w pid z w2 r he
    rw [hw]; simp [virtio_disk_rw]
  | brelse pid z ticks =>
    obtain ⟨_, hz, _, _⟩ := exec_brelse_ret w pid z ticks w2 r he
    rcases brelse_cases w.bcache pid z ticks with ⟨_, h⟩ | ⟨_, _, h⟩ | ⟨_, _, c2, h, _, hbuf, hbb⟩
    · rw [h] at hz; cases hz
    · rw [h] at hz; cases hz
    · rw [h] at hz
      cases hz
      by_cases hbz : b = z
      · subst hbz; rw [hbb]; exact ⟨rfl, rfl⟩
      · rw [hbuf b hbz]; exact ⟨rfl, rfl⟩
  | bpin z =>
    obtain ⟨_, hz, _, _⟩ := exec_bpin_ret w z w2 r he
    rw [hz, Bcache.incref]
    by_cases hbz : b = z
    · subst hbz; rw [modify_buf_same]; exact ⟨rfl, rfl⟩
    · rw [modify_buf_ne _ _ _ _ hbz]; exact ⟨rfl, rfl⟩
  | bunpin z =>
    obtain ⟨_, hz, _, _⟩ := exec_bunpin_ret w z w2 r he
    rw [hz, Bcache.decref]
    by_cases hbz : b = z
    · subst hbz; rw [modify_buf_same]; exact ⟨rfl, rfl⟩
    · rw [modify_buf_ne _ _ _ _ hbz]; exact ⟨rfl, rfl⟩
  | store pid z d =>
    obtain ⟨_, _, _, hcase⟩ := exec_store_ret w pid z d w2 r he
    rcases hcase with ⟨_, hz⟩ | ⟨_, hz⟩
    · rw [hz]
      by_cases hbz : b = z
      · subst hbz; rw [modify_buf_same]; exact ⟨rfl, rfl⟩
      · rw [modify_buf_ne _ _ _ _ hbz]; exact ⟨rfl, rfl⟩
    · rw [hz]; exact ⟨rfl, rfl⟩

theorem run_keeps_key (ops : List Op) :
    ∀ (w w2 : World) (b : Nat), run w ops = some w2 →
      (∀ v ∈ w :: states w ops, (v.bcache.buf b).refcnt ≠ 0) →
      (w2.bcache.buf b).dev = (w.bcache.buf b).dev ∧
        (w2.bcache.buf b).blockno = (w.bcache.buf b).blockno := by
  induction ops with
  | nil =>
    intro w w2 b h _
    simp only [run, Option.some.injEq] at h
    subst h
    exact ⟨rfl, rfl⟩
  | cons op rest ih =>
    intro w w2 b h hlive
    cases he : exec w op with
    | ret w1 r =>
      simp only [run, he] at h
      simp only [states, he] at hlive
      have h1 := exec_keeps_key w op w1 r b he (hlive w (List.mem_cons_self _ _))
      have h2 := ih w1 w2 b h (fun v hv => hlive v (List.mem_cons_of_mem _ hv))
      exact ⟨h2.1.trans h1.1, h2.2.trans h1.2⟩
    | panic m w1 => simp only [run, he] at h; cases h
    | sleep w1 z => simp only [run, he] at h; cases h
    | oob w1 => simp only [run, he] at h; cases h

/-- Under the invariant, `bget` for the block of a buffer that a caller has been given
goes for that buffer. -/
theorem bget_finds_handed (NBUF : Nat) (g : Ghost) (c : Bcache) (b pid : Nat)
    (hi : Inv NBUF g c) (hb : b ∈ g.handed) :
    ((c.buf b).lock = none ∧ ∃ c2, bget c pid (c.buf b).dev (c.buf b).blockno = .ret c2 b) ∨
    ((c.buf b).lock ≠ none ∧
      ∃ c2, bget c pid (c.buf b).dev (c.buf b).blockno = .sleep c2 b) := by
  obtain ⟨i, hiN, hbi⟩ := (hi.part.cover b).1 (hi.listed b hb)
  obtain ⟨hh, hidx⟩ := hi.placed i hiN b hbi
  have hfound : lookup c.buf (c.buf b).dev (c.buf b).blockno
      (c.hashtable (hash (toInt (c.buf b).blockno)).toNat) = some b := by
    rw [hidx]
    cases hl : lookup c.buf (c.buf b).dev (c.buf b).blockno (c.hashtable i) with
    | none => exact absurd ⟨rfl, rfl⟩ ((lookup_none_iff _ _ _ _).1 hl b hbi)
    | some x =>
      obtain ⟨l1, l2, hdec, hmatch, hl1⟩ := lookup_some _ _ _ _ _ hl
      by_cases hxb : x = b
      · rw [hxb]
      · exfalso
        have hfirst := hi.first i hiN
        rw [hdec] at hbi hfirst
        rcases List.mem_append.1 hbi with h1 | h2
        · exact hl1 b h1 ⟨rfl, rfl⟩
        · rcases List.mem_cons.1 h2 with h3 | h3
          · exact hxb h3.symm
          · rw [List.pairwise_append] at hfirst
            exact (List.pairwise_cons.1 hfirst.2.1).1 b h3 hmatch hb
  rcases bget_cases c pid (c.buf b).dev (c.buf b).blockno with ⟨h1, _⟩ | ⟨_, z, hl, h1⟩ |
    ⟨_, hl, _⟩ | ⟨_, hl, _⟩
  · exact absurd h1 hh
  · rw [hfound] at hl
    cases hl
    rw [h1]
    rcases acquiresleep_cases (c.incref b) pid b with ⟨h3, h2⟩ | ⟨h3, h2⟩
    · left
      simp only [Bcache.incref, modify_buf_same] at h3
      exact ⟨h3, _, h2⟩
    · right
      simp only [Bcache.incref, modify_buf_same] at h3
      exact ⟨h3, _, h2⟩
  · rw [hfound] at hl; cases hl
  · rw [hfound] at hl; cases hl

theorem pairwise_either {R : Nat → Nat → Prop} (l : List Nat) (h : l.Pairwise R)
    (x y : Nat) (hx : x ∈ l) (hy : y ∈ l) (hxy : x ≠ y) : R x y ∨ R y x := by
  induction l with
  | nil => cases hx
  | cons a rest ih =>
    rw [List.pairwise_cons] at h
    rcases List.mem_cons.1 hx with hxa | hxr
    · rcases List.mem_cons.1 hy with hya | hyr
      · exact absurd (hxa.trans hya.symm) hxy
      · left; rw [hxa]; exact h.1 y hyr
    · rcases List.mem_cons.1 hy with hya | hyr
      · right; rw [hya]; exact h.1 x hxr
      · exact ih h.2 hxr hyr

/-- Under the invariant no two buffers that callers have been given are of the same
block. -/
theorem inv_handed_distinct (NBUF : Nat) (g : Ghost) (c : Bcache) (hi : Inv NBUF g c)
    (x y : Nat) (hxy : x ≠ y) (hxh : x ∈ g.handed) (hyh : y ∈ g.handed) :
    ¬ ((c.buf x).dev = (c.buf y).dev ∧ (c.buf x).blockno = (c.buf y).blockno) := by
  intro hk
  obtain ⟨i, hiN, hxi⟩ := (hi.part.cover x).1 (hi.listed x hxh)
  obtain ⟨j, hjN, hyj⟩ := (hi.part.cover y).1 (hi.listed y hyh)
  have hpi := (hi.placed i hiN x hxi).2
  have hpj := (hi.placed j hjN y hyj).2
  rw [hk.2, hpj] at hpi
  subst hpi
  rcases pairwise_either _ (hi.first j hiN) x y hxi hyj hxy with h | h
  · exact h hk hyh
  · exact h ⟨hk.1.symm, hk.2.symm⟩ hxh

/-- Under the invariant no two buffers in use are of the same block. -/
theorem inv_live_distinct (NBUF : Nat) (g : Ghost) (c : Bcache) (hi : Inv NBUF g c)
    (x y : Nat) (hxy : x ≠ y) (hx : (c.buf x).refcnt ≠ 0) (hy : (c.buf y).refcnt ≠ 0) :
    ¬ ((c.buf x).dev = (c.buf y).dev ∧ (c.buf x).blockno = (c.buf y).blockno) :=
  inv_handed_distinct NBUF g c hi x y hxy (hi.used x (Or.inl hx)) (hi.used y (Or.inl hy))

/-- C1. Live keys are never cached twice. In every run from `binit` of calls that each
return, with the buffer arguments of `bpin` taken from the buffers that `bget`/`bread`
have returned and `bunpin` only after a matching `bpin` (`brelse` checks for itself that
the buffer is held):
no two different buffers with `refcnt` not 0 are of the same (dev, blockno); and if a
`bget`/`bread` for (dev, blockno) returned `b` and the `refcnt` of `b` was not 0 in any
state from then on, a `bget` for (dev, blockno) goes for the same buffer `b`: it returns
`b` if the sleep-lock of `b` is free, and is suspended waiting for the sleep-lock of `b`
if that is taken. -/
theorem live_block_cached_once (NBUF : Nat) (disk : Nat → Nat → Nat) :
    (∀ ops w, Legal Ghost.start (boot NBUF disk) ops → run (boot NBUF disk) ops = some w →
      ∀ x y, x ≠ y → (w.bcache.buf x).refcnt ≠ 0 → (w.bcache.buf y).refcnt ≠ 0 →
        ¬ ((w.bcache.buf x).dev = (w.bcache.buf y).dev ∧
           (w.bcache.buf x).blockno = (w.bcache.buf y).blockno)) ∧
    (∀ pre mid op pid dev blockno pid2 wa wb wc b,
      (op = Op.bget pid dev blockno ∨ op = Op.bread pid dev blockno) →
      Legal Ghost.start (boot NBUF disk) (pre ++ op :: mid) →
      run (boot NBUF disk) pre = some wa →
      exec wa op = .ret wb (some b) →
      run wb mid = some wc →
      (∀ v ∈ wb :: states wb mid, (v.bcache.buf b).refcnt ≠ 0) →
      ((wc.bcache.buf b).lock = none ∧ ∃ c, bget wc.bcache pid2 dev blockno = .ret c b) ∨
      ((wc.bcache.buf b).lock ≠ none ∧
        ∃ c, bget wc.bcache pid2 dev blockno = .sleep c b)) := by
  have h0 : Inv NBUF Ghost.start (boot NBUF disk).bcache := inv_start NBUF
  constructor
  · intro ops w hl hr x y hxy hx hy
    obtain ⟨w2, hr2, hi⟩ := legal_run NBUF ops _ _ h0 hl
    rw [hr] at hr2
    cases hr2
    exact inv_live_distinct NBUF _ _ hi x y hxy hx hy
  · intro pre mid op pid dev blockno pid2 wa wb wc b hop hl hpre hex hmid hlive
    obtain ⟨hl1, hl2⟩ := legal_split pre _ _ _ hl
    obtain ⟨w2, hr2, hia⟩ := legal_run NBUF pre _ _ h0 hl1
    rw [hpre] at hr2
    cases hr2
    have hl3 := hl2 wa hpre
    obtain ⟨hadm, hl4⟩ := hl3
    rw [hex] at hl4
    have hib := inv_exec NBUF _ wa op wb (some b) hia hadm hex
    have hbh : b ∈ ((Ghost.start.after (boot NBUF disk) pre).step op (some b)).handed := by
      rcases hop with h | h <;> rw [h] <;> simp [Ghost.step]
    have hkey : (wb.bcache.buf b).dev = dev ∧ (wb.bcache.buf b).blockno = blockno := by
      rcases hop with h | h
      · rw [h] at hex
        obtain ⟨z, hz, hb, _, _⟩ := exec_bget_ret wa pid dev blockno wb _ hex
        cases hz
        have := bget_ret _ _ _ _ _ _ hb
        exact ⟨this.1, this.2.1⟩
      · rw [h] at hex
        obtain ⟨z, hz, hb⟩ := exec_bread_ret wa pid dev blockno wb _ hex
        cases hz
        obtain ⟨c, hc, _, _, _, hcase⟩ := bread_ret wa pid dev blockno wb _ hb
        have := bget_ret _ _ _ _ _ _ hc
        rcases hcase with ⟨_, h2, _⟩ | ⟨_, h2, _⟩ <;> rw [h2] <;> exact ⟨this.1, this.2.1⟩
    obtain ⟨w3, hr3, hic⟩ := legal_run NBUF mid _ _ hib hl4
    rw [hmid] at hr3
    cases hr3
    have hbc := after_handed mid _ wb b hbh
    have hkc := run_keeps_key mid wb wc b hmid hlive
    have := bget_finds_handed NBUF _ wc.bcache b pid2 hic hbc
    rw [hkc.1, hkc.2, hkey.1, hkey.2] at this
    exact this

theorem scanBucket_none (buf : Nat → Buf) (i : Nat) :
    ∀ (l : List Nat) (pos : Nat) (st : Option Cand × Nat),
      (scanBucket buf i l pos st).1 = none →
      scanBucket buf i l pos st = st ∧
        ∀ b ∈ l, ¬ ((buf b).refcnt = 0 ∧ (buf b).timestamp ≥ st.2) := by
  intro l
  induction l with
  | nil => intro pos st _; exact ⟨rfl, by simp⟩
  | cons a rest ih =>
    intro pos st h
    by_cases hc : (buf a).refcnt = 0 ∧ (buf a).timestamp ≥ st.2
    · simp only [scanBucket, if_pos hc] at h
      have := (ih _ _ h).1
      rw [this] at h
      cases h
    · simp only [scanBucket, if_neg hc] at h ⊢
      obtain ⟨h1, h2⟩ := ih _ _ h
      refine ⟨h1, ?_⟩
      intro b hb
      rcases List.mem_cons.1 hb with e | hb
      · rw [e]; exact hc
      · exact h2 b hb

/-- If the scan ends without a candidate, no buffer on a list has `refcnt` 0. -/
theorem scanAll_none (c : Bcache) (h : (scanAll c).1 = none) :
    ∀ i, i < NBUCKET → ∀ b ∈ c.hashtable i, (c.buf b).refcnt ≠ 0 := by
  have key : ∀ (L : List Nat) (st : Option Cand × Nat),
      (L.foldl (fun st i => scanBucket c.buf i (c.hashtable i) 0 st) st).1 = none →
      L.foldl (fun st i => scanBucket c.buf i (c.hashtable i) 0 st) st = st ∧
        ∀ i ∈ L, ∀ b ∈ c.hashtable i, ¬ ((c.buf b).refcnt = 0 ∧ (c.buf b).timestamp ≥ st.2) := by
    intro L
    induction L with
    | nil => intro st _; exact ⟨rfl, by simp⟩
    | cons j rest ih =>
      intro st hst
      simp only [List.foldl_cons] at hst ⊢
      obtain ⟨h1, h2⟩ := ih _ hst
      rw [h1] at hst
      obtain ⟨h3, h4⟩ := scanBucket_none c.buf j (c.hashtable j) 0 st hst
      rw [h3] at h1 h2
      refine ⟨by rw [h3]; exact h1, ?_⟩
      intro i hi b hb
      rcases List.mem_cons.1 hi with e | hi
      · rw [e] at hb; exact h4 b hb
      · exact h2 i hi b hb
  intro i hi b hb h0
  exact (key (List.range NBUCKET) (none, 0) h).2 i (List.mem_range.2 hi) b hb
    ⟨h0, Nat.zero_le _⟩

theorem bread_of_bget (w : World) (pid dev blockno : Nat) (c : Bcache) (b : Nat)
    (h : bget w.bcache pid dev blockno = .ret c b) :
    ∃ w2, bread w pid dev blockno = .ret w2 b := by
  unfold bread
  rw [h]
  simp only
  split_ifs
  · exact ⟨_, rfl⟩
  · exact ⟨_, rfl⟩

theorem bread_of_bget_panic (w : World) (pid dev blockno : Nat) (m : PanicMsg) (c : Bcache)
    (h : bget w.bcache pid dev blockno = .panic m c) :
    bread w pid dev blockno = .panic m { w with bcache := c } := by
  unfold bread
  rw [h]
  rfl

theorem bread_of_bget_sleep (w : World) (pid dev blockno : Nat) (c : Bcache) (z : Nat)
    (h : bget w.bcache pid dev blockno = .sleep c z) :
    bread w pid dev blockno = .sleep { w with bcache := c } z := by
  unfold bread
  rw [h]
  rfl

/-- How `bget` can end when the index is not negative: it returns; or it halts for want
of a buffer, every buffer having `refcnt` not 0; or it is suspended on a sleep-lock that
is taken. -/
theorem bget_outcome (NBUF : Nat) (c : Bcache) (pid dev blockno : Nat)
    (hp : Partition NBUF c.hashtable) (hh : ¬ hash (toInt blockno) < 0) :
    (∃ c2 b, bget c pid dev blockno = .ret c2 b) ∨
    (bget c pid dev blockno = .panic .bget_no_buffers c ∧
      ∀ x, x < NBUF → (c.buf x).refcnt ≠ 0) ∨
    (∃ c2 z, bget c pid dev blockno = .sleep c2 z ∧ (c.buf z).lock ≠ none) := by
  have hacq : ∀ (c1 : Bcache) (z : Nat), (c1.buf z).lock = (c.buf z).lock →
      (∃ c2 b, acquiresleep c1 pid z = .ret c2 b) ∨
      (∃ c2 y, acquiresleep c1 pid z = .sleep c2 y ∧ (c.buf y).lock ≠ none) := by
    intro c1 z hz
    rcases acquiresleep_cases c1 pid z with ⟨_, h2⟩ | ⟨h1, h2⟩
    · exact Or.inl ⟨_, _, h2⟩
    · exact Or.inr ⟨_, _, h2, hz ▸ h1⟩
  rcases bget_cases c pid dev blockno with ⟨h1, _⟩ | ⟨_, z, _, h1⟩ | ⟨_, _, hs, h1⟩ |
    ⟨_, _, m, _, h1⟩
  · exact absurd h1 hh
  · rw [h1]
    rcases hacq (c.incref z) z (by simp [Bcache.incref]) with h | h
    · exact Or.inl h
    · exact Or.inr (Or.inr h)
  · refine Or.inr (Or.inl ⟨h1, ?_⟩)
    intro x hx
    obtain ⟨i, hi, hxi⟩ := (hp.cover x).1 hx
    exact scanAll_none c hs i hi x hxi
  · rcases h1 with ⟨_, _, h1⟩ | ⟨_, h1⟩
    · rw [h1]
      have hk : (((((c.unlink m).push (hash (toInt blockno)).toNat m.minbuf).incref
          m.minbuf).buf m.minbuf).lock) = (c.buf m.minbuf).lock := by
        simp only [Bcache.incref, modify_buf_same]; rfl
      rcases hacq _ m.minbuf hk with h | h
      · exact Or.inl h
      · exact Or.inr (Or.inr h)
    · rw [h1]
      have hk : (((((c.unlink m).push (hash (toInt blockno)).toNat m.minbuf).claim
          m.minbuf dev blockno).buf m.minbuf).lock) = (c.buf m.minbuf).lock := by
        simp only [Bcache.claim, modify_buf_same]; rfl
      rcases hacq _ m.minbuf hk with h | h
      · exact Or.inl h
      · exact Or.inr (Or.inr h)

theorem stored_bread (dev blockno D : Nat) (w : World) (pid d n : Nat) (w2 : World) (b : Nat)
    (hne : ¬ (d = dev ∧ n = blockno)) (hs : Stored dev blockno D w)
    (h : bread w pid d n = .ret w2 b) : Stored dev blockno D w2 := by
  obtain ⟨c, hc, hdisk, _, hbuf, hcase⟩ := bread_ret w pid d n w2 b h
  have hkb := bget_ret _ _ _ _ _ _ hc
  obtain ⟨_, hcases⟩ := bget_ret_cases _ _ _ _ _ _ hc
  have hcb : ∀ x, x ≠ b → c.buf x = w.bcache.buf x := by
    rcases hcases with ⟨_, _, h1, _⟩ | ⟨_, m, _, _, _, _, h1, _⟩ | ⟨_, m, _, _, _, h1, _⟩ <;>
      exact h1
  refine ⟨hdisk ▸ hs.1, ?_⟩
  intro x hxd hxn hxv
  by_cases hxb : x = b
  · exfalso
    rw [hxb] at hxd hxn
    apply hne
    rcases hcase with ⟨_, h2, _⟩ | ⟨_, h2, _⟩
    · rw [h2] at hxd hxn
      exact ⟨hkb.1.symm.trans hxd, hkb.2.1.symm.trans hxn⟩
    · rw [h2] at hxd hxn
      exact ⟨hkb.1.symm.trans hxd, hkb.2.1.symm.trans hxn⟩
  · rw [hbuf x hxb, hcb x hxb] at hxd hxn hxv ⊢
    exact hs.2 x hxd hxn hxv

theorem stored_brelse (dev blockno D : Nat) (w : World) (pid b ticks : Nat) (c2 : Bcache)
    (hs : Stored dev blockno D w) (h : brelse w.bcache pid b ticks = .ret c2 ()) :
    Stored dev blockno D { w with bcache := c2 } := by
  rcases brelse_cases w.bcache pid b ticks with ⟨_, h1⟩ | ⟨_, _, h1⟩ | ⟨_, _, c3, h1, _, hbuf, hbb⟩
  · rw [h1] at h; cases h
  · rw [h1] at h; cases h
  · rw [h1] at h
    cases h
    refine ⟨hs.1, ?_⟩
    intro x hxd hxn hxv
    by_cases hxb : x = b
    · subst hxb
      simp only [hbb] at hxd hxn hxv ⊢
      exact hs.2 x hxd hxn hxv
    · simp only [hbuf x hxb] at hxd hxn hxv ⊢
      exact hs.2 x hxd hxn hxv

theorem stored_run (dev blockno D : Nat) (ops : List Op) :
    ∀ (w w2 : World), (∀ op ∈ ops, OtherBlock dev blockno op) → Stored dev blockno D w →
      run w ops = some w2 → Stored dev blockno D w2 := by
  induction ops with
  | nil =>
    intro w w2 _ hs h
    simp only [run, Option.some.injEq] at h
    rw [← h]; exact hs
  | cons op rest ih =>
    intro w w2 hops hs h
    cases he : exec w op with
    | ret w1 r =>
      simp only [run, he] at h
      refine ih w1 w2 (fun o ho => hops o (List.mem_cons_of_mem _ ho)) ?_ h
      rcases hops op (List.mem_cons_self _ _) with ⟨p, d, n, hop, hne⟩ | ⟨p, x, t, hop⟩
      · subst hop
        obtain ⟨b, _, hb⟩ := exec_bread_ret w p d n w1 r he
        exact stored_bread dev blockno D w p d n w1 b hne hs hb
      · subst hop
        obtain ⟨_, hb, hd, hio⟩ := exec_brelse_ret w p x t w1 r he
        have := stored_brelse dev blockno D w p x t w1.bcache hs hb
        exact ⟨hd ▸ this.1, this.2⟩
    | panic m w1 => simp only [run, he] at h; cases h
    | sleep w1 z => simp only [run, he] at h; cases h
    | oob w1 => simp only [run, he] at h; cases h

/-- What `bread` of the block returns when `D` is stored. -/
theorem stored_read (dev blockno D : Nat) (w : World) (pid : Nat) (w2 : World) (b : Nat)
    (hs : Stored dev blockno D w) (h : bread w pid dev blockno = .ret w2 b) :
    (w2.bcache.buf b).data = D := by
  obtain ⟨c, hc, _, _, _, hcase⟩ := bread_ret w pid dev blockno w2 b h
  have hkb := bget_ret _ _ _ _ _ _ hc
  obtain ⟨_, hcases⟩ := bget_ret_cases _ _ _ _ _ _ hc
  rcases hcase with ⟨hv, h2, _⟩ | ⟨_, h2, _⟩
  · rw [h2]
    rcases hcases with ⟨hl, _, _, hbb⟩ | ⟨_, m, _, _, hk, _, _, hbb⟩ | ⟨_, m, _, _, _, _, hbb⟩
    · obtain ⟨_, _, _, hmatch, _⟩ := lookup_some _ _ _ _ _ hl
      rw [hbb] at hv ⊢
      exact hs.2 b hmatch.1 hmatch.2 hv
    · rw [hbb] at hv ⊢
      exact hs.2 b hk.1 hk.2 hv
    · rw [hbb] at hv
      cases hv
  · rw [h2]
    simp only
    rw [hkb.1, hkb.2.1]
    exact hs.1

/-- C4, as amended. Write, evict, read round trip, over a disk that is a map from
(dev, blockno) to contents. In a state reached from `binit` by a legal run, let the
caller hold the buffer `b`, of block K with content D, call `bwrite(b)` and then
`brelse(b)`, and let any sequence of completed `bread` calls for other blocks and
`brelse` calls follow (they may evict `b` and give it to another block). Then every
buffer that `bread(K)` returns has the content D; and `bread(K)` does return, unless
every buffer has `refcnt` not 0 (then it halts in `panic("bget: no buffers")` with the
state as it was) or the sleep-lock of the buffer it goes for is taken (then it waits). -/
theorem write_evict_read_round_trip (NBUF : Nat) (disk : Nat → Nat → Nat)
    (pre mid : List Op) (pid b ticks pid2 : Nat) (wa w1 w2 w3 : World) (r1 r2 : Option Nat)
    (hl : Legal Ghost.start (boot NBUF disk) pre)
    (hpre : run (boot NBUF disk) pre = some wa)
    (hheld : (wa.bcache.buf b).lock = some pid)
    (hwrite : exec wa (.bwrite pid b) = .ret w1 r1)
    (hrel : exec w1 (.brelse pid b ticks) = .ret w2 r2)
    (hmid : ∀ op ∈ mid,
      (∃ p d n, op = Op.bread p d n ∧
        ¬ (d = (wa.bcache.buf b).dev ∧ n = (wa.bcache.buf b).blockno)) ∨
      (∃ p x t, op = Op.brelse p x t))
    (hrun : run w2 mid = some w3) :
    (∀ w4 b2, bread w3 pid2 (wa.bcache.buf b).dev (wa.bcache.buf b).blockno = .ret w4 b2 →
      (w4.bcache.buf b2).data = (wa.bcache.buf b).data) ∧
    ((∃ w4 b2, bread w3 pid2 (wa.bcache.buf b).dev (wa.bcache.buf b).blockno = .ret w4 b2) ∨
     (bread w3 pid2 (wa.bcache.buf b).dev (wa.bcache.buf b).blockno =
        .panic .bget_no_buffers w3 ∧ ∀ x, x < NBUF → (w3.bcache.buf x).refcnt ≠ 0) ∨
     (∃ w4 z, bread w3 pid2 (wa.bcache.buf b).dev (wa.bcache.buf b).blockno = .sleep w4 z ∧
        (w3.bcache.buf z).lock ≠ none)) := by
  obtain ⟨w0, hr0, hia⟩ := legal_run NBUF pre _ _ (inv_start NBUF) hl
  rw [hpre] at hr0
  cases hr0
  have hbh := hia.used b (Or.inr (Or.inl (by rw [hheld]; simp)))
  -- the state after the write and the release
  obtain ⟨_, _, hw1⟩ := exec_bwrite_ret wa pid b w1 r1 hwrite
  obtain ⟨_, hb2, hd2, _⟩ := exec_brelse_ret w1 pid b ticks w2 r2 hrel
  have hc1 : w1.bcache = wa.bcache := by rw [hw1]; simp [virtio_disk_rw]
  have hdisk1 : w1.disk (wa.bcache.buf b).dev (wa.bcache.buf b).blockno =
      (wa.bcache.buf b).data := by
    rw [hw1]; simp [virtio_disk_rw]
  have hstored : Stored (wa.bcache.buf b).dev (wa.bcache.buf b).blockno
      (wa.bcache.buf b).data w2 := by
    rw [hc1] at hb2
    rcases brelse_cases wa.bcache pid b ticks with ⟨_, h1⟩ | ⟨_, _, h1⟩ |
      ⟨_, _, c3, h1, _, hbuf, hbb⟩
    · rw [h1] at hb2; cases hb2
    · rw [h1] at hb2; cases hb2
    · rw [h1] at hb2
      cases hb2
      refine ⟨hd2 ▸ hdisk1, ?_⟩
      intro x hxd hxn hxv
      by_cases hxb : x = b
      · rw [hxb, hbb]
      · exfalso
        rw [hbuf x hxb] at hxd hxn hxv
        have hxh : x ∈ (Ghost.start.after (boot NBUF disk) pre).handed := by
          by_contra hno
          have := hia.fresh x hno
          rw [hxv] at this
          cases this
        exact inv_handed_distinct NBUF _ _ hia x b hxb hxh hbh ⟨hxd, hxn⟩
  have hs3 := stored_run _ _ _ mid w2 w3 hmid hstored hrun
  refine ⟨fun w4 b2 h4 => stored_read _ _ _ w3 pid2 w4 b2 hs3 h4, ?_⟩
  -- the lists at `w3` still partition the buffers
  have hp3 : Partition NBUF w3.bcache.hashtable := by
    have hp1 : Partition NBUF w1.bcache.hashtable := hc1 ▸ hia.part
    have hp2 := partition_exec NBUF w1 (.brelse pid b ticks) hp1
    rw [hrel] at hp2
    exact partition_run NBUF mid w2 w3 hp2 hrun
  obtain ⟨i, hiN, hbi⟩ := (hia.part.cover b).1 (hia.listed b hbh)
  have hh := (hia.placed i hiN b hbi).1
  rcases bget_outcome NBUF w3.bcache pid2 (wa.bcache.buf b).dev (wa.bcache.buf b).blockno
    hp3 hh with ⟨c4, b2, h4⟩ | ⟨h4, hfull⟩ | ⟨c4, z, h4, hz⟩
  · obtain ⟨w4, h5⟩ := bread_of_bget w3 pid2 _ _ c4 b2 h4
    exact Or.inl ⟨w4, b2, h5⟩
  · exact Or.inr (Or.inl ⟨bread_of_bget_panic w3 pid2 _ _ _ _ h4, hfull⟩)
  · exact Or.inr (Or.inr ⟨_, z, bread_of_bget_sleep w3 pid2 _ _ c4 z h4, hz⟩)

theorem exampleRead_eq :
    exec (boot 3 exampleDisk) (.bread 1 1 1) = .ret exampleRead (some 0) := by
  rfl

theorem exampleRun : run exampleRead exampleOps = some exampleWorld := by
  rfl

theorem exampleLegalRun :
    Legal Ghost.start (boot 3 exampleDisk) ([] ++ Op.bread 1 1 1 :: exampleOps) := by
  refine ⟨trivial, ?_⟩
  rw [exampleRead_eq]
  refine ⟨List.mem_cons_self _ _, ?_⟩
  exact ⟨trivial, trivial⟩

theorem exampleLive :
    ∀ v ∈ exampleRead :: states exampleRead exampleOps, (v.bcache.buf 0).refcnt ≠ 0 := by
  intro v hv
  have : states exampleRead exampleOps =
      [(exec exampleRead (.bpin 0)).state, exampleWorld] := rfl
  rw [this] at hv
  simp only [List.mem_cons, List.mem_singleton, List.not_mem_nil, or_false] at hv
  rcases hv with h | h | h <;> rw [h] <;> decide

theorem live_block_cached_once_witness :
    ((exampleWorld.bcache.buf 0).lock = none ∧
      ∃ c, bget exampleWorld.bcache 2 1 1 = .ret c 0) ∨
    ((exampleWorld.bcache.buf 0).lock ≠ none ∧
      ∃ c, bget exampleWorld.bcache 2 1 1 = .sleep c 0) :=
  (live_block_cached_once 3 exampleDisk).2 [] exampleOps (.bread 1 1 1) 1 1 1 2
    (boot 3 exampleDisk) exampleRead exampleWorld 0 (Or.inr rfl) exampleLegalRun rfl
    exampleRead_eq exampleRun exampleLive

theorem bget_miss_spares_held_witness :
    ((bget exampleRead.bcache 2 1 2).state.buf 0).blockno = (exampleRead.bcache.buf 0).blockno :=
  ((bget_miss_spares_held exampleRead.bcache 2 1 2 (by decide) (by decide)).2.2 0
    (by decide)).2.1

theorem buffers_partitioned_witness :
    ((List.range NBUCKET).map (fun i => (exampleWorld.bcache.hashtable i).length)).sum = 3 :=
  (buffers_partitioned 3 exampleDisk (Op.bread 1 1 1 :: exampleOps) exampleWorld rfl).2.2.2.2

theorem exampleEvictedRun :
    run (boot 3 exampleDisk) [.bread 1 1 1, .store 1 0 77] = some exampleStored ∧
    exec exampleStored (.bwrite 1 0) = .ret (exec exampleStored (.bwrite 1 0)).state none ∧
    exec (exec exampleStored (.bwrite 1 0)).state (.brelse 1 0 5) =
      .ret (exec (exec exampleStored (.bwrite 1 0)).state (.brelse 1 0 5)).state none ∧
    run (exec (exec exampleStored (.bwrite 1 0)).state (.brelse 1 0 5)).state
      [.bread 2 1 2, .brelse 2 0 6] = some exampleEvicted ∧
    bread exampleEvicted 3 1 1 = .ret (bread exampleEvicted 3 1 1).state 0 :=
  ⟨rfl, rfl, rfl, rfl, rfl⟩

theorem write_evict_read_round_trip_witness :
    ((bread exampleEvicted 3 1 1).state.bcache.buf 0).data = 77 ∧
    (exampleEvicted.bcache.buf 0).blockno = 2 :=
  ⟨(write_evict_read_round_trip 3 exampleDisk [.bread 1 1 1, .store 1 0 77]
      [.bread 2 1 2, .brelse 2 0 6] 1 0 5 3 exampleStored _ _ exampleEvicted none none
      ⟨trivial, trivial, trivial⟩ exampleEvictedRun.1 (by decide) exampleEvictedRun.2.1
      exampleEvictedRun.2.2.1
      (by
        intro op hop
        simp only [List.mem_cons, List.mem_singleton, List.not_mem_nil, or_false] at hop
        rcases hop with h | h
        · exact Or.inl ⟨2, 1, 2, h, by decide⟩
        · exact Or.inr ⟨2, 0, 6, h⟩)
      exampleEvictedRun.2.2.2.1).1 _ 0 exampleEvictedRun.2.2.2.2,
    by decide⟩

set_option maxRecDepth 100000 in
/-- C4 as stated fails. On a fresh cache of 30 buffers process 1 reads block 1 of device 1
and gets buffer 0, writes 77 into it, calls `bwrite` and `brelse`; process 2 then reads
the 30 other blocks 101 .. 130 of device 1 and keeps the buffers. Every call returns; the
`bread` of block 1 that follows does not return a buffer: no buffer has `refcnt` 0 and
the kernel halts in `panic("bget: no buffers")`. -/
theorem round_trip_halts_when_all_held :
    ∃ wa w1 w2 w3,
      run (boot 30 exampleDisk) [.bread 1 1 1, .store 1 0 77] = some wa ∧
      (wa.bcache.buf 0).lock = some 1 ∧ (wa.bcache.buf 0).dev = 1 ∧
      (wa.bcache.buf 0).blockno = 1 ∧ (wa.bcache.buf 0).data = 77 ∧
      exec wa (.bwrite 1 0) = .ret w1 none ∧
      exec w1 (.brelse 1 0 5) = .ret w2 none ∧
      run w2 exampleHoldAll = some w3 ∧
      (bread w3 1 1 1).halted = some .bget_no_buffers :=
  ⟨_, _, _, _, rfl, by decide, by decide, by decide, by decide, rfl, rfl, rfl, by decide⟩

set_option maxRecDepth 100000 in
/-- C7, the code on the scenario of the claim: 30 buffers fresh from `binit`, process 1
reads the blocks 1 .. 31 of device 1 and releases each buffer at once, at the ticks
101 .. 131. After the second read block 1 is no longer cached; after the first 30 reads
block 30 is the only one of the blocks read that is cached, and after the 31st read
block 31 is: every read has recycled the buffer released just before. -/
theorem reads_recycle_the_same_buffer :
    (readRelease 1 (boot 30 exampleDisk) (exampleKeys.take 2)).map
      (fun w => (cached 30 w 1 1, cached 30 w 1 2)) = some (false, true) ∧
    (readRelease 1 (boot 30 exampleDisk) (exampleKeys.take 30)).map
      (fun w => (List.range' 1 31).filter (cached 30 w 1)) = some [30] ∧
    (readRelease 1 (boot 30 exampleDisk) exampleKeys).map
      (fun w => (List.range' 1 31).filter (cached 30 w 1)) = some [31] := by
  refine ⟨?_, ?_, ?_⟩ <;> decide

/-- C20 at the failing input. For the block number `2 ^ 31` the index `hash(blockno)` is
`-11`, so `bget` indexes `bcache.lock` out of bounds in every state; below `2 ^ 31` the
index is in the range `0 .. NBUCKET-1`. -/
theorem hash_negative_from_two_pow_31 :
    hash (toInt (2 ^ 31)) = -11 ∧
    (∀ c pid dev, bget c pid dev (2 ^ 31) = .oob c) ∧
    (∀ blockno, blockno < 2 ^ 31 →
      0 ≤ hash (toInt blockno) ∧ hash (toInt blockno) < NBUCKET) := by
  have h1 : hash (toInt (2 ^ 31)) = -11 := by decide
  refine ⟨h1, ?_, ?_⟩
  · intro c pid dev
    unfold bget
    rw [if_pos (by rw [h1]; decide)]
  · intro blockno hb
    have e : toInt blockno = (blockno : Int) := by
      unfold toInt
      have : blockno % 2 ^ 32 = blockno := Nat.mod_eq_of_lt (by omega)
      rw [this, if_pos hb]
    rw [e]
    unfold hash
    constructor
    · exact Int.tmod_nonneg _ (by omega)
    · exact Int.tmod_lt_of_pos _ (by unfold NBUCKET; norm_num)

/-- C16 at the failing input. Three buffers, buffer 0 released at tick 5, buffers 1 and
2 never used (timestamp 0), all with `refcnt` 0: the scan of a missing `bget` chooses
buffer 0, the one released last, and `bget` gives it to the new block. -/
theorem bget_recycles_most_recently_released :
    (exampleReleased.bcache.buf 0).refcnt = 0 ∧ (exampleReleased.bcache.buf 0).timestamp = 5 ∧
    (exampleReleased.bcache.buf 1).refcnt = 0 ∧ (exampleReleased.bcache.buf 1).timestamp = 0 ∧
    lookup exampleReleased.bcache.buf 1 2
      (exampleReleased.bcache.hashtable (hash (toInt 2)).toNat) = none ∧
    (scanAll exampleReleased.bcache).1 = some { minbuf := 0, prevminbuf := 0, max_bucket := 1 } ∧
    ∃ c, bget exampleReleased.bcache 2 1 2 = .ret c 0 :=
  ⟨by decide, by decide, by decide, by decide, by decide, by decide, _, rfl⟩

theorem scanInv_bucket (c : Bcache) (i : Nat) :
    ∀ (l : List Nat) (pos : Nat) (st : Option Cand × Nat),
      (∀ k, l[k]? = (c.hashtable i)[pos + k]?) → ScanInv c i pos st →
      ScanInv c i (pos + l.length) (scanBucket c.buf i l pos st) := by
  intro l
  induction l with
  | nil => intro pos st _ h; simpa [scanBucket] using h
  | cons a rest ih =>
    intro pos st hl h
    have ha : (c.hashtable i)[pos]? = some a := by
      have := hl 0
      simpa using this.symm
    have hrest : ∀ k, rest[k]? = (c.hashtable i)[pos + 1 + k]? := by
      intro k
      have := hl (k + 1)
      have e : pos + (k + 1) = pos + 1 + k := by omega
      rw [e] at this
      simpa using this
    have hlen : pos + (a :: rest).length = pos + 1 + rest.length := by
      simp only [List.length_cons]; omega
    rw [hlen]
    obtain ⟨h1, h2, h3⟩ := h
    by_cases hc : (c.buf a).refcnt = 0 ∧ (c.buf a).timestamp ≥ st.2
    · simp only [scanBucket, if_pos hc]
      apply ih (pos + 1) _ hrest
      refine ⟨?_, ?_, ?_⟩
      · intro j q b hb hlt hb0
        refine ⟨_, rfl, ?_, ?_⟩
        · simp only
          by_cases hnew : j = i ∧ q = pos
          · rw [hnew.1, hnew.2, ha] at hb
            cases hb
            exact le_refl _
          · have hold : j < i ∨ (j = i ∧ q < pos) := by
              rcases hlt with hji | ⟨hji, hq⟩
              · exact Or.inl hji
              · right
                refine ⟨hji, ?_⟩
                have : q ≠ pos := fun e => hnew ⟨hji, e⟩
                omega
            obtain ⟨m, hm, hle, _⟩ := h1 j q b hb hold hb0
            have := (h2 m hm).1
            have hge := hc.2
            omega
        · intro _
          simp only
          rcases hlt with hji | ⟨hji, hq⟩
          · exact Or.inl hji
          · exact Or.inr ⟨hji, by omega⟩
      · intro m hm
        simp only [Option.some.injEq] at hm
        subst hm
        exact ⟨rfl, Or.inr ⟨rfl, by simp⟩⟩
      · intro hn; cases hn
    · simp only [scanBucket, if_neg hc]
      apply ih (pos + 1) _ hrest
      refine ⟨?_, ?_, h3⟩
      · intro j q b hb hlt hb0
        by_cases hnew : j = i ∧ q = pos
        · rw [hnew.1, hnew.2, ha] at hb
          cases hb
          have hts : (c.buf a).timestamp < st.2 := by
            by_contra hge
            exact hc ⟨hb0, not_lt.1 hge⟩
          cases hst : st.1 with
          | none => rw [h3 hst] at hts; omega
          | some m =>
            have := (h2 m hst).1
            exact ⟨m, rfl, by omega, fun e => by omega⟩
        · have hold : j < i ∨ (j = i ∧ q < pos) := by
            rcases hlt with hji | ⟨hji, hq⟩
            · exact Or.inl hji
            · right
              refine ⟨hji, ?_⟩
              have : q ≠ pos := fun e => hnew ⟨hji, e⟩
              omega
          exact h1 j q b hb hold hb0
      · intro m hm
        obtain ⟨e, hp⟩ := h2 m hm
        refine ⟨e, ?_⟩
        rcases hp with hp | ⟨hp, hq⟩
        · exact Or.inl hp
        · exact Or.inr ⟨hp, by omega⟩

theorem scanInv_next (c : Bcache) (i : Nat) (st : Option Cand × Nat)
    (h : ScanInv c i (c.hashtable i).length st) : ScanInv c (i + 1) 0 st := by
  obtain ⟨h1, h2, h3⟩ := h
  refine ⟨?_, ?_, h3⟩
  · intro j q b hb hlt hb0
    by_cases hji : j = i
    · subst hji
      obtain ⟨hq, _⟩ := List.getElem?_eq_some.1 hb
      exact h1 j q b hb (Or.inr ⟨rfl, hq⟩) hb0
    · exact h1 j q b hb (Or.inl (by omega)) hb0
  · intro m hm
    obtain ⟨e, hp⟩ := h2 m hm
    exact ⟨e, Or.inl (by omega)⟩

theorem scanInv_range (c : Bcache) (n : Nat) :
    ScanInv c n 0
      ((List.range n).foldl (fun st i => scanBucket c.buf i (c.hashtable i) 0 st) (none, 0)) := by
  induction n with
  | zero =>
    refine ⟨?_, ?_, fun _ => rfl⟩
    · intro j q b _ hlt _
      omega
    · intro m hm
      simp at hm
  | succ n ih =>
    rw [List.range_succ, List.foldl_append]
    simp only [List.foldl_cons, List.foldl_nil]
    apply scanInv_next
    have := scanInv_bucket c n (c.hashtable n) 0 _ (fun k => by simp) ih
    simpa using this

/-- What the eviction scan ends with: its candidate is on a list at its position, has
`refcnt` 0, and beats every buffer with `refcnt` 0 on the lists: none has a larger
timestamp, and none with the same timestamp comes later in the scan. -/
theorem scanAll_max (c : Bcache) (m : Cand) (h : (scanAll c).1 = some m) :
    ∀ j q b, j < NBUCKET → (c.hashtable j)[q]? = some b → (c.buf b).refcnt = 0 →
      (c.buf b).timestamp ≤ (c.buf m.minbuf).timestamp ∧
      ((c.buf b).timestamp = (c.buf m.minbuf).timestamp →
        j < m.max_bucket ∨ (j = m.max_bucket ∧ q ≤ m.prevminbuf)) := by
  intro j q b hj hb hb0
  obtain ⟨m2, hm2, h1, h2⟩ := (scanInv_range c NBUCKET).1 j q b hb (Or.inl hj) hb0
  have e : m2 = m := by
    have := hm2.symm.trans h
    exact Option.some.inj this
  rw [e] at h1 h2
  exact ⟨h1, h2⟩

/-- If some buffer on a list has `refcnt` 0, the scan ends with a candidate. -/
theorem scanAll_some (c : Bcache)
    (hfree : ∃ i, i < NBUCKET ∧ ∃ b ∈ c.hashtable i, (c.buf b).refcnt = 0) :
    ∃ m, (scanAll c).1 = some m := by
  cases hs : (scanAll c).1 with
  | some m => exact ⟨m, rfl⟩
  | none =>
    obtain ⟨i, hi, b, hb, hb0⟩ := hfree
    exact absurd hb0 (scanAll_none c hs i hi b hb)

/-- How a missing `bget` with a candidate ends: the candidate goes to the caller, at once
if its sleep-lock is free, after a wait if it is taken. -/
theorem bget_miss_outcome (c : Bcache) (pid dev blockno : Nat) (m : Cand)
    (hh : ¬ hash (toInt blockno) < 0)
    (hmiss : lookup c.buf dev blockno (c.hashtable (hash (toInt blockno)).toNat) = none)
    (hs : (scanAll c).1 = some m) :
    ((c.buf m.minbuf).lock = none ∧ ∃ c2, bget c pid dev blockno = .ret c2 m.minbuf) ∨
    ((c.buf m.minbuf).lock ≠ none ∧ ∃ c2, bget c pid dev blockno = .sleep c2 m.minbuf) := by
  have hacq : ∀ (c1 : Bcache), (c1.buf m.minbuf).lock = (c.buf m.minbuf).lock →
      ((c.buf m.minbuf).lock = none ∧ ∃ c2, acquiresleep c1 pid m.minbuf = .ret c2 m.minbuf) ∨
      ((c.buf m.minbuf).lock ≠ none ∧
        ∃ c2, acquiresleep c1 pid m.minbuf = .sleep c2 m.minbuf) := by
    intro c1 hz
    rcases acquiresleep_cases c1 pid m.minbuf with ⟨h1, h2⟩ | ⟨h1, h2⟩
    · exact Or.inl ⟨hz ▸ h1, _, h2⟩
    · exact Or.inr ⟨hz ▸ h1, _, h2⟩
  rcases bget_cases c pid dev blockno with ⟨h1, _⟩ | ⟨_, z, hl, _⟩ | ⟨_, _, hn, _⟩ |
    ⟨_, _, m2, hs2, h1⟩
  · exact absurd h1 hh
  · rw [hmiss] at hl; cases hl
  · rw [hs] at hn; cases hn
  · have e : m2 = m := Option.some.inj (hs2.symm.trans hs)
    subst e
    rcases h1 with ⟨_, _, h1⟩ | ⟨_, h1⟩
    · rw [h1]
      have hk : (((((c.unlink m2).push (hash (toInt blockno)).toNat m2.minbuf).incref
          m2.minbuf).buf m2.minbuf).lock) = (c.buf m2.minbuf).lock := by
        simp only [Bcache.incref, modify_buf_same]; rfl
      exact hacq _ hk
    · rw [h1]
      have hk : (((((c.unlink m2).push (hash (toInt blockno)).toNat m2.minbuf).claim
          m2.minbuf dev blockno).buf m2.minbuf).lock) = (c.buf m2.minbuf).lock := by
        simp only [Bcache.claim, modify_buf_same]; rfl
      exact hacq _ hk

/-- What a missing `bget` with a candidate does to the lists: the candidate is moved to
the front of the list of the bucket of the block. -/
theorem bget_miss_hashtable (c : Bcache) (pid dev blockno : Nat) (m : Cand)
    (hh : ¬ hash (toInt blockno) < 0)
    (hmiss : lookup c.buf dev blockno (c.hashtable (hash (toInt blockno)).toNat) = none)
    (hs : (scanAll c).1 = some m) :
    (bget c pid dev blockno).state.hashtable =
      ((c.unlink m).push (hash (toInt blockno)).toNat m.minbuf).hashtable := by
  rcases bget_cases c pid dev blockno with ⟨h1, _⟩ | ⟨_, z, hl, _⟩ | ⟨_, _, hn, _⟩ |
    ⟨_, _, m2, hs2, h1⟩
  · exact absurd h1 hh
  · rw [hmiss] at hl; cases hl
  · rw [hs] at hn; cases hn
  · have e : m2 = m := Option.some.inj (hs2.symm.trans hs)
    subst e
    rcases h1 with ⟨_, _, h1⟩ | ⟨_, h1⟩
    · rw [h1]
      rcases acquiresleep_cases
        (((c.unlink m2).push (hash (toInt blockno)).toNat m2.minbuf).incref m2.minbuf)
        pid m2.minbuf with ⟨_, h3⟩ | ⟨_, h3⟩ <;> rw [h3] <;> rfl
    · rw [h1]
      rcases acquiresleep_cases
        (((c.unlink m2).push (hash (toInt blockno)).toNat m2.minbuf).claim m2.minbuf
          dev blockno) pid m2.minbuf with ⟨_, h3⟩ | ⟨_, h3⟩ <;> rw [h3] <;> rfl

/-- C11. For every cache state and every `bget(dev, blockno)` that finds no buffer of the
block in the bucket of `blockno`: the call halts the kernel exactly when no buffer on a
bucket list has `refcnt` 0, the halt is `panic("bget: no buffers")` with the cache as it
was; and when some buffer has `refcnt` 0, whatever its timestamp, the scan ends with a
candidate, a buffer with `refcnt` 0, and `bget` returns it, at once if its sleep-lock is
free and after waiting for the sleep-lock if that is taken. -/
theorem bget_halts_iff_no_free_buffer (c : Bcache) (pid dev blockno : Nat)
    (hh : ¬ hash (toInt blockno) < 0)
    (hmiss : lookup c.buf dev blockno (c.hashtable (hash (toInt blockno)).toNat) = none) :
    ((∃ msg s, bget c pid dev blockno = .panic msg s) ↔
      ∀ i, i < NBUCKET → ∀ b ∈ c.hashtable i, (c.buf b).refcnt ≠ 0) ∧
    (∀ msg s, bget c pid dev blockno = .panic msg s → msg = .bget_no_buffers ∧ s = c) ∧
    ((∃ i, i < NBUCKET ∧ ∃ b ∈ c.hashtable i, (c.buf b).refcnt = 0) →
      ∃ m, (scanAll c).1 = some m ∧ (c.buf m.minbuf).refcnt = 0 ∧
        (((c.buf m.minbuf).lock = none ∧ ∃ c2, bget c pid dev blockno = .ret c2 m.minbuf) ∨
         ((c.buf m.minbuf).lock ≠ none ∧
          ∃ c2, bget c pid dev blockno = .sleep c2 m.minbuf))) := by
  have hsome : ∀ m, (scanAll c).1 = some m → ∀ msg s, bget c pid dev blockno ≠ .panic msg s := by
    intro m hs msg s hp
    rcases bget_miss_outcome c pid dev blockno m hh hmiss hs with ⟨_, c2, h2⟩ | ⟨_, c2, h2⟩
    · rw [h2] at hp; cases hp
    · rw [h2] at hp; cases hp
  have hnone : (scanAll c).1 = none → bget c pid dev blockno = .panic .bget_no_buffers c := by
    intro hs
    rcases bget_cases c pid dev blockno with ⟨h1, _⟩ | ⟨_, z, hl, _⟩ | ⟨_, _, _, h1⟩ |
      ⟨_, _, m2, hs2, _⟩
    · exact absurd h1 hh
    · rw [hmiss] at hl; cases hl
    · exact h1
    · rw [hs] at hs2; cases hs2
  refine ⟨⟨?_, ?_⟩, ?_, ?_⟩
  · rintro ⟨msg, s, hp⟩
    cases hs : (scanAll c).1 with
    | none => exact scanAll_none c hs
    | some m => exact absurd hp (hsome m hs msg s)
  · intro hall
    cases hs : (scanAll c).1 with
    | none => exact ⟨_, _, hnone hs⟩
    | some m =>
      have hg := scanAll_good c m hs
      exact absurd hg.2.2 (hall _ hg.1 _ (goodCand_mem c m hg))
  · intro msg s hp
    cases hs : (scanAll c).1 with
    | none =>
      rw [hnone hs] at hp
      cases hp
      exact ⟨rfl, rfl⟩
    | some m => exact absurd hp (hsome m hs msg s)
  · intro hfree
    obtain ⟨m, hs⟩ := scanAll_some c hfree
    exact ⟨m, hs, (scanAll_good c m hs).2.2, bget_miss_outcome c pid dev blockno m hh hmiss hs⟩

/-- C15. The selection rule of the eviction. For every cache state and every `bget` that
misses while some buffer on a bucket list has `refcnt` 0, the scan ends with a candidate,
which is the buffer `bget` takes off its list and pushes on the list of the bucket of
the block. It has `refcnt` 0; no buffer with `refcnt` 0 on any list has a larger
timestamp; and a buffer with `refcnt` 0 and the same timestamp is in a bucket of lower
index, or in the same bucket at the same place or nearer to the head. -/
theorem eviction_selection_rule (c : Bcache) (pid dev blockno : Nat)
    (hh : ¬ hash (toInt blockno) < 0)
    (hmiss : lookup c.buf dev blockno (c.hashtable (hash (toInt blockno)).toNat) = none)
    (hfree : ∃ i, i < NBUCKET ∧ ∃ b ∈ c.hashtable i, (c.buf b).refcnt = 0) :
    ∃ m, (scanAll c).1 = some m ∧
      (bget c pid dev blockno).state.hashtable (hash (toInt blockno)).toNat =
        m.minbuf :: (c.unlink m).hashtable (hash (toInt blockno)).toNat ∧
      m.max_bucket < NBUCKET ∧ (c.hashtable m.max_bucket)[m.prevminbuf]? = some m.minbuf ∧
      (c.buf m.minbuf).refcnt = 0 ∧
      ∀ j q b, j < NBUCKET → (c.hashtable j)[q]? = some b → (c.buf b).refcnt = 0 →
        (c.buf b).timestamp ≤ (c.buf m.minbuf).timestamp ∧
        ((c.buf b).timestamp = (c.buf m.minbuf).timestamp →
          j < m.max_bucket ∨ (j = m.max_bucket ∧ q ≤ m.prevminbuf)) := by
  obtain ⟨m, hs⟩ := scanAll_some c hfree
  have hg := scanAll_good c m hs
  refine ⟨m, hs, ?_, hg.1, hg.2.1, hg.2.2, scanAll_max c m hs⟩
  rw [bget_miss_hashtable c pid dev blockno m hh hmiss hs, push_hashtable_same]

theorem bget_halts_iff_no_free_buffer_witness :
    (∃ msg s, bget exampleReleased.bcache 2 1 2 = .panic msg s) ↔
      ∀ i, i < NBUCKET → ∀ b ∈ exampleReleased.bcache.hashtable i,
        (exampleReleased.bcache.buf b).refcnt ≠ 0 :=
  (bget_halts_iff_no_free_buffer exampleReleased.bcache 2 1 2 (by decide) (by decide)).1

theorem eviction_selection_rule_witness :
    ∃ m, (scanAll exampleReleased.bcache).1 = some m ∧
      (bget exampleReleased.bcache 2 1 2).state.hashtable (hash (toInt 2)).toNat =
        m.minbuf :: (exampleReleased.bcache.unlink m).hashtable (hash (toInt 2)).toNat ∧
      m.max_bucket < NBUCKET ∧
      (exampleReleased.bcache.hashtable m.max_bucket)[m.prevminbuf]? = some m.minbuf ∧
      (exampleReleased.bcache.buf m.minbuf).refcnt = 0 ∧
      ∀ j q b, j < NBUCKET → (exampleReleased.bcache.hashtable j)[q]? = some b →
        (exampleReleased.bcache.buf b).refcnt = 0 →
        (exampleReleased.bcache.buf b).timestamp ≤
          (exampleReleased.bcache.buf m.minbuf).timestamp ∧
        ((exampleReleased.bcache.buf b).timestamp =
            (exampleReleased.bcache.buf m.minbuf).timestamp →
          j < m.max_bucket ∨ (j = m.max_bucket ∧ q ≤ m.prevminbuf)) :=
  eviction_selection_rule exampleReleased.bcache 2 1 2 (by decide) (by decide)
    ⟨0, by decide, 1, by decide, by decide⟩

theorem placed_binit (NBUF : Nat) : Placed (binit NBUF) := by
  intro i _ b hb
  rw [binit_hashtable] at hb
  by_cases hi : i = 0
  · subst hi
    exact hash_zero
  · simp [hi] at hb

/-- With every buffer in the bucket of its block, the scan of the bucket of the block
after the candidate has been pushed on its list finds no more than the scan before. -/
theorem rescan_misses (c : Bcache) (dev blockno : Nat) (m : Cand) (hpl : Placed c)
    (hmiss : lookup c.buf dev blockno (c.hashtable (hash (toInt blockno)).toNat) = none)
    (hs : (scanAll c).1 = some m) :
    lookup ((c.unlink m).push (hash (toInt blockno)).toNat m.minbuf).buf dev blockno
      (((c.unlink m).push (hash (toInt blockno)).toNat m.minbuf).hashtable
        (hash (toInt blockno)).toNat) = none := by
  have hg := scanAll_good c m hs
  rw [push_hashtable_same, push_buf, unlink_buf, lookup_none_iff]
  intro x hx hk
  rcases List.mem_cons.1 hx with e | hx
  · have hzm := goodCand_mem c m hg
    have hpl2 := hpl _ hg.1 _ hzm
    rw [e] at hk
    rw [hk.2] at hpl2
    rw [← hpl2.2] at hzm
    exact (lookup_none_iff _ _ _ _).1 hmiss _ hzm hk
  · exact (lookup_none_iff _ _ _ _).1 hmiss x ((unlink_sublist c m _).subset hx) hk

theorem placed_touch (c c2 : Bcache) (hpl : Placed c) (hht : c2.hashtable = c.hashtable)
    (hbn : ∀ x, (c2.buf x).blockno = (c.buf x).blockno) : Placed c2 := by
  intro i hi b hb
  rw [hht] at hb
  rw [hbn b]
  exact hpl i hi b hb

theorem placed_bget (NBUF : Nat) (c : Bcache) (pid dev blockno : Nat) (c2 : Bcache) (b : Nat)
    (hp : Partition NBUF c.hashtable) (hpl : Placed c)
    (h : bget c pid dev blockno = .ret c2 b) : Placed c2 := by
  obtain ⟨hh, hcase⟩ := bget_ret_cases c pid dev blockno c2 b h
  rcases hcase with ⟨_, hht, hbuf, hb⟩ | ⟨hl, m, hs, hmb, hk, _, _, _⟩ |
    ⟨hl, m, hs, hmb, hht, hbuf, hb⟩
  · refine placed_touch c c2 hpl hht ?_
    intro x
    by_cases hx : x = b
    · rw [hx, hb]
    · rw [hbuf x hx]
  · exfalso
    have := rescan_misses c dev blockno m hpl hl hs
    rw [push_hashtable_same, push_buf, unlink_buf, lookup_none_iff] at this
    exact this m.minbuf (List.mem_cons_self _ _) (hmb ▸ hk)
  · have hg := scanAll_good c m hs
    intro i hi x hx
    rw [hht, mem_move NBUF c m _ x i hp hg hi] at hx
    rcases hx with ⟨hxz, hih⟩ | ⟨hxz, hxi⟩
    · rw [hxz, hmb, hb, hih]
      exact ⟨hh, rfl⟩
    · rw [hbuf x (hmb ▸ hxz)]
      exact hpl i hi x hxi

theorem placed_exec (NBUF : Nat) (w : World) (op : Op) (w2 : World) (r : Option Nat)
    (hp : Partition NBUF w.bcache.hashtable) (hpl : Placed w.bcache)
    (he : exec w op = .ret w2 r) : Placed w2.bcache := by
  cases op with
  | bget pid dev blockno =>
    obtain ⟨b, _, hb, _, _⟩ := exec_bget_ret w pid dev blockno w2 r he
    exact placed_bget NBUF _ pid dev blockno _ b hp hpl hb
  | bread pid dev blockno =>
    obtain ⟨b, _, hb⟩ := exec_bread_ret w pid dev blockno w2 r he
    obtain ⟨c, hc, _, hht, hbuf, hcase⟩ := bread_ret w pid dev blockno w2 b hb
    refine placed_touch c _ (placed_bget NBUF _ pid dev blockno c b hp hpl hc) hht ?_
    intro x
    by_cases hx : x = b
    · rw [hx]
      rcases hcase with ⟨_, h1, _⟩ | ⟨_, h1, _⟩ <;> rw [h1]
    · rw [hbuf x hx]
  | bwrite pid b =>
    obtain ⟨_, _, hw⟩ := exec_bwrite_ret w pid b w2 r he
    rw [hw]
    simpa [virtio_disk_rw] using hpl
  | brelse pid b ticks =>
    obtain ⟨_, hb, _, _⟩ := exec_brelse_ret w pid b ticks w2 r he
    rcases brelse_cases w.bcache pid b ticks with ⟨_, h⟩ | ⟨_, _, h⟩ | ⟨_, _, c2, h, hht, hbuf, hbb⟩
    · rw [h] at hb; cases hb
    · rw [h] at hb; cases hb
    · rw [h] at hb
      cases hb
      refine placed_touch _ _ hpl hht ?_
      intro x
      by_cases hx : x = b
      · rw [hx, hbb]
      · rw [hbuf x hx]
  | bpin b =>
    obtain ⟨_, hb, _, _⟩ := exec_bpin_ret w b w2 r he
    rw [hb]
    refine placed_touch _ _ hpl rfl ?_
    intro x
    by_cases hx : x = b
    · rw [hx, Bcache.incref, modify_buf_same]
    · rw [Bcache.incref, modify_buf_ne _ _ _ _ hx]
  | bunpin b =>
    obtain ⟨_, hb, _, _⟩ := exec_bunpin_ret w b w2 r he
    rw [hb]
    refine placed_touch _ _ hpl rfl ?_
    intro x
    by_cases hx : x = b
    · rw [hx, Bcache.decref, modify_buf_same]
    · rw [Bcache.decref, modify_buf_ne _ _ _ _ hx]
  | store pid b d =>
    obtain ⟨_, _, _, hcase⟩ := exec_store_ret w pid b d w2 r he
    rcases hcase with ⟨_, hb⟩ | ⟨_, hb⟩
    · rw [hb]
      refine placed_touch _ _ hpl rfl ?_
      intro x
      by_cases hx : x = b
      · rw [hx, modify_buf_same]
      · rw [modify_buf_ne _ _ _ _ hx]
    · rw [hb]; exact hpl

theorem placed_run (NBUF : Nat) (ops : List Op) :
    ∀ (w w2 : World), Partition NBUF w.bcache.hashtable → Placed w.bcache →
      run w ops = some w2 → Placed w2.bcache := by
  induction ops with
  | nil =>
    intro w w2 _ hpl h
    simp only [run, Option.some.injEq] at h
    rw [← h]; exact hpl
  | cons op rest ih =>
    intro w w2 hp hpl h
    cases he : exec w op with
    | ret w1 r =>
      simp only [run, he] at h
      have hp1 := partition_exec NBUF w op hp
      rw [he] at hp1
      exact ih w1 w2 hp1 (placed_exec NBUF w op w1 r hp hpl he) h
    | panic m w1 => simp only [run, he] at h; cases h
    | sleep w1 z => simp only [run, he] at h; cases h
    | oob w1 => simp only [run, he] at h; cases h

/-- C19. The bucket-placement invariant. In every state reached from `binit` by calls
that each return, every buffer below `NBUF` is on the list of the bucket
`hash(b.blockno)`, an index that is not negative: so the bucket lock that `brelse`,
`bpin` and `bunpin` take for `b` is the lock of the bucket whose list has `b`; and when
a `bget` misses and evicts, the scan of the target bucket after the candidate has been
pushed on its list finds no buffer of the block. -/
theorem buffers_in_bucket_of_block (NBUF : Nat) (disk : Nat → Nat → Nat) (ops : List Op)
    (w : World) (h : run (boot NBUF disk) ops = some w) :
    (∀ b, b < NBUF → ¬ hash (toInt (w.bcache.buf b).blockno) < 0 ∧
      (hash (toInt (w.bcache.buf b).blockno)).toNat < NBUCKET ∧
      b ∈ w.bcache.hashtable (hash (toInt (w.bcache.buf b).blockno)).toNat) ∧
    (∀ dev blockno m, ¬ hash (toInt blockno) < 0 →
      lookup w.bcache.buf dev blockno
        (w.bcache.hashtable (hash (toInt blockno)).toNat) = none →
      (scanAll w.bcache).1 = some m →
      lookup ((w.bcache.unlink m).push (hash (toInt blockno)).toNat m.minbuf).buf dev blockno
        (((w.bcache.unlink m).push (hash (toInt blockno)).toNat m.minbuf).hashtable
          (hash (toInt blockno)).toNat) = none) := by
  have hp : Partition NBUF w.bcache.hashtable :=
    partition_run NBUF ops (boot NBUF disk) w (partition_binit NBUF) h
  have hpl : Placed w.bcache :=
    placed_run NBUF ops (boot NBUF disk) w (partition_binit NBUF) (placed_binit NBUF) h
  constructor
  · intro b hb
    obtain ⟨i, hi, hbi⟩ := (hp.cover b).1 hb
    obtain ⟨h1, h2⟩ := hpl i hi b hbi
    rw [h2]
    exact ⟨h1, hi, hbi⟩
  · intro dev blockno m _ hmiss hs
    exact rescan_misses w.bcache dev blockno m hpl hmiss hs

theorem buffers_in_bucket_of_block_witness :
    ¬ hash (toInt (exampleWorld.bcache.buf 0).blockno) < 0 ∧
      (hash (toInt (exampleWorld.bcache.buf 0).blockno)).toNat < NBUCKET ∧
      0 ∈ exampleWorld.bcache.hashtable (hash (toInt (exampleWorld.bcache.buf 0).blockno)).toNat :=
  (buffers_in_bucket_of_block 3 exampleDisk (Op.bread 1 1 1 :: exampleOps) exampleWorld
    rfl).1 0 (by decide)

theorem bget_counts (c : Bcache) (pid dev blockno : Nat) (c2 : Bcache) (b : Nat)
    (h : bget c pid dev blockno = .ret c2 b) :
    (c.buf b).lock = none ∧ (c2.buf b).lock = some pid ∧ (∀ x, x ≠ b → c2.buf x = c.buf x) ∧
    ((c2.buf b).refcnt = ((c.buf b).refcnt + 1) % 2 ^ 32 ∨
      ((c.buf b).refcnt = 0 ∧ (c2.buf b).refcnt = 1)) := by
  have hl : (c.buf b).lock = none := by
    rcases bget_cases c pid dev blockno with ⟨_, h1⟩ | ⟨_, z, _, h1⟩ | ⟨_, _, _, h1⟩ |
        ⟨_, _, m, _, ⟨_, _, h1⟩ | ⟨_, h1⟩⟩
    · rw [h1] at h; cases h
    · rw [h1] at h
      obtain ⟨hz, hl, _⟩ := acquiresleep_ret _ _ _ _ _ h
      subst hz
      simpa [Bcache.incref, Bcache.modify] using hl
    · rw [h1] at h; cases h
    · rw [h1] at h
      obtain ⟨hz, hl, _⟩ := acquiresleep_ret _ _ _ _ _ h
      subst hz
      simpa [Bcache.incref, Bcache.modify, Bcache.push, Bcache.unlink] using hl
    · rw [h1] at h
      obtain ⟨hz, hl, _⟩ := acquiresleep_ret _ _ _ _ _ h
      subst hz
      simpa [Bcache.claim, Bcache.modify, Bcache.push, Bcache.unlink] using hl
  obtain ⟨_, hc⟩ := bget_ret_cases c pid dev blockno c2 b h
  rcases hc with ⟨_, _, ho, hb⟩ | ⟨_, m, _, _, _, _, ho, hb⟩ | ⟨_, m, hm, hmb, _, ho, hb⟩
  · exact ⟨hl, by rw [hb], ho, Or.inl (by rw [hb])⟩
  · exact ⟨hl, by rw [hb], ho, Or.inl (by rw [hb])⟩
  · have hg := (scanAll_good c m hm).2.2
    rw [hmb] at hg
    exact ⟨hl, by rw [hb], ho, Or.inr ⟨hg, by rw [hb]⟩⟩

theorem bread_counts (w : World) (pid dev blockno : Nat) (w2 : World) (b : Nat)
    (h : bread w pid dev blockno = .ret w2 b) :
    (w.bcache.buf b).lock = none ∧ (w2.bcache.buf b).lock = some pid ∧
    (∀ x, x ≠ b → (w2.bcache.buf x).lock = (w.bcache.buf x).lock ∧
      (w2.bcache.buf x).refcnt = (w.bcache.buf x).refcnt) ∧
    ((w2.bcache.buf b).refcnt = ((w.bcache.buf b).refcnt + 1) % 2 ^ 32 ∨
      ((w.bcache.buf b).refcnt = 0 ∧ (w2.bcache.buf b).refcnt = 1)) := by
  obtain ⟨c, hg, _, _, ho, hb⟩ := bread_ret w pid dev blockno w2 b h
  obtain ⟨h1, h2, h3, h4⟩ := bget_counts _ _ _ _ _ _ hg
  have hlr : (w2.bcache.buf b).lock = (c.buf b).lock ∧
      (w2.bcache.buf b).refcnt = (c.buf b).refcnt := by
    rcases hb with ⟨_, e, _⟩ | ⟨_, e, _⟩ <;> rw [e] <;> exact ⟨rfl, rfl⟩
  refine ⟨h1, by rw [hlr.1]; exact h2, ?_, ?_⟩
  · intro x hx
    rw [ho x hx, h3 x hx]
    exact ⟨rfl, rfl⟩
  · rw [hlr.2]; exact h4

theorem counts_hand_out (t : Tally) (c c2 : Bcache) (pid b : Nat) (v : Nat)
    (hv : v = t.holds b + 1 ∨ v = 1) (hc : Counts t c)
    (h1 : (c.buf b).lock = none) (h2 : (c2.buf b).lock = some pid)
    (h3 : ∀ x, x ≠ b → (c2.buf x).lock = (c.buf x).lock ∧ (c2.buf x).refcnt = (c.buf x).refcnt)
    (h4 : (c2.buf b).refcnt = ((c.buf b).refcnt + 1) % 2 ^ 32 ∨
      ((c.buf b).refcnt = 0 ∧ (c2.buf b).refcnt = 1)) :
    Counts { t with holds := Function.update t.holds b v } c2 := by
  intro x
  by_cases hx : x = b
  · subst hx
    obtain ⟨ha, hb⟩ := hc x
    rw [h1] at ha
    simp only [Option.isSome_none, Bool.false_eq_true, if_false] at ha
    have hv1 : v = 1 := by rcases hv with e | e <;> omega
    simp only [Function.update_same, h2, Option.isSome_some, if_true, hv1, true_and]
    rcases h4 with e | ⟨e0, e1⟩
    · rw [e, hb, ha]; omega
    · rw [e1]; rw [e0, ha] at hb; omega
  · obtain ⟨ha, hb⟩ := hc x
    simp only [Function.update_noteq hx, (h3 x hx).1, (h3 x hx).2]
    exact ⟨ha, hb⟩

theorem counts_exec (t : Tally) (w w2 : World) (op : Op) (r : Option Nat)
    (hc : Counts t w.bcache) (hwf : WellFormedCall t op) (h : exec w op = .ret w2 r) :
    Counts (t.step w.bcache w2.bcache op r) w2.bcache := by
  cases op with
  | bget pid dev blockno =>
    obtain ⟨b, hr, hg, _⟩ := exec_bget_ret _ _ _ _ _ _ h
    subst hr
    obtain ⟨h1, h2, h3, h4⟩ := bget_counts _ _ _ _ _ _ hg
    simp only [Tally.step]
    refine counts_hand_out t _ _ pid b _ ?_ hc h1 h2 (fun x hx => by rw [h3 x hx]; exact ⟨rfl, rfl⟩) h4
    split
    · left; rfl
    · right; rfl
  | bread pid dev blockno =>
    obtain ⟨b, hr, hg⟩ := exec_bread_ret _ _ _ _ _ _ h
    subst hr
    obtain ⟨h1, h2, h3, h4⟩ := bread_counts _ _ _ _ _ _ hg
    simp only [Tally.step]
    refine counts_hand_out t _ _ pid b _ ?_ hc h1 h2 h3 h4
    split
    · left; rfl
    · right; rfl
  | bwrite pid b =>
    obtain ⟨hr, _, hw⟩ := exec_bwrite_ret _ _ _ _ _ h
    subst hr
    have e : w2.bcache = w.bcache := by rw [hw]; simp [virtio_disk_rw]
    simp only [Tally.step]
    rw [e]; exact hc
  | brelse pid b ticks =>
    obtain ⟨hr, hb, _⟩ := exec_brelse_ret _ _ _ _ _ _ h
    subst hr
    rcases brelse_cases w.bcache pid b ticks with ⟨_, e⟩ | ⟨_, _, e⟩ | ⟨hl, _, c2, e, _, ho, hn⟩
    · rw [e] at hb; cases hb
    · rw [e] at hb; cases hb
    · rw [e] at hb
      injection hb with hb
      subst hb
      simp only [Tally.step]
      intro x
      by_cases hx : x = b
      · subst hx
        obtain ⟨ha, hb⟩ := hc x
        rw [hl] at ha
        simp only [Option.isSome_some, if_true] at ha
        simp only [Function.update_same, hn, Option.isSome_none, Bool.false_eq_true, if_false]
        rw [hb, ha]
        omega
      · obtain ⟨ha, hb⟩ := hc x
        simp only [Function.update_noteq hx, ho x hx]
        exact ⟨ha, hb⟩
  | bpin b =>
    obtain ⟨hr, hb, _⟩ := exec_bpin_ret _ _ _ _ h
    subst hr
    simp only [Tally.step, hb]
    intro x
    obtain ⟨ha, hq⟩ := hc x
    by_cases hx : x = b
    · subst hx
      simp only [Bcache.incref, Bcache.modify, Function.update_same]
      refine ⟨ha, ?_⟩
      rw [hq]; omega
    · simp only [Bcache.incref, Bcache.modify, Function.update_noteq hx]
      exact ⟨ha, hq⟩
  | bunpin b =>
    obtain ⟨hr, hb, _⟩ := exec_bunpin_ret _ _ _ _ h
    subst hr
    have hp : 0 < t.pins b := hwf
    simp only [Tally.step, hb]
    intro x
    obtain ⟨ha, hq⟩ := hc x
    by_cases hx : x = b
    · subst hx
      simp only [Bcache.decref, Bcache.modify, Function.update_same]
      refine ⟨ha, ?_⟩
      rw [hq]; omega
    · simp only [Bcache.decref, Bcache.modify, Function.update_noteq hx]
      exact ⟨ha, hq⟩
  | store pid b d =>
    obtain ⟨hr, _, _, hs⟩ := exec_store_ret _ _ _ _ _ _ h
    subst hr
    simp only [Tally.step]
    rcases hs with ⟨_, e⟩ | ⟨_, e⟩
    · rw [e]
      intro x
      obtain ⟨ha, hb⟩ := hc x
      by_cases hx : x = b
      · subst hx
        simp only [Bcache.modify, Function.update_same]
        exact ⟨ha, hb⟩
      · simp only [Bcache.modify, Function.update_noteq hx]
        exact ⟨ha, hb⟩
    · rw [e]; exact hc

theorem counts_tally : ∀ (ops : List Op) (t : Tally) (w : World) (t2 : Tally) (w2 : World),
    Counts t w.bcache → tally t w ops = some (t2, w2) → Counts t2 w2.bcache := by
  intro ops
  induction ops with
  | nil =>
    intro t w t2 w2 hc h
    simp only [tally, Option.some.injEq, Prod.mk.injEq] at h
    rw [← h.1, ← h.2]; exact hc
  | cons op ops ih =>
    intro t w t2 w2 hc h
    unfold tally at h
    by_cases hwf : WellFormedCall t op
    · rw [if_pos hwf] at h
      cases he : exec w op with
      | ret w1 r =>
        rw [he] at h
        exact ih _ _ _ _ (counts_exec t w w1 op r hc hwf he) h
      | panic m s => rw [he] at h; cases h
      | sleep s z => rw [he] at h; cases h
      | oob s => rw [he] at h; cases h
    · rw [if_neg hwf] at h; cases h

theorem counts_boot (NBUF : Nat) (disk : Nat → Nat → Nat) :
    Counts Tally.start (boot NBUF disk).bcache := by
  intro b
  simp [Tally.start, boot, binit, Buf.zero]

theorem tally_bpins (b : Nat) : ∀ (n : Nat) (t : Tally) (w : World),
    ¬ hash (toInt (w.bcache.buf b).blockno) < 0 → (w.bcache.buf b).refcnt < 2 ^ 32 →
    ∃ t2 w2, tally t w (List.replicate n (Op.bpin b)) = some (t2, w2) ∧
      t2.holds = t.holds ∧ t2.pins b = t.pins b + n ∧
      (w2.bcache.buf b).lock = (w.bcache.buf b).lock ∧
      (w2.bcache.buf b).refcnt = ((w.bcache.buf b).refcnt + n) % 2 ^ 32 := by
  intro n
  induction n with
  | zero =>
    intro t w _ hr
    exact ⟨t, w, rfl, rfl, rfl, rfl, by rw [Nat.add_zero, Nat.mod_eq_of_lt hr]⟩
  | succ n ih =>
    intro t w hh hr
    have he : exec w (Op.bpin b) = .ret { w with bcache := w.bcache.incref b } none := by
      simp only [exec, bpin, if_neg hh]
    have hstep : tally t w (List.replicate (n + 1) (Op.bpin b)) =
        tally (t.step w.bcache (w.bcache.incref b) (Op.bpin b) none)
          { w with bcache := w.bcache.incref b } (List.replicate n (Op.bpin b)) := by
      rw [List.replicate_succ]
      simp only [tally, WellFormedCall, if_true, he]
    obtain ⟨t2, w2, h1, h2, h3, h4, h5⟩ :=
      ih (t.step w.bcache (w.bcache.incref b) (Op.bpin b) none)
        { w with bcache := w.bcache.incref b }
        (by simpa [Bcache.incref, Bcache.modify] using hh)
        (by simp only [Bcache.incref, Bcache.modify, Function.update_same]
            exact Nat.mod_lt _ (by norm_num))
    refine ⟨t2, w2, by rw [hstep]; exact h1, by rw [h2]; rfl, ?_, ?_, ?_⟩
    · rw [h3]; simp only [Tally.step, Function.update_same]; omega
    · rw [h4]; simp [Bcache.incref, Bcache.modify]
    · rw [h5]; simp only [Bcache.incref, Bcache.modify, Function.update_same]; omega

/-- C12 as amended. After every well-formed sequence of calls from `binit`, each run to
its return, the `refcnt` of every buffer is the number of its unmatched `bget`/`bread`
returns plus the number of its unmatched `bpin` calls, modulo `2 ^ 32`, and the number of
unmatched returns is 1 if the sleep-lock of the buffer is held and 0 if not. So `refcnt`
is that number of holders while it is below `2 ^ 32`; then `refcnt` is at least 1 where a
holder is left, in particular before every well-formed `brelse` or `bunpin`, and a
buffer whose sleep-lock is held, with fewer than `2 ^ 32 - 1` unmatched pins, has
`refcnt ≥ 1`. -/
theorem refcnt_counts_holders_mod (NBUF : Nat) (disk : Nat → Nat → Nat) (ops : List Op)
    (t : Tally) (w : World)
    (h : tally Tally.start (boot NBUF disk) ops = some (t, w)) (b : Nat) :
    (w.bcache.buf b).refcnt = (t.holds b + t.pins b) % 2 ^ 32 ∧
    t.holds b = (if ((w.bcache.buf b).lock).isSome then 1 else 0) ∧
    (t.holds b + t.pins b < 2 ^ 32 →
      (w.bcache.buf b).refcnt = t.holds b + t.pins b ∧
      (0 < t.holds b + t.pins b → 1 ≤ (w.bcache.buf b).refcnt)) ∧
    (((w.bcache.buf b).lock).isSome → t.pins b < 2 ^ 32 - 1 →
      1 ≤ (w.bcache.buf b).refcnt) := by
  obtain ⟨ha, hb⟩ := counts_tally ops _ _ _ _ (counts_boot NBUF disk) h b
  refine ⟨hb, ha, ?_, ?_⟩
  · intro hlt
    rw [hb, Nat.mod_eq_of_lt hlt]
    exact ⟨rfl, fun h0 => h0⟩
  · intro hl hp
    rw [if_pos hl] at ha
    rw [hb, ha]
    omega

set_option maxRecDepth 100000 in
theorem refcnt_counts_holders_mod_witness :
    tally Tally.start (boot 3 exampleDisk) (Op.bread 1 1 1 :: exampleOps) = some exampleCount ∧
    (exampleCount.2.bcache.buf 0).refcnt =
      (exampleCount.1.holds 0 + exampleCount.1.pins 0) % 2 ^ 32 ∧
    exampleCount.1.pins 0 = 1 ∧ (exampleCount.2.bcache.buf 0).refcnt = 1 :=
  ⟨rfl,
   (refcnt_counts_holders_mod 3 exampleDisk (Op.bread 1 1 1 :: exampleOps) exampleCount.1
     exampleCount.2 rfl 0).1,
   by decide, by decide⟩

set_option maxRecDepth 100000 in
theorem tally_bread_bpins (n : Nat) :
    ∃ t w, tally Tally.start (boot 3 exampleDisk)
        (Op.bread 1 1 1 :: List.replicate n (Op.bpin 0)) = some (t, w) ∧
      t.holds 0 = 1 ∧ t.pins 0 = n ∧ (w.bcache.buf 0).lock = some 1 ∧
      (w.bcache.buf 0).refcnt = (1 + n) % 2 ^ 32 := by
  have he : exec (boot 3 exampleDisk) (Op.bread 1 1 1) = .ret exampleRead (some 0) := rfl
  have hstep : tally Tally.start (boot 3 exampleDisk)
        (Op.bread 1 1 1 :: List.replicate n (Op.bpin 0)) =
      tally (Tally.start.step (boot 3 exampleDisk).bcache exampleRead.bcache
          (Op.bread 1 1 1) (some 0))
        exampleRead (List.replicate n (Op.bpin 0)) := by
    simp only [tally, WellFormedCall, if_true, he]
  obtain ⟨t2, w2, h1, h2, h3, h4, h5⟩ := tally_bpins 0 n
    (Tally.start.step (boot 3 exampleDisk).bcache exampleRead.bcache (Op.bread 1 1 1) (some 0))
    exampleRead (by decide) (by decide)
  refine ⟨t2, w2, by rw [hstep]; exact h1, by rw [h2]; decide, ?_, by rw [h4]; decide, ?_⟩
  · rw [h3]
    have : (Tally.start.step (boot 3 exampleDisk).bcache exampleRead.bcache
        (Op.bread 1 1 1) (some 0)).pins 0 = 0 := rfl
    rw [this, Nat.zero_add]
  · rw [h5]
    have : (exampleRead.bcache.buf 0).refcnt = 1 := by decide
    rw [this]

/-- C12 at a counterexample. Three buffers; `bread(1, 1)` returns buffer 0 and
`2 ^ 32 - 1` calls of `bpin` on it follow: a well-formed sequence, every call of which
returns. Buffer 0 then has `2 ^ 32` holders, one unmatched return and `2 ^ 32 - 1`
unmatched pins, its sleep-lock is held, and its `refcnt`, a `uint`, is 0. -/
theorem refcnt_wraps_to_zero_with_lock_held :
    ∃ t w, tally Tally.start (boot 3 exampleDisk)
        (Op.bread 1 1 1 :: List.replicate (2 ^ 32 - 1) (Op.bpin 0)) = some (t, w) ∧
      t.holds 0 + t.pins 0 = 2 ^ 32 ∧ (w.bcache.buf 0).lock = some 1 ∧
      (w.bcache.buf 0).refcnt = 0 ∧ (w.bcache.buf 0).refcnt ≠ t.holds 0 + t.pins 0 := by
  obtain ⟨t, w, h1, hh, hp, hl, hr⟩ := tally_bread_bpins (2 ^ 32 - 1)
  have hr0 : (w.bcache.buf 0).refcnt = 0 := by rw [hr]; norm_num
  refine ⟨t, w, h1, ?_, hl, hr0, ?_⟩
  · rw [hh, hp]; norm_num
  · rw [hr0, hh, hp]; norm_num

theorem heldFrom_append (a b : List Ev) : ∀ H, heldFrom H (a ++ b) = heldFrom (heldFrom H a) b := by
  induction a with
  | nil => intro H; rfl
  | cons e a ih =>
    intro H
    rw [List.cons_append]
    cases e <;> simp only [heldFrom] <;> exact ih _

theorem disc_append (a b : List Ev) :
    ∀ H, Disc H (a ++ b) ↔ Disc H a ∧ Disc (heldFrom H a) b := by
  induction a with
  | nil => intro H; simp [Disc, heldFrom]
  | cons e a ih =>
    intro H
    rw [List.cons_append]
    cases e <;> simp only [Disc, heldFrom, ih, and_assoc]

theorem disc_length : ∀ (es : List Ev) (H : List Int), Disc H es → H.length ≤ 2 →
    (heldFrom H es).length ≤ 2 := by
  intro es
  induction es with
  | nil => intro H _ h; exact h
  | cons e es ih =>
    intro H hd hl
    cases e with
    | acquire i =>
      obtain ⟨_, h2, h3⟩ := hd
      exact ih _ h3 (by simp only [List.length_cons]; omega)
    | release i =>
      obtain ⟨_, h3⟩ := hd
      exact ih _ h3 (Nat.le_trans (List.erase_sublist i H).length_le hl)
    | acquiresleep b => exact ih _ hd.2 hl
    | panic => exact ih _ hd hl

theorem scanBucketF_fst (buf : Nat → Buf) (i : Nat) :
    ∀ (l : List Nat) (pos : Nat) (s : (Option Cand × Nat) × Bool),
      (scanBucketF buf i l pos s).1 = scanBucket buf i l pos s.1 := by
  intro l
  induction l with
  | nil => intro pos s; rfl
  | cons b rest ih =>
    intro pos s
    unfold scanBucketF scanBucket
    split
    · rw [ih]
    · rw [ih]

theorem scanBucketF_flag (buf : Nat → Buf) (i : Nat) :
    ∀ (l : List Nat) (pos : Nat) (s : (Option Cand × Nat) × Bool),
      (s.2 = true → ∃ m, s.1.1 = some m ∧ m.max_bucket = i) →
      ((scanBucketF buf i l pos s).2 = true →
        ∃ m, (scanBucketF buf i l pos s).1.1 = some m ∧ m.max_bucket = i) := by
  intro l
  induction l with
  | nil => intro pos s h; exact h
  | cons b rest ih =>
    intro pos s h
    unfold scanBucketF
    split
    · exact ih _ _ (fun _ => ⟨_, rfl, rfl⟩)
    · exact ih _ _ h

theorem scanBucketF_noflag (buf : Nat → Buf) (i : Nat) :
    ∀ (l : List Nat) (pos : Nat) (s : (Option Cand × Nat) × Bool),
      (scanBucketF buf i l pos s).2 = false → (scanBucketF buf i l pos s).1 = s.1 ∧ s.2 = false := by
  intro l
  induction l with
  | nil => intro pos s h; exact ⟨rfl, h⟩
  | cons b rest ih =>
    intro pos s h
    unfold scanBucketF at h ⊢
    split
    · rename_i hc
      rw [if_pos hc] at h
      exact absurd (ih _ _ h).2 (by simp)
    · rename_i hc
      rw [if_neg hc] at h
      exact ih _ _ h

theorem disc_acquire_release (H : List Int) (n : Nat) (hH : ∀ j ∈ H, j < (n : Int))
    (hl : H.length < 2) : Disc H [Ev.acquire n, Ev.release n] := by
  simp only [Disc]
  exact ⟨hH, hl, List.mem_cons_self _ _, trivial⟩

theorem disc_acquire_swap (mb : Int) (n : Nat) (h : mb < (n : Int)) :
    Disc [mb] [Ev.acquire n, Ev.release mb] := by
  simp only [Disc]
  refine ⟨?_, by simp, by simp, trivial⟩
  intro j hj
  rw [List.mem_singleton] at hj
  rw [hj]; exact h

theorem scanT_step (c : Bcache) (n : Nat) (s : Scan) (h : ScanT c n s) :
    ScanT c (n + 1) (scanStep c s n) := by
  obtain ⟨h1, h2, h3, h4, h5, h6⟩ := h
  have hr1 := scanBucketF_fst c.buf n (c.hashtable n) 0 (s.st, false)
  have hfold : (List.range (n + 1)).foldl
      (fun st i => scanBucket c.buf i (c.hashtable i) 0 st) (none, 0) =
      scanBucket c.buf n (c.hashtable n) 0 s.st := by
    rw [List.range_succ, List.foldl_append, ← h1]
    rfl
  have hH : ∀ j ∈ heldFrom [] s.evs, j < (n : Int) := by
    intro j hj
    rw [h6] at hj
    by_cases hmb : s.max_bucket = -1
    · rw [if_pos hmb] at hj; cases hj
    · rw [if_neg hmb, List.mem_singleton] at hj
      rw [hj]; exact h3
  have hlen : (heldFrom [] s.evs).length < 2 := by
    rw [h6]
    by_cases hmb : s.max_bucket = -1
    · rw [if_pos hmb]; simp
    · rw [if_neg hmb]; simp
  have hn1 : ¬ ((n : Int) = -1) := by omega
  unfold scanStep
  by_cases hf : (scanBucketF c.buf n (c.hashtable n) 0 (s.st, false)).2 = true
  · simp only [hf, if_true]
    obtain ⟨m, hm1, hm2⟩ := scanBucketF_flag c.buf n (c.hashtable n) 0 (s.st, false)
      (by simp) hf
    refine ⟨by rw [hfold]; exact hr1, Or.inr ⟨m, hm1, by rw [hm2]⟩, ?_, ?_, ?_, ?_⟩
    · show (n : Int) < ((n + 1 : Nat) : Int)
      omega
    · show -1 ≤ (n : Int)
      omega
    · show Disc [] (s.evs ++ [Ev.acquire n] ++
        (if s.max_bucket ≠ -1 then [Ev.release s.max_bucket] else []))
      rw [List.append_assoc, disc_append]
      refine ⟨h5, ?_⟩
      by_cases hmb : s.max_bucket = -1
      · rw [if_neg (by simp [hmb]), List.append_nil]
        simp only [Disc]
        exact ⟨hH, hlen, trivial⟩
      · rw [if_pos hmb, h6, if_neg hmb]
        exact disc_acquire_swap _ n h3
    · show heldFrom [] (s.evs ++ [Ev.acquire n] ++
        (if s.max_bucket ≠ -1 then [Ev.release s.max_bucket] else [])) =
        (if (n : Int) = -1 then [] else [(n : Int)])
      rw [List.append_assoc, heldFrom_append, h6, if_neg hn1]
      by_cases hmb : s.max_bucket = -1
      · rw [if_pos hmb, if_neg (by simp [hmb])]
        rfl
      · rw [if_neg hmb, if_pos hmb]
        have hne2 : ¬ ((n : Int) = s.max_bucket) := by omega
        simp only [List.singleton_append, heldFrom]
        rw [List.erase_cons_tail (by simpa using hne2), List.erase_cons_head]
  · simp only [hf, Bool.false_eq_true, if_false]
    have hf2 : (scanBucketF c.buf n (c.hashtable n) 0 (s.st, false)).2 = false := by
      simpa using hf
    have hsame := (scanBucketF_noflag c.buf n (c.hashtable n) 0 (s.st, false) hf2).1
    refine ⟨by rw [hfold]; exact hr1, ?_, ?_, h4, ?_, ?_⟩
    · show ((scanBucketF c.buf n (c.hashtable n) 0 (s.st, false)).1.1 = none ∧ s.max_bucket = -1) ∨
        ∃ m, (scanBucketF c.buf n (c.hashtable n) 0 (s.st, false)).1.1 = some m ∧
          s.max_bucket = (m.max_bucket : Int)
      rw [hsame]; exact h2
    · show s.max_bucket < ((n + 1 : Nat) : Int)
      omega
    · show Disc [] (s.evs ++ [Ev.acquire n, Ev.release n])
      rw [disc_append]
      exact ⟨h5, disc_acquire_release _ n hH hlen⟩
    · show heldFrom [] (s.evs ++ [Ev.acquire n, Ev.release n]) =
        (if s.max_bucket = -1 then [] else [s.max_bucket])
      rw [heldFrom_append, ← h6]
      simp only [heldFrom, List.erase_cons_head]

theorem scanT_range (c : Bcache) (n : Nat) :
    ScanT c n ((List.range n).foldl (scanStep c) { st := (none, 0), max_bucket := -1, evs := [] }) := by
  induction n with
  | zero =>
    refine ⟨rfl, Or.inl ⟨rfl, rfl⟩, by simp, by simp, ?_, ?_⟩
    · simp [Disc]
    · simp [heldFrom]
  | succ n ih =>
    rw [List.range_succ, List.foldl_append]
    exact scanT_step c n _ ih

theorem scanTrace_st (c : Bcache) : (scanTrace c).st = scanAll c :=
  (scanT_range c NBUCKET).1

theorem bgetT_fst (c : Bcache) (pid dev blockno : Nat) :
    (bgetT c pid dev blockno).1 = bget c pid dev blockno := by
  unfold bgetT bget
  by_cases hh : hash (toInt blockno) < 0
  · simp only [if_pos hh]
  · simp only [if_neg hh, scanTrace_st]
    cases lookup c.buf dev blockno (c.hashtable (hash (toInt blockno)).toNat) with
    | some b => rfl
    | none =>
      cases (scanAll c).1 with
      | none =>
        simp only
        cases lookup c.buf dev blockno (c.hashtable (hash (toInt blockno)).toNat) <;> rfl
      | some m =>
        simp only
        cases lookup ((c.unlink m).push (hash (toInt blockno)).toNat m.minbuf).buf dev blockno
          (((c.unlink m).push (hash (toInt blockno)).toNat m.minbuf).hashtable
            (hash (toInt blockno)).toNat) <;> rfl

theorem disc_tail (hi : Int) (b : Nat) :
    Disc [] [Ev.acquire hi, Ev.release hi, Ev.acquiresleep b] ∧
    heldFrom [] [Ev.acquire hi, Ev.release hi, Ev.acquiresleep b] = [] := by
  simp [Disc, heldFrom]

theorem disc_miss_prefix (hi : Int) (evs rel : List Ev) (H : List Int)
    (h5 : Disc [] evs) (h6 : heldFrom [] evs = H)
    (hrel : Disc H rel ∧ heldFrom H rel = []) :
    Disc [] ([Ev.acquire hi, Ev.release hi] ++ evs ++ rel ++ [Ev.acquire hi]) ∧
    heldFrom [] ([Ev.acquire hi, Ev.release hi] ++ evs ++ rel ++ [Ev.acquire hi]) = [hi] := by
  have hA : Disc [] [Ev.acquire hi, Ev.release hi] ∧
      heldFrom [] [Ev.acquire hi, Ev.release hi] = [] := by
    simp [Disc, heldFrom]
  have h1 : heldFrom [] ([Ev.acquire hi, Ev.release hi] ++ evs ++ rel) = [] := by
    rw [heldFrom_append, heldFrom_append, hA.2, h6, hrel.2]
  constructor
  · rw [disc_append, disc_append, disc_append, h1, heldFrom_append, hA.2, h6]
    refine ⟨⟨⟨hA.1, h5⟩, hrel.1⟩, ?_⟩
    simp [Disc]
  · rw [heldFrom_append, h1]
    rfl

theorem disc_miss_tail (hi : Int) (pre : List Ev) (b : Nat)
    (h : Disc [] pre ∧ heldFrom [] pre = [hi]) :
    Disc [] (pre ++ [Ev.release hi, Ev.acquiresleep b]) ∧
    heldFrom [] (pre ++ [Ev.release hi, Ev.acquiresleep b]) = [] := by
  rw [disc_append, heldFrom_append, h.2]
  refine ⟨⟨h.1, ?_⟩, ?_⟩
  · simp [Disc]
  · simp [heldFrom]

theorem bgetT_disc (c : Bcache) (pid dev blockno : Nat) :
    Disc [] (bgetT c pid dev blockno).2 ∧
    ((∀ msg s, (bgetT c pid dev blockno).1 ≠ .panic msg s) →
      heldFrom [] (bgetT c pid dev blockno).2 = []) := by
  obtain ⟨_, h2, _, _, h5, h6⟩ := scanT_range c NBUCKET
  have hs : (List.range NBUCKET).foldl (scanStep c)
      { st := (none, 0), max_bucket := -1, evs := [] } = scanTrace c := rfl
  rw [hs] at h2 h5 h6
  unfold bgetT
  by_cases hh : hash (toInt blockno) < 0
  · simp only [if_pos hh]
    exact ⟨trivial, fun _ => rfl⟩
  · simp only [if_neg hh]
    cases lookup c.buf dev blockno (c.hashtable (hash (toInt blockno)).toNat) with
    | some b =>
      exact ⟨(disc_tail _ b).1, fun _ => (disc_tail _ b).2⟩
    | none =>
      simp only
      rcases h2 with ⟨hn, hmb⟩ | ⟨m, hm, hmb⟩
      · have hpre := disc_miss_prefix (hash (toInt blockno)) (scanTrace c).evs [] []
          h5 (by rw [h6, if_pos hmb]) ⟨trivial, rfl⟩
        simp only [hn]
        cases lookup c.buf dev blockno (c.hashtable (hash (toInt blockno)).toNat) with
        | some b =>
          simp only
          have ht := disc_miss_tail _ _ b hpre
          exact ⟨ht.1, fun _ => ht.2⟩
        | none =>
          simp only
          refine ⟨?_, fun hp => absurd rfl (hp _ _)⟩
          rw [disc_append]
          exact ⟨hpre.1, trivial⟩
      · have hne : ¬ (scanTrace c).max_bucket = -1 := by omega
        have hpre := disc_miss_prefix (hash (toInt blockno)) (scanTrace c).evs
          [Ev.release (scanTrace c).max_bucket] [(scanTrace c).max_bucket]
          h5 (by rw [h6, if_neg hne]) (by simp [Disc, heldFrom])
        simp only [hm]
        cases lookup ((c.unlink m).push (hash (toInt blockno)).toNat m.minbuf).buf dev blockno
          (((c.unlink m).push (hash (toInt blockno)).toNat m.minbuf).hashtable
            (hash (toInt blockno)).toNat) with
        | some b =>
          simp only
          have ht := disc_miss_tail _ _ b hpre
          exact ⟨ht.1, fun _ => ht.2⟩
        | none =>
          simp only
          have ht := disc_miss_tail _ _ m.minbuf hpre
          exact ⟨ht.1, fun _ => ht.2⟩

/-- C17. The lock discipline of `bget`, for every call from every cache state. The
events of `bgetT` are those of a call with the outcome of `bget`. At no point of the call
are more than two bucket locks held; when a bucket lock is acquired, every bucket lock
held has a strictly lower index; only a lock that is held is released; when
`acquiresleep` is called no bucket lock is held; and when `bget` returns no bucket lock
is held. -/
theorem bget_lock_discipline (c : Bcache) (pid dev blockno : Nat) :
    (bgetT c pid dev blockno).1 = bget c pid dev blockno ∧
    (∀ p, p <+: (bgetT c pid dev blockno).2 → (held p).length ≤ 2) ∧
    (∀ p i rest, (bgetT c pid dev blockno).2 = p ++ Ev.acquire i :: rest →
      ∀ j ∈ held p, j < i) ∧
    (∀ p i rest, (bgetT c pid dev blockno).2 = p ++ Ev.release i :: rest → i ∈ held p) ∧
    (∀ p b rest, (bgetT c pid dev blockno).2 = p ++ Ev.acquiresleep b :: rest →
      held p = []) ∧
    (∀ c2 b, bget c pid dev blockno = .ret c2 b → held (bgetT c pid dev blockno).2 = []) := by
  obtain ⟨hd, hret⟩ := bgetT_disc c pid dev blockno
  refine ⟨bgetT_fst c pid dev blockno, ?_, ?_, ?_, ?_, ?_⟩
  · rintro p ⟨t, ht⟩
    rw [← ht, disc_append] at hd
    exact disc_length p [] hd.1 (by simp)
  · intro p i rest hp
    rw [hp, disc_append] at hd
    exact hd.2.1
  · intro p i rest hp
    rw [hp, disc_append] at hd
    exact hd.2.1
  · intro p b rest hp
    rw [hp, disc_append] at hd
    exact hd.2.1
  · intro c2 b hb
    apply hret
    intro msg s hp
    rw [bgetT_fst, hb] at hp
    cases hp

set_option maxRecDepth 100000 in
/-- The events of `bget(1, 2)` on three buffers, buffer 0 released at tick 5 in bucket 1
and buffers 2 and 1 unused in bucket 0: during the scan the locks of buckets 0 and 1 are
held together, then the lock of bucket 1 with that of each later bucket in turn. -/
theorem bgetT_example :
    (bgetT exampleReleased.bcache 2 1 2).2 =
      [.acquire 2, .release 2, .acquire 0, .acquire 1, .release 0,
       .acquire 2, .release 2, .acquire 3, .release 3, .acquire 4, .release 4,
       .acquire 5, .release 5, .acquire 6, .release 6, .acquire 7, .release 7,
       .acquire 8, .release 8, .acquire 9, .release 9, .acquire 10, .release 10,
       .acquire 11, .release 11, .acquire 12, .release 12,
       .release 1, .acquire 2, .release 2, .acquiresleep 0] := by
  decide

end Bio
